import Mathlib

/-!
The peopleremover core: voxel keys, floor arithmetic, occupancy index, voxel traversal,
classification.

A shallow embedding of `src/peopleremover/peopleremover.cc`, followed by the pose
conversion of `src/slam6d/frames2kitti.cc` (namespace `Frames2Kitti`).

Modelling conventions
* `double` values are exact rationals (`ℚ`); the thresholds `tMaxX/Y/Z`, which may hold
  `std::numeric_limits<double>::infinity()`, live in `WithTop ℚ`.
* `ssize_t` voxel indices are unbounded integers (`Int`); `size_t` slice indices and the
  window width are naturals, and the two `size_t` sums of the window test are reduced
  modulo `2^64` as the machine does.
* `std::set<size_t>` is an ascending duplicate-free `List ℕ`, `std::set<voxel>` is a
  `Finset voxel`, and `std::unordered_map<voxel, std::set<size_t>>` is a partial function.
* The `while` loop of `walk_voxels` is run with an explicit iteration budget (`fuel`).
* The C library routines `fmod` and `sqrt` are not part of the repository: `fmod` is given
  its exact-arithmetic meaning, `sqrt` is a parameter of `walk_voxels`.
* The namespace `PeopleRemover.Doubles` embeds the traversal a second time with `double` as
  IEEE 754 binary64, for the behaviour that rounding, overflow and not-a-number decide.
-/

namespace PeopleRemover

/-! ## Voxel keys -/

/-- The `struct voxel` of the source: three signed indices. -/
structure voxel where
  x : Int
  y : Int
  z : Int
deriving DecidableEq, Repr

/-- The `operator<` of `struct voxel`: lexicographic on x, then y, then z. -/
def voxel.lt (a rhs : voxel) : Bool :=
  if a.x ≠ rhs.x then decide (a.x < rhs.x)
  else if a.y ≠ rhs.y then decide (a.y < rhs.y)
  else decide (a.z < rhs.z)

/-- A `const double*` holding three coordinates `p[0]`, `p[1]`, `p[2]`. -/
structure Point where
  p0 : ℚ
  p1 : ℚ
  p2 : ℚ
deriving DecidableEq, Repr

/-! ## Floor arithmetic -/

/-- Conversion of a `double` to `ssize_t`: the fractional part is discarded
(rounding toward zero). -/
def trunc (q : ℚ) : Int := if 0 ≤ q then ⌊q⌋ else ⌈q⌉

/-- The C library `fmod` in exact arithmetic: `a - n*b` where `n` is `a/b` with its
fractional part discarded, so the result has the sign of `a` and magnitude below `|b|`. -/
def fmod (a b : ℚ) : ℚ := a - b * (trunc (a / b) : ℚ)

/-- Function `py_div` of the source. -/
def py_div (a b : ℚ) : Int :=
  let q := trunc (a / b)
  let r := fmod a b
  if r ≠ 0 ∧ (decide (r < 0) ≠ decide (b < 0)) then q - 1 else q

/-- Function `py_mod` of the source. -/
def py_mod (a b : ℚ) : ℚ :=
  let r := fmod a b
  if r ≠ 0 ∧ (decide (r < 0) ≠ decide (b < 0)) then r + b else r

/-- Function `voxel_of_point` of the source; the three out-parameters are returned as a key. -/
def voxel_of_point (p : Point) (voxel_size : ℚ) : voxel :=
  ⟨py_div p.p0 voxel_size, py_div p.p1 voxel_size, py_div p.p2 voxel_size⟩

/-! ## Occupancy index -/

/-- A `std::set<size_t>`: iterated in ascending order, no duplicates. -/
abbrev SliceSet := List ℕ

/-- The `insert` of `std::set<size_t>`. -/
def SliceSet.insert (s : SliceSet) (i : ℕ) : SliceSet :=
  if i ∈ s then s else List.orderedInsert (fun a b => a ≤ b) i s

/-- A `std::unordered_map<voxel, std::set<size_t>>`; `none` is "`find` returns `end()`". -/
abbrev OccupancyIndex := voxel → Option SliceSet

/-- The statement `voxel_occupied_by_slice[v].insert(i)`: `operator[]` creates an empty
entry when the key is absent, then the slice index is inserted. -/
def index_insert (idx : OccupancyIndex) (v : voxel) (i : ℕ) : OccupancyIndex :=
  Function.update idx v (some (SliceSet.insert ((idx v).getD []) i))

/-- The index-building loops of `main` (lines 290-297). -/
def build_index (points_by_slice : List (List Point)) (voxel_size : ℚ) : OccupancyIndex :=
  (List.range points_by_slice.length).foldl
    (fun idx i =>
      (List.range (points_by_slice.getD i []).length).foldl
        (fun idx j =>
          index_insert idx
            (voxel_of_point ((points_by_slice.getD i []).getD j ⟨0, 0, 0⟩) voxel_size) i)
        idx)
    (fun _ => none)

/-! ## Voxel traversal -/

/-- The local `epsilon = 1e-13`. -/
def epsilon : ℚ := 1 / 10 ^ 13

/-- The mutable locals of the `while` loop of `walk_voxels`. -/
structure WalkState where
  X : Int
  Y : Int
  Z : Int
  tMaxX : WithTop ℚ
  tMaxY : WithTop ℚ
  tMaxZ : WithTop ℚ
  multX : ℕ
  multY : ℕ
  multZ : ℕ
  empty_voxels : Finset voxel
deriving DecidableEq

/-- The locals of `walk_voxels` that the loop only reads. -/
structure WalkConst where
  tMax : ℚ
  startX : Int
  startY : Int
  startZ : Int
  endX : Int
  endY : Int
  endZ : Int
  tDeltaX : ℚ
  tDeltaY : ℚ
  tDeltaZ : ℚ
  stepX : Int
  stepY : Int
  stepZ : Int

/-- Lines 118-129: the traversal fraction `tMax`. -/
def tMax_of (dist max_search_distance max_target_proximity : ℚ) : ℚ :=
  let tMax :=
    if max_search_distance = -1 then 1
    else
      let t := max_search_distance / dist
      if t > 1 then 1 else t
  if max_target_proximity ≠ -1 then tMax - max_target_proximity / dist else tMax

/-- Lines 139-147 for one axis (the code repeats them for X, Y and Z): the step, the
per-step increment and the first threshold, from the direction component `d` and the
start coordinate `s`. -/
def axis_setup (d s voxel_size : ℚ) : Int × ℚ × WithTop ℚ :=
  if d = 0 then (0, 0, ⊤)
  else
    let step : Int := if d > 0 then 1 else -1
    let tDelta : ℚ := step * voxel_size / d
    (step, tDelta, ((tDelta * (1 - py_mod (step * (s / voxel_size)) 1) : ℚ) : WithTop ℚ))

/-- Lines 166-174 for one axis: the boundary correction for a negative step. -/
def axis_fix (a : Int × ℚ × WithTop ℚ) : WithTop ℚ :=
  if a.1 = -1 ∧ a.2.2 = (a.2.1 : WithTop ℚ) then 0 else a.2.2

/-- The loop condition `X != endX || Y != endY || Z != endZ`. -/
def loop_cond (c : WalkConst) (s : WalkState) : Prop :=
  s.X ≠ c.endX ∨ s.Y ≠ c.endY ∨ s.Z ≠ c.endZ

instance (c : WalkConst) (s : WalkState) : Decidable (loop_cond c s) := by
  unfold loop_cond; infer_instance

/-- The guard of line 179: all three thresholds exceed `1.0 + epsilon`. -/
def overrun (s : WalkState) : Prop :=
  s.tMaxX > ((1 + epsilon : ℚ) : WithTop ℚ) ∧ s.tMaxY > ((1 + epsilon : ℚ) : WithTop ℚ) ∧
    s.tMaxZ > ((1 + epsilon : ℚ) : WithTop ℚ)

instance (s : WalkState) : Decidable (overrun s) := by
  unfold overrun; infer_instance

/-- The guard of line 183: all three thresholds exceed `tMax - epsilon`. -/
def limit_reached (c : WalkConst) (s : WalkState) : Prop :=
  s.tMaxX > ((c.tMax - epsilon : ℚ) : WithTop ℚ) ∧ s.tMaxY > ((c.tMax - epsilon : ℚ) : WithTop ℚ) ∧
    s.tMaxZ > ((c.tMax - epsilon : ℚ) : WithTop ℚ)

instance (c : WalkConst) (s : WalkState) : Decidable (limit_reached c s) := by
  unfold limit_reached; infer_instance

/-- Lines 186-206: advance the axis picked by the nested comparison. -/
def advance (c : WalkConst) (s : WalkState) : WalkState :=
  if s.tMaxX < s.tMaxY then
    if s.tMaxX < s.tMaxZ then
      { s with multX := s.multX + 1,
               X := c.startX + ((s.multX + 1 : ℕ) : Int) * c.stepX,
               tMaxX := s.tMaxX + (c.tDeltaX : WithTop ℚ) }
    else
      { s with multZ := s.multZ + 1,
               Z := c.startZ + ((s.multZ + 1 : ℕ) : Int) * c.stepZ,
               tMaxZ := s.tMaxZ + (c.tDeltaZ : WithTop ℚ) }
  else
    if s.tMaxY < s.tMaxZ then
      { s with multY := s.multY + 1,
               Y := c.startY + ((s.multY + 1 : ℕ) : Int) * c.stepY,
               tMaxY := s.tMaxY + (c.tDeltaY : WithTop ℚ) }
    else
      { s with multZ := s.multZ + 1,
               Z := c.startZ + ((s.multZ + 1 : ℕ) : Int) * c.stepZ,
               tMaxZ := s.tMaxZ + (c.tDeltaZ : WithTop ℚ) }

/-- The test of line 224 on `size_t` operands: both sums wrap modulo `2^64`. -/
def window_test (it current_slice diff : ℕ) : Bool :=
  decide ((it + diff) % 2 ^ 64 ≥ current_slice ∧ it ≤ (current_slice + diff) % 2 ^ 64)

/-- How one iteration of the loop body ends: `break` or the next iteration
(`continue`, or falling off the end of the body), each with the locals it leaves. -/
inductive Step where
  | brk (s : WalkState)
  | cont (s : WalkState)
deriving DecidableEq

/-- Lines 179-235: one iteration of the loop body. -/
def body (c : WalkConst) (voxel_occupied_by_slice : OccupancyIndex)
    (current_slice diff : ℕ) (s : WalkState) : Step :=
  if overrun s then Step.brk s
  else if limit_reached c s then Step.brk s
  else
    let s1 := advance c s
    let v : voxel := ⟨s1.X, s1.Y, s1.Z⟩
    match voxel_occupied_by_slice v with
    | none => Step.cont s1
    | some scanslices =>
      if diff = 0 then
        if current_slice ∉ scanslices then
          Step.cont { s1 with empty_voxels := insert v s1.empty_voxels }
        else Step.brk s1
      else
        let found := scanslices.any (fun it => window_test it current_slice diff)
        if found = false then
          Step.cont { s1 with empty_voxels := insert v s1.empty_voxels }
        else Step.brk s1

/-- The `while` loop of lines 178-236, run for at most `fuel` iterations; `none` when the
budget is used up before the loop ends. -/
def walk_loop (c : WalkConst) (voxel_occupied_by_slice : OccupancyIndex)
    (current_slice diff : ℕ) : ℕ → WalkState → Option WalkState
  | 0, _ => none
  | fuel + 1, s =>
    if loop_cond c s then
      match body c voxel_occupied_by_slice current_slice diff s with
      | Step.brk s1 => some s1
      | Step.cont s1 => walk_loop c voxel_occupied_by_slice current_slice diff fuel s1
    else some s

/-- Lines 108-112: the length of the ray, with the library square root as a parameter. -/
def ray_dist (sqrt : ℚ → ℚ) (start end_ : Point) : ℚ :=
  sqrt ((end_.p0 - start.p0) * (end_.p0 - start.p0) + (end_.p1 - start.p1) * (end_.p1 - start.p1)
    + (end_.p2 - start.p2) * (end_.p2 - start.p2))

/-- Lines 118-174: the loop-invariant locals of `walk_voxels`. -/
def walk_const (sqrt : ℚ → ℚ) (start end_ : Point) (voxel_size max_search_distance
    max_target_proximity : ℚ) : WalkConst :=
  let s := voxel_of_point start voxel_size
  let e := voxel_of_point end_ voxel_size
  let ax := axis_setup (end_.p0 - start.p0) start.p0 voxel_size
  let ay := axis_setup (end_.p1 - start.p1) start.p1 voxel_size
  let az := axis_setup (end_.p2 - start.p2) start.p2 voxel_size
  { tMax := tMax_of (ray_dist sqrt start end_) max_search_distance max_target_proximity,
    startX := s.x, startY := s.y, startZ := s.z,
    endX := e.x, endY := e.y, endZ := e.z,
    tDeltaX := ax.2.1, tDeltaY := ay.2.1, tDeltaZ := az.2.1,
    stepX := ax.1, stepY := ay.1, stepZ := az.1 }

/-- Lines 130-177: the locals of `walk_voxels` on entry to the loop. -/
def walk_init (start end_ : Point) (voxel_size : ℚ) : WalkState :=
  let s := voxel_of_point start voxel_size
  { X := s.x, Y := s.y, Z := s.z,
    tMaxX := axis_fix (axis_setup (end_.p0 - start.p0) start.p0 voxel_size),
    tMaxY := axis_fix (axis_setup (end_.p1 - start.p1) start.p1 voxel_size),
    tMaxZ := axis_fix (axis_setup (end_.p2 - start.p2) start.p2 voxel_size),
    multX := 0, multY := 0, multZ := 0,
    empty_voxels := ∅ }

/-- Function `walk_voxels` of the source; `none` when `fuel` iterations do not end the loop. -/
def walk_voxels (sqrt : ℚ → ℚ) (start end_ : Point) (voxel_size : ℚ)
    (voxel_occupied_by_slice : OccupancyIndex) (current_slice : ℕ)
    (max_search_distance : ℚ) (diff : ℕ) (max_target_dist max_target_proximity : ℚ)
    (fuel : ℕ) : Option (Finset voxel) :=
  if max_target_dist ≠ -1 ∧ ray_dist sqrt start end_ > max_target_dist then some ∅
  else
    (walk_loop (walk_const sqrt start end_ voxel_size max_search_distance max_target_proximity)
      voxel_occupied_by_slice current_slice diff fuel (walk_init start end_ voxel_size)).map
      (fun s => s.empty_voxels)

/-- A square root on rationals by search, exact on squares of rationals
(rounded down on numerator and denominator otherwise). -/
def nat_sqrt (n : ℕ) : ℕ :=
  ((List.range (n + 1)).find? (fun k => decide (n < (k + 1) * (k + 1)))).getD n

/-- The square root used for concrete rays whose length is rational. -/
def sqrt_q (q : ℚ) : ℚ := (nat_sqrt q.num.toNat : ℚ) / (nat_sqrt q.den : ℚ)


/-- The locals at the head of iteration `n` of the loop (counting from 0), when the loop
gets that far: `none` once the loop has ended by its condition or by a `break`. -/
def state_at (c : WalkConst) (voxel_occupied_by_slice : OccupancyIndex)
    (current_slice diff : ℕ) (s0 : WalkState) : ℕ → Option WalkState
  | 0 => some s0
  | n + 1 =>
    match state_at c voxel_occupied_by_slice current_slice diff s0 n with
    | none => none
    | some s =>
      if loop_cond c s then
        match body c voxel_occupied_by_slice current_slice diff s with
        | Step.brk _ => none
        | Step.cont s1 => some s1
      else none

/-- The threshold of the axis that lines 186-206 advance, read before the increment: the
ray parameter at which the walk enters the next voxel. -/
def entry_t (s : WalkState) : WithTop ℚ :=
  if s.tMaxX < s.tMaxY then
    if s.tMaxX < s.tMaxZ then s.tMaxX else s.tMaxZ
  else
    if s.tMaxY < s.tMaxZ then s.tMaxY else s.tMaxZ

/-- The voxel held by the locals `X`, `Y`, `Z`. -/
def WalkState.voxel (s : WalkState) : voxel := ⟨s.X, s.Y, s.Z⟩

/-- The blocking condition of the traversal: the current slice is an occupant
(`diff = 0`), or some occupant passes the window test (`diff > 0`). -/
def blocked (scanslices : SliceSet) (current_slice diff : ℕ) : Prop :=
  if diff = 0 then current_slice ∈ scanslices
  else ∃ it ∈ scanslices, window_test it current_slice diff = true

instance (scanslices : SliceSet) (current_slice diff : ℕ) :
    Decidable (blocked scanslices current_slice diff) := by
  unfold blocked; infer_instance

/-! ## Classification and emission -/

/-- One line of an output file: the three coordinates and the reflectance. -/
structure Line where
  x : ℚ
  y : ℚ
  z : ℚ
  r : ℚ
deriving DecidableEq, Repr

/-- The point printed on a line. -/
def Line.point (l : Line) : Point := ⟨l.x, l.y, l.z⟩

/-- The contents of the two output files `scan000.3d` and `scan001.3d`. -/
structure Outputs where
  out_static : List Line
  out_dynamic : List Line
deriving DecidableEq, Repr

/-- The line that `fprintf` writes for point `j` of slice `i` (lines 342-347). -/
def line_of (points_by_slice : List (List Point)) (reflectances_by_slice : List (List ℚ))
    (i j : ℕ) : Line :=
  ⟨((points_by_slice.getD i []).getD j ⟨0, 0, 0⟩).p0,
   ((points_by_slice.getD i []).getD j ⟨0, 0, 0⟩).p1,
   ((points_by_slice.getD i []).getD j ⟨0, 0, 0⟩).p2,
   (reflectances_by_slice.getD i []).getD j 0⟩

/-- The emission loops of `main` (lines 327-349). -/
def emit (points_by_slice : List (List Point)) (reflectances_by_slice : List (List ℚ))
    (voxel_size : ℚ) (free_voxels : Finset voxel) : Outputs :=
  (List.range points_by_slice.length).foldl
    (fun o i =>
      (List.range (points_by_slice.getD i []).length).foldl
        (fun o j =>
          if voxel_of_point ((points_by_slice.getD i []).getD j ⟨0, 0, 0⟩) voxel_size
              ∉ free_voxels then
            { o with out_static :=
                o.out_static ++ [line_of points_by_slice reflectances_by_slice i j] }
          else
            { o with out_dynamic :=
                o.out_dynamic ++ [line_of points_by_slice reflectances_by_slice i j] })
        o)
    ⟨[], []⟩

/-- The concatenated point sequence: every line in slice order, then point order within
the slice. -/
def all_lines (points_by_slice : List (List Point)) (reflectances_by_slice : List (List ℚ)) :
    List Line :=
  ((List.range points_by_slice.length).map
    (fun i => (List.range (points_by_slice.getD i []).length).map
      (fun j => line_of points_by_slice reflectances_by_slice i j))).flatten

/-- Slice `i` is recorded as an occupant of voxel `v`. -/
def occupies (idx : OccupancyIndex) (v : voxel) (i : ℕ) : Prop :=
  ∃ l, idx v = some l ∧ i ∈ l

/-! ## Termination measure -/

/-- An upper bound on the steps one axis can still take: none when its threshold is
infinite or already past `1 + epsilon`, else the number of increments that fit below
`1 + epsilon`, plus one. -/
def axis_steps_left (t : WithTop ℚ) (tDelta : ℚ) : ℕ :=
  match t with
  | none => 0
  | some q => if q ≤ 1 + epsilon then ⌊(1 + epsilon - q) / tDelta⌋₊ + 1 else 0

/-- An upper bound on the iterations the loop can still run from the locals `s`. -/
def steps_left (c : WalkConst) (s : WalkState) : ℕ :=
  axis_steps_left s.tMaxX c.tDeltaX + axis_steps_left s.tMaxY c.tDeltaY +
    axis_steps_left s.tMaxZ c.tDeltaZ

/-- Each axis either never steps (infinite threshold) or has a positive increment. -/
def axes_ok (c : WalkConst) (s : WalkState) : Prop :=
  (s.tMaxX = ⊤ ∨ 0 < c.tDeltaX) ∧ (s.tMaxY = ⊤ ∨ 0 < c.tDeltaY) ∧
    (s.tMaxZ = ⊤ ∨ 0 < c.tDeltaZ)

/-! ## One call of `walk_voxels` -/

/-- The arguments of one call of `walk_voxels`, with the library square root it uses. -/
structure WalkArgs where
  sqrt : ℚ → ℚ
  start : Point
  end_ : Point
  voxel_size : ℚ
  voxel_occupied_by_slice : OccupancyIndex
  current_slice : ℕ
  max_search_distance : ℚ
  diff : ℕ
  max_target_dist : ℚ
  max_target_proximity : ℚ

/-- The call itself, with an iteration budget. -/
def WalkArgs.run (a : WalkArgs) (fuel : ℕ) : Option (Finset voxel) :=
  walk_voxels a.sqrt a.start a.end_ a.voxel_size a.voxel_occupied_by_slice a.current_slice
    a.max_search_distance a.diff a.max_target_dist a.max_target_proximity fuel

/-- The ray length `dist` computed by the call. -/
def WalkArgs.dist (a : WalkArgs) : ℚ := ray_dist a.sqrt a.start a.end_

/-- The early return of lines 113-117 is taken. -/
def WalkArgs.skipped (a : WalkArgs) : Prop :=
  a.max_target_dist ≠ -1 ∧ ray_dist a.sqrt a.start a.end_ > a.max_target_dist

instance (a : WalkArgs) : Decidable a.skipped := by
  unfold WalkArgs.skipped; infer_instance

/-- The loop-invariant locals of the call. -/
def WalkArgs.const (a : WalkArgs) : WalkConst :=
  walk_const a.sqrt a.start a.end_ a.voxel_size a.max_search_distance a.max_target_proximity

/-- The locals of the call on entry to the loop. -/
def WalkArgs.init (a : WalkArgs) : WalkState := walk_init a.start a.end_ a.voxel_size

/-- One iteration of the loop body of the call. -/
def WalkArgs.body (a : WalkArgs) (s : WalkState) : Step :=
  PeopleRemover.body a.const a.voxel_occupied_by_slice a.current_slice a.diff s

/-- The locals of the call at the head of iteration `n`, when the call gets there: `none`
for a skipped ray and once the loop has ended. -/
def WalkArgs.head (a : WalkArgs) (n : ℕ) : Option WalkState :=
  if a.skipped then none
  else state_at a.const a.voxel_occupied_by_slice a.current_slice a.diff a.init n

/-- The call enters the loop body at the head of iteration `n` with locals `s`
(the loop condition holds there). -/
def WalkArgs.iterates (a : WalkArgs) (n : ℕ) (s : WalkState) : Prop :=
  a.head n = some s ∧ loop_cond a.const s

instance (a : WalkArgs) (n : ℕ) (s : WalkState) : Decidable (a.iterates n s) := by
  unfold WalkArgs.iterates; infer_instance

/-- The call takes a step at the head of iteration `n`: it enters the body with locals `s`
and passes both guards, so that the voxel `(advance a.const s).voxel` is stepped into and
looked up. -/
def WalkArgs.steps (a : WalkArgs) (n : ℕ) (s : WalkState) : Prop :=
  a.head n = some s ∧ loop_cond a.const s ∧ ¬ overrun s ∧ ¬ limit_reached a.const s

instance (a : WalkArgs) (n : ℕ) (s : WalkState) : Decidable (a.steps n s) := by
  unfold WalkArgs.steps; infer_instance

/-! ## Concrete inputs -/

/-- An index with no entry. -/
def index_none : OccupancyIndex := fun _ => none

/-- An index whose only entry records voxel (2,0,0) as occupied by slice 0. -/
def index_slice0 : OccupancyIndex := fun v => if v = ⟨2, 0, 0⟩ then some [0] else none

/-- An index whose only entry records voxel (2,0,0) as occupied by slice 10. -/
def index_slice10 : OccupancyIndex := fun v => if v = ⟨2, 0, 0⟩ then some [10] else none

/-- The unit-grid ray from (0.5,0.5,0.5) to (3.5,0.5,0.5) with voxel size 1, no caps. -/
def unit_ray (idx : OccupancyIndex) (current_slice diff : ℕ) : WalkArgs :=
  ⟨sqrt_q, ⟨1 / 2, 1 / 2, 1 / 2⟩, ⟨7 / 2, 1 / 2, 1 / 2⟩, 1, idx, current_slice, -1, diff, -1, -1⟩

/-- The locals of the unit-grid ray after its first step: in voxel (1,0,0), with the X
threshold at 1/2. -/
def unit_ray_head1 : WalkState :=
  ⟨1, 0, 0, ((1 / 2 : ℚ) : WithTop ℚ), ⊤, ⊤, 1, 0, 0, ∅⟩

/-- A ray of length 10 along X with `max_target_dist = 5`. -/
def capped_ray : WalkArgs :=
  ⟨sqrt_q, ⟨0, 0, 0⟩, ⟨10, 0, 0⟩, 1, index_none, 0, -1, 0, 5, -1⟩

/-- A ray of length 3 with `max_target_proximity = 3`, so that `tMax = 0`. -/
def short_ray : WalkArgs :=
  ⟨sqrt_q, ⟨1 / 2, 1 / 2, 1 / 2⟩, ⟨7 / 2, 1 / 2, 1 / 2⟩, 1, index_none, 0, -1, 0, -1, 3⟩

/-- An index whose only entry records voxel (1,0,0) as occupied by slice 10. -/
def index_near : OccupancyIndex := fun v => if v = ⟨1, 0, 0⟩ then some [10] else none

/-- The unit-grid ray with `max_search_distance = 1.5` (so `tMax = 1/2`), walked for
slice 12 with window width 1 over `index_near`. -/
def limited_ray : WalkArgs :=
  ⟨sqrt_q, ⟨1 / 2, 1 / 2, 1 / 2⟩, ⟨7 / 2, 1 / 2, 1 / 2⟩, 1, index_near, 12, 3 / 2, 1, -1, -1⟩

/-- The locals of `limited_ray` after its first step: voxel (1,0,0) has been added. -/
def limited_ray_head1 : WalkState :=
  ⟨1, 0, 0, ((1 / 2 : ℚ) : WithTop ℚ), ⊤, ⊤, 1, 0, 0, {⟨1, 0, 0⟩}⟩

/-! ## Axis selection -/

/-- The three axes of the grid. -/
inductive Axis where
  | X
  | Y
  | Z
deriving DecidableEq, Repr

/-- The axis that lines 186-206 advance: the nested comparison of the source. -/
def chosen_axis (s : WalkState) : Axis :=
  if s.tMaxX < s.tMaxY then
    if s.tMaxX < s.tMaxZ then Axis.X else Axis.Z
  else
    if s.tMaxY < s.tMaxZ then Axis.Y else Axis.Z

/-- The selection rule in the words of the specification: X if its threshold is strictly
less than both others; otherwise Y if its threshold is strictly less than that of Z;
otherwise Z. -/
def rule_axis (s : WalkState) : Axis :=
  if s.tMaxX < s.tMaxY ∧ s.tMaxX < s.tMaxZ then Axis.X
  else if s.tMaxY < s.tMaxZ then Axis.Y
  else Axis.Z

/-- The threshold of an axis. -/
def Axis.threshold (ax : Axis) (s : WalkState) : WithTop ℚ :=
  match ax with
  | Axis.X => s.tMaxX
  | Axis.Y => s.tMaxY
  | Axis.Z => s.tMaxZ

/-- The voxel index of an axis. -/
def Axis.coord (ax : Axis) (s : WalkState) : Int :=
  match ax with
  | Axis.X => s.X
  | Axis.Y => s.Y
  | Axis.Z => s.Z

/-- The step counter of an axis. -/
def Axis.mult (ax : Axis) (s : WalkState) : ℕ :=
  match ax with
  | Axis.X => s.multX
  | Axis.Y => s.multY
  | Axis.Z => s.multZ

/-- The start index of an axis. -/
def Axis.start (ax : Axis) (c : WalkConst) : Int :=
  match ax with
  | Axis.X => c.startX
  | Axis.Y => c.startY
  | Axis.Z => c.startZ

/-- The step of an axis. -/
def Axis.step (ax : Axis) (c : WalkConst) : Int :=
  match ax with
  | Axis.X => c.stepX
  | Axis.Y => c.stepY
  | Axis.Z => c.stepZ

/-- The per-step increment of an axis. -/
def Axis.tDelta (ax : Axis) (c : WalkConst) : ℚ :=
  match ax with
  | Axis.X => c.tDeltaX
  | Axis.Y => c.tDeltaY
  | Axis.Z => c.tDeltaZ

/-! ## The calls made by `main` -/

/-- The call of `walk_voxels` that `main` makes for point `j` of slice `i`
(lines 303-313): from the sensor position of the slice to the point, over the index built
from all slices, with the slice index as `current_slice`. -/
def main_call (sqrt : ℚ → ℚ) (trajectory : List Point) (points_by_slice : List (List Point))
    (voxel_size max_search_distance : ℚ) (diff : ℕ)
    (max_target_distance max_target_proximity : ℚ) (i j : ℕ) : WalkArgs :=
  ⟨sqrt, trajectory.getD i ⟨0, 0, 0⟩, (points_by_slice.getD i []).getD j ⟨0, 0, 0⟩,
    voxel_size, build_index points_by_slice voxel_size, i, max_search_distance, diff,
    max_target_distance, max_target_proximity⟩

/-- A ray of length 20 along X walked with the configuration constants of `main`
(voxel size 5, search distance 250, window 285, target distance 1000, proximity 30). -/
def main_config_ray : WalkArgs :=
  ⟨sqrt_q, ⟨0, 0, 0⟩, ⟨20, 0, 0⟩, 5, index_none, 0, 250, 285, 1000, 30⟩

/-! ## Exchanging the x and y axes -/

/-- A voxel key with its x and y components exchanged. -/
def voxel.swap_xy (v : voxel) : voxel := ⟨v.y, v.x, v.z⟩

/-- A point with its x and y coordinates exchanged. -/
def Point.swap_xy (p : Point) : Point := ⟨p.p1, p.p0, p.p2⟩

/-- The arguments of a call after exchanging the x and y coordinates of `start`, of `end`
and of every key of the occupancy index. -/
def WalkArgs.swap_xy (a : WalkArgs) : WalkArgs :=
  { a with start := a.start.swap_xy, end_ := a.end_.swap_xy,
           voxel_occupied_by_slice := fun v => a.voxel_occupied_by_slice v.swap_xy }

/-- The loop locals with the roles of X and Y exchanged. -/
def WalkState.swap_xy (s : WalkState) : WalkState :=
  ⟨s.Y, s.X, s.Z, s.tMaxY, s.tMaxX, s.tMaxZ, s.multY, s.multX, s.multZ,
    s.empty_voxels.image voxel.swap_xy⟩

/-- The loop-invariant locals with the roles of X and Y exchanged. -/
def WalkConst.swap_xy (c : WalkConst) : WalkConst :=
  ⟨c.tMax, c.startY, c.startX, c.startZ, c.endY, c.endX, c.endZ, c.tDeltaY, c.tDeltaX,
    c.tDeltaZ, c.stepY, c.stepX, c.stepZ⟩

/-- The end of an iteration with the roles of X and Y exchanged. -/
def Step.swap_xy : Step → Step
  | Step.brk s => Step.brk s.swap_xy
  | Step.cont s => Step.cont s.swap_xy

/-- The X and Y thresholds are equal and below the Z threshold: the case in which the
order of the comparisons decides between X and Y. -/
def xy_tie (s : WalkState) : Prop := s.tMaxX = s.tMaxY ∧ s.tMaxY < s.tMaxZ

instance (s : WalkState) : Decidable (xy_tie s) := by
  unfold xy_tie; infer_instance

/-- An index whose only entry records voxel (0,1,0) as occupied by slice 10. -/
def index_side : OccupancyIndex := fun v => if v = ⟨0, 1, 0⟩ then some [10] else none

/-- A ray of length 3 from (0.5,0.5,0.5) to (2.5,2.5,1.5) on the unit grid, whose X and Y
thresholds are equal at every step, walked for slice 12 with window width 1 over
`index_side`, no caps. -/
def tie_ray : WalkArgs :=
  ⟨sqrt_q, ⟨1 / 2, 1 / 2, 1 / 2⟩, ⟨5 / 2, 5 / 2, 3 / 2⟩, 1, index_side, 12, -1, 1, -1, -1⟩

/-- A ray of length 3 from (0.5,0.75,0.5) to (1.5,2.75,2.5) on the unit grid, whose X and Y
thresholds are never equal, walked for slice 12 with window width 1 over `index_side`. -/
def skew_ray : WalkArgs :=
  ⟨sqrt_q, ⟨1 / 2, 3 / 4, 1 / 2⟩, ⟨3 / 2, 11 / 4, 5 / 2⟩, 1, index_side, 12, -1, 1, -1, -1⟩

/-- No tie between X and Y at the head of iteration `n` of the call, if it gets there. -/
def WalkArgs.tie_free_at (a : WalkArgs) (n : ℕ) : Prop :=
  match a.head n with
  | none => True
  | some s => ¬ xy_tie s

instance (a : WalkArgs) (n : ℕ) : Decidable (a.tie_free_at n) := by
  unfold WalkArgs.tie_free_at
  cases a.head n <;> infer_instance

/-! ## The geometry of the walk -/

/-- The coordinate of a point on an axis. -/
def Axis.p (ax : Axis) (p : Point) : ℚ :=
  match ax with
  | Axis.X => p.p0
  | Axis.Y => p.p1
  | Axis.Z => p.p2

/-- The end index of an axis. -/
def Axis.stop (ax : Axis) (c : WalkConst) : Int :=
  match ax with
  | Axis.X => c.endX
  | Axis.Y => c.endY
  | Axis.Z => c.endZ

/-- The relation between the locals of one axis and the ray from coordinate `s` to
coordinate `e` on a grid of cell size `vs`: the index `k` is `mult` cells from the cell of
`s` in the direction of the ray, the threshold `t` is the ray parameter at which the ray
leaves cell `k`, and the ray entered cell `k` at a parameter below 1. An axis without
direction has taken no step and has an infinite threshold. -/
def axis_geom (s e vs : ℚ) (k : Int) (mult : ℕ) (t : WithTop ℚ) : Prop :=
  (e - s = 0 ∧ k = ⌊s / vs⌋ ∧ mult = 0 ∧ t = ⊤) ∨
  (0 < e - s ∧ k = ⌊s / vs⌋ + (mult : Int) ∧
    t = (((((k : ℚ) + 1) * vs - s) / (e - s) : ℚ) : WithTop ℚ) ∧
    (mult = 0 ∨ ((k : ℚ) * vs - s) / (e - s) < 1)) ∨
  (e - s < 0 ∧ k = ⌊s / vs⌋ - (mult : Int) ∧
    t = (((s - (k : ℚ) * vs) / (s - e) : ℚ) : WithTop ℚ) ∧
    (mult = 0 ∨ (s - ((k : ℚ) + 1) * vs) / (s - e) < 1))

/-- The locals of all three axes stand in the relation `axis_geom` to the ray of the call. -/
def geom_ok (a : WalkArgs) (s : WalkState) : Prop :=
  ∀ ax : Axis, axis_geom (ax.p a.start) (ax.p a.end_) a.voxel_size (ax.coord s) (ax.mult s)
    (ax.threshold s)

/-- The Manhattan distance, in voxels, between the start voxel and the end voxel. -/
def manhattan (c : WalkConst) : ℕ :=
  (c.endX - c.startX).natAbs + (c.endY - c.startY).natAbs + (c.endZ - c.startZ).natAbs

/-! ## The traversal on doubles

A second embedding of lines 70-239, in which a `double` is an IEEE 754 binary64 value and
every arithmetic operation rounds to nearest, ties to even, as the machine does: results
below the normal range are rounded on the subnormal grid, results from `2^1024 - 2^970` on
become an infinity, and invalid operations give not-a-number. The sign of a zero is not
tracked: no operation of `walk_voxels` tells the two zeros apart except a division by zero,
and the only divisor that can be zero for a positive voxel size is the ray length, a square
root, which is `+0.0`. Integers are as in the exact model. The library square root is again
a parameter. -/

namespace Doubles

/-- A value of the C++ type `double` (IEEE 754 binary64): not-a-number, the two infinities,
or a finite value given by the rational it denotes. Every finite result of an operation is
a binary64 value, because it is rounded by `rnd`; a program input is written as `rnd` of its
decimal literal. -/
inductive F64 where
  | nan
  | pinf
  | ninf
  | fin (q : ℚ)
deriving DecidableEq

/-- The power `2^e` for an integer exponent. -/
def pow2 (e : Int) : ℚ :=
  if 0 ≤ e then ((2 ^ e.toNat : ℕ) : ℚ) else 1 / ((2 ^ (-e).toNat : ℕ) : ℚ)

/-- Halve `m` until it is below 2, counting the halvings in `acc`. -/
def log2_loop : ℕ → ℕ → ℕ → ℕ
  | 0, _, acc => acc
  | fuel + 1, m, acc => if m < 2 then acc else log2_loop fuel (m / 2) (acc + 1)

/-- The binary logarithm of a positive natural number, rounded down. -/
def nat_log2 (n : ℕ) : ℕ := log2_loop n n 0

/-- The binary exponent of a positive rational `a`: the `e` with `2^e ≤ a < 2^(e+1)`. -/
def ilog2 (a : ℚ) : Int :=
  let e : Int := (nat_log2 a.num.natAbs : Int) - (nat_log2 a.den : Int)
  if pow2 e ≤ a then e else e - 1

/-- Rounding of an exact result to binary64, to nearest with ties to even: 53 significant
bits, exponents from -1022 (below that the spacing stays `2^-1074`) to 1023, and
infinity from `2^1024` on. -/
def rnd (q : ℚ) : F64 :=
  if q = 0 then F64.fin 0
  else
    let a := |q|
    let e := max (ilog2 a) (-1022)
    let ulp := pow2 (e - 52)
    let x := a / ulp
    let k := ⌊x⌋
    let r := x - k
    let k1 : Int :=
      if r < 1 / 2 then k else if 1 / 2 < r then k + 1 else if k % 2 = 0 then k else k + 1
    let m := (k1 : ℚ) * ulp
    if pow2 1024 ≤ m then (if q < 0 then F64.ninf else F64.pinf)
    else F64.fin (if q < 0 then -m else m)

/-- Unary minus. -/
def F64.neg : F64 → F64
  | F64.nan => F64.nan
  | F64.pinf => F64.ninf
  | F64.ninf => F64.pinf
  | F64.fin q => F64.fin (-q)

/-- The operator `+` on doubles. -/
def F64.add : F64 → F64 → F64
  | F64.nan, _ => F64.nan
  | _, F64.nan => F64.nan
  | F64.pinf, F64.ninf => F64.nan
  | F64.ninf, F64.pinf => F64.nan
  | F64.pinf, _ => F64.pinf
  | _, F64.pinf => F64.pinf
  | F64.ninf, _ => F64.ninf
  | _, F64.ninf => F64.ninf
  | F64.fin a, F64.fin b => rnd (a + b)

/-- The operator `-` on doubles. -/
def F64.sub (x y : F64) : F64 := F64.add x (F64.neg y)

/-- The infinity of the given sign. -/
def F64.signed_inf (negative : Bool) : F64 := if negative then F64.ninf else F64.pinf

/-- The operator `*` on doubles. -/
def F64.mul : F64 → F64 → F64
  | F64.nan, _ => F64.nan
  | _, F64.nan => F64.nan
  | F64.pinf, F64.pinf => F64.pinf
  | F64.pinf, F64.ninf => F64.ninf
  | F64.ninf, F64.pinf => F64.ninf
  | F64.ninf, F64.ninf => F64.pinf
  | F64.pinf, F64.fin b => if b = 0 then F64.nan else F64.signed_inf (decide (b < 0))
  | F64.ninf, F64.fin b => if b = 0 then F64.nan else F64.signed_inf (decide (0 < b))
  | F64.fin a, F64.pinf => if a = 0 then F64.nan else F64.signed_inf (decide (a < 0))
  | F64.fin a, F64.ninf => if a = 0 then F64.nan else F64.signed_inf (decide (0 < a))
  | F64.fin a, F64.fin b => rnd (a * b)

/-- The operator `/` on doubles. A zero divisor is taken as `+0.0`. -/
def F64.div : F64 → F64 → F64
  | F64.nan, _ => F64.nan
  | _, F64.nan => F64.nan
  | F64.pinf, F64.fin b => F64.signed_inf (decide (b < 0))
  | F64.ninf, F64.fin b => F64.signed_inf (decide (0 ≤ b))
  | F64.fin _, F64.pinf => F64.fin 0
  | F64.fin _, F64.ninf => F64.fin 0
  | F64.fin a, F64.fin b =>
    if b = 0 then (if a = 0 then F64.nan else F64.signed_inf (decide (a < 0)))
    else rnd (a / b)
  | _, _ => F64.nan

/-- The operator `<` on doubles: false when an operand is not a number. -/
def F64.lt : F64 → F64 → Bool
  | F64.nan, _ => false
  | _, F64.nan => false
  | F64.pinf, _ => false
  | F64.ninf, F64.ninf => false
  | F64.ninf, _ => true
  | F64.fin _, F64.pinf => true
  | F64.fin _, F64.ninf => false
  | F64.fin a, F64.fin b => decide (a < b)

/-- The operator `>` on doubles. -/
def F64.gt (x y : F64) : Bool := F64.lt y x

/-- The operator `==` on doubles: false when an operand is not a number. -/
def F64.eq : F64 → F64 → Bool
  | F64.nan, _ => false
  | _, F64.nan => false
  | x, y => decide (x = y)

/-- The operator `!=` on doubles. -/
def F64.ne (x y : F64) : Bool := !(F64.eq x y)

/-- Conversion of a `double` to `ssize_t`: the fractional part is discarded; the conversion is
undefined (`none`) for a value that is not finite or does not fit 64 bits. -/
def to_ssize : F64 → Option Int
  | F64.fin q =>
    if -(2 : Int) ^ 63 ≤ trunc q ∧ trunc q < (2 : Int) ^ 63 then some (trunc q) else none
  | _ => none

/-- The C library `fmod` on doubles: the remainder of finite operands is a double, so the
result is exact; an infinite first operand or a zero second operand gives not-a-number. -/
def fmod : F64 → F64 → F64
  | F64.nan, _ => F64.nan
  | _, F64.nan => F64.nan
  | F64.pinf, _ => F64.nan
  | F64.ninf, _ => F64.nan
  | F64.fin a, F64.pinf => F64.fin a
  | F64.fin a, F64.ninf => F64.fin a
  | F64.fin a, F64.fin b => if b = 0 then F64.nan else F64.fin (PeopleRemover.fmod a b)

/-- A `const double*` holding three coordinates `p[0]`, `p[1]`, `p[2]`. -/
structure Point where
  p0 : F64
  p1 : F64
  p2 : F64
deriving DecidableEq

/-- Function `py_div` of the source on doubles; `none` when the conversion of the quotient to
`ssize_t` is undefined. -/
def py_div (a b : F64) : Option Int :=
  match to_ssize (F64.div a b) with
  | none => none
  | some q =>
    let r := fmod a b
    if (F64.ne r (F64.fin 0) && (F64.lt r (F64.fin 0) != F64.lt b (F64.fin 0))) = true then
      some (q - 1)
    else some q

/-- Function `py_mod` of the source on doubles. -/
def py_mod (a b : F64) : F64 :=
  let r := fmod a b
  if (F64.ne r (F64.fin 0) && (F64.lt r (F64.fin 0) != F64.lt b (F64.fin 0))) = true then
    F64.add r b
  else r

/-- Function `voxel_of_point` of the source on doubles. -/
def voxel_of_point (p : Point) (voxel_size : F64) : Option voxel :=
  match py_div p.p0 voxel_size, py_div p.p1 voxel_size, py_div p.p2 voxel_size with
  | some x, some y, some z => some ⟨x, y, z⟩
  | _, _, _ => none

/-- The local `epsilon = 1e-13`: the double nearest to the decimal literal. -/
def epsilon : F64 := rnd (1 / 10 ^ 13)

/-- The mutable locals of the `while` loop of `walk_voxels`. -/
structure WalkState where
  X : Int
  Y : Int
  Z : Int
  tMaxX : F64
  tMaxY : F64
  tMaxZ : F64
  multX : ℕ
  multY : ℕ
  multZ : ℕ
  empty_voxels : Finset voxel
deriving DecidableEq

/-- The locals of `walk_voxels` that the loop only reads. -/
structure WalkConst where
  tMax : F64
  startX : Int
  startY : Int
  startZ : Int
  endX : Int
  endY : Int
  endZ : Int
  tDeltaX : F64
  tDeltaY : F64
  tDeltaZ : F64
  stepX : Int
  stepY : Int
  stepZ : Int
deriving DecidableEq

/-- Lines 118-129: the traversal fraction `tMax`. -/
def tMax_of (dist max_search_distance max_target_proximity : F64) : F64 :=
  let tMax :=
    if F64.eq max_search_distance (F64.fin (-1)) = true then F64.fin 1
    else
      let t := F64.div max_search_distance dist
      if F64.gt t (F64.fin 1) = true then F64.fin 1 else t
  if F64.ne max_target_proximity (F64.fin (-1)) = true then
    F64.sub tMax (F64.div max_target_proximity dist)
  else tMax

/-- Lines 139-147 for one axis: the step, the per-step increment and the first threshold,
from the direction component `d` and the start coordinate `s`. -/
def axis_setup (d s voxel_size : F64) : Int × F64 × F64 :=
  if F64.eq d (F64.fin 0) = true then (0, F64.fin 0, F64.pinf)
  else
    let step : Int := if F64.gt d (F64.fin 0) = true then 1 else -1
    let tDelta := F64.div (F64.mul (F64.fin step) voxel_size) d
    (step, tDelta,
      F64.mul tDelta
        (F64.sub (F64.fin 1) (py_mod (F64.mul (F64.fin step) (F64.div s voxel_size)) (F64.fin 1))))

/-- Lines 166-174 for one axis: the boundary correction for a negative step. -/
def axis_fix (a : Int × F64 × F64) : F64 :=
  if a.1 = -1 ∧ F64.eq a.2.2 a.2.1 = true then F64.fin 0 else a.2.2

/-- The loop condition `X != endX || Y != endY || Z != endZ`. -/
def loop_cond (c : WalkConst) (s : WalkState) : Prop :=
  s.X ≠ c.endX ∨ s.Y ≠ c.endY ∨ s.Z ≠ c.endZ

instance (c : WalkConst) (s : WalkState) : Decidable (loop_cond c s) := by
  unfold loop_cond; infer_instance

/-- The guard of line 179: all three thresholds exceed `1.0 + epsilon`. -/
def overrun (s : WalkState) : Bool :=
  F64.gt s.tMaxX (F64.add (F64.fin 1) epsilon) && F64.gt s.tMaxY (F64.add (F64.fin 1) epsilon) &&
    F64.gt s.tMaxZ (F64.add (F64.fin 1) epsilon)

/-- The guard of line 183: all three thresholds exceed `tMax - epsilon`. -/
def limit_reached (c : WalkConst) (s : WalkState) : Bool :=
  F64.gt s.tMaxX (F64.sub c.tMax epsilon) && F64.gt s.tMaxY (F64.sub c.tMax epsilon) &&
    F64.gt s.tMaxZ (F64.sub c.tMax epsilon)

/-- Lines 186-206: advance the axis picked by the nested comparison. -/
def advance (c : WalkConst) (s : WalkState) : WalkState :=
  if F64.lt s.tMaxX s.tMaxY = true then
    if F64.lt s.tMaxX s.tMaxZ = true then
      { s with multX := s.multX + 1,
               X := c.startX + ((s.multX + 1 : ℕ) : Int) * c.stepX,
               tMaxX := F64.add s.tMaxX c.tDeltaX }
    else
      { s with multZ := s.multZ + 1,
               Z := c.startZ + ((s.multZ + 1 : ℕ) : Int) * c.stepZ,
               tMaxZ := F64.add s.tMaxZ c.tDeltaZ }
  else
    if F64.lt s.tMaxY s.tMaxZ = true then
      { s with multY := s.multY + 1,
               Y := c.startY + ((s.multY + 1 : ℕ) : Int) * c.stepY,
               tMaxY := F64.add s.tMaxY c.tDeltaY }
    else
      { s with multZ := s.multZ + 1,
               Z := c.startZ + ((s.multZ + 1 : ℕ) : Int) * c.stepZ,
               tMaxZ := F64.add s.tMaxZ c.tDeltaZ }

/-- How one iteration of the loop body ends: `break` or the next iteration. -/
inductive Step where
  | brk (s : WalkState)
  | cont (s : WalkState)
deriving DecidableEq

/-- Lines 179-235: one iteration of the loop body. -/
def body (c : WalkConst) (voxel_occupied_by_slice : OccupancyIndex)
    (current_slice diff : ℕ) (s : WalkState) : Step :=
  if overrun s = true then Step.brk s
  else if limit_reached c s = true then Step.brk s
  else
    let s1 := advance c s
    let v : voxel := ⟨s1.X, s1.Y, s1.Z⟩
    match voxel_occupied_by_slice v with
    | none => Step.cont s1
    | some scanslices =>
      if diff = 0 then
        if current_slice ∉ scanslices then
          Step.cont { s1 with empty_voxels := insert v s1.empty_voxels }
        else Step.brk s1
      else
        let found := scanslices.any (fun it => window_test it current_slice diff)
        if found = false then
          Step.cont { s1 with empty_voxels := insert v s1.empty_voxels }
        else Step.brk s1

/-- The `while` loop of lines 178-236, run for at most `fuel` iterations; `none` when the
budget is used up before the loop ends. -/
def walk_loop (c : WalkConst) (voxel_occupied_by_slice : OccupancyIndex)
    (current_slice diff : ℕ) : ℕ → WalkState → Option WalkState
  | 0, _ => none
  | fuel + 1, s =>
    if loop_cond c s then
      match body c voxel_occupied_by_slice current_slice diff s with
      | Step.brk s1 => some s1
      | Step.cont s1 => walk_loop c voxel_occupied_by_slice current_slice diff fuel s1
    else some s

/-- Lines 108-112: the length of the ray, with the library square root as a parameter. -/
def ray_dist (sqrt : F64 → F64) (start end_ : Point) : F64 :=
  sqrt (F64.add
    (F64.add (F64.mul (F64.sub end_.p0 start.p0) (F64.sub end_.p0 start.p0))
      (F64.mul (F64.sub end_.p1 start.p1) (F64.sub end_.p1 start.p1)))
    (F64.mul (F64.sub end_.p2 start.p2) (F64.sub end_.p2 start.p2)))

/-- Lines 118-174: the loop-invariant locals of `walk_voxels`, from the voxel keys `s` and
`e` of the two end points. -/
def walk_const (sqrt : F64 → F64) (start end_ : Point) (voxel_size max_search_distance
    max_target_proximity : F64) (s e : voxel) : WalkConst :=
  let ax := axis_setup (F64.sub end_.p0 start.p0) start.p0 voxel_size
  let ay := axis_setup (F64.sub end_.p1 start.p1) start.p1 voxel_size
  let az := axis_setup (F64.sub end_.p2 start.p2) start.p2 voxel_size
  { tMax := tMax_of (ray_dist sqrt start end_) max_search_distance max_target_proximity,
    startX := s.x, startY := s.y, startZ := s.z,
    endX := e.x, endY := e.y, endZ := e.z,
    tDeltaX := ax.2.1, tDeltaY := ay.2.1, tDeltaZ := az.2.1,
    stepX := ax.1, stepY := ay.1, stepZ := az.1 }

/-- Lines 130-177: the locals of `walk_voxels` on entry to the loop. -/
def walk_init (start end_ : Point) (voxel_size : F64) (s : voxel) : WalkState :=
  { X := s.x, Y := s.y, Z := s.z,
    tMaxX := axis_fix (axis_setup (F64.sub end_.p0 start.p0) start.p0 voxel_size),
    tMaxY := axis_fix (axis_setup (F64.sub end_.p1 start.p1) start.p1 voxel_size),
    tMaxZ := axis_fix (axis_setup (F64.sub end_.p2 start.p2) start.p2 voxel_size),
    multX := 0, multY := 0, multZ := 0,
    empty_voxels := ∅ }

/-- What a call of `walk_voxels` with an iteration budget comes to. -/
inductive Outcome where
  | undefined
  | running
  | returned (empty_voxels : Finset voxel)
deriving DecidableEq

/-- Function `walk_voxels` of the source on doubles: `returned` with the result set,
`running` when `fuel` iterations do not end the loop, `undefined` when a voxel key of an
end point does not fit `ssize_t`. -/
def walk_voxels (sqrt : F64 → F64) (start end_ : Point) (voxel_size : F64)
    (voxel_occupied_by_slice : OccupancyIndex) (current_slice : ℕ)
    (max_search_distance : F64) (diff : ℕ) (max_target_dist max_target_proximity : F64)
    (fuel : ℕ) : Outcome :=
  if (F64.ne max_target_dist (F64.fin (-1)) && F64.gt (ray_dist sqrt start end_) max_target_dist)
      = true then
    Outcome.returned ∅
  else
    match voxel_of_point start voxel_size, voxel_of_point end_ voxel_size with
    | some s, some e =>
      match walk_loop
          (walk_const sqrt start end_ voxel_size max_search_distance max_target_proximity s e)
          voxel_occupied_by_slice current_slice diff fuel (walk_init start end_ voxel_size s) with
      | none => Outcome.running
      | some st => Outcome.returned st.empty_voxels
    | _, _ => Outcome.undefined

/-! ### Concrete inputs on doubles -/

/-- The start point `(-1e-310, 0, 0)`: the doubles nearest to the decimal literals. -/
def tiny_start : Point := ⟨rnd (-(1 / 10 ^ 310)), F64.fin 0, F64.fin 0⟩

/-- The end point `(1e-310, 0, 0)`. -/
def tiny_end : Point := ⟨rnd (1 / 10 ^ 310), F64.fin 0, F64.fin 0⟩

/-- The loop-invariant locals of the walk from `tiny_start` to `tiny_end` with voxel size 5
and no caps: the X increment has overflowed to infinity. -/
def tiny_const : WalkConst :=
  ⟨F64.fin 1, -1, 0, 0, 0, 0, 0, F64.pinf, F64.fin 0, F64.fin 0, 1, 0, 0⟩

/-- The locals of that walk after `n` iterations: the X threshold is not a number, the
walk is still in the start voxel and only the counter `multZ` has moved. -/
def tiny_state (n : ℕ) : WalkState :=
  ⟨-1, 0, 0, F64.nan, F64.pinf, F64.pinf, 0, 0, n, ∅⟩

/-- The start point `(-1.1, -0.7, 0.05)`. -/
def decimal_start : Point := ⟨rnd (-(11 / 10)), rnd (-(7 / 10)), rnd (1 / 20)⟩

/-- The end point `(-1.2, -0.8, 0.05)`. -/
def decimal_end : Point := ⟨rnd (-(12 / 10)), rnd (-(8 / 10)), rnd (1 / 20)⟩

end Doubles

end PeopleRemover

namespace Frames2Kitti

/-! ## frames2kitti: the pose conversion

A shallow embedding of lines 97-146 of `src/slam6d/frames2kitti.cc`. A `double` array of
declared length `n` is a list of `n` rationals; an access at an index that is not below
the length has no result (`none`). -/

/-- Reading `arr[i]`. -/
def load (arr : List ℚ) (i : ℕ) : Option ℚ :=
  if i < arr.length then some (arr.getD i 0) else none

/-- Writing `arr[i] = v`. -/
def store (arr : List ℚ) (i : ℕ) (v : ℚ) : Option (List ℚ) :=
  if i < arr.length then some (arr.set i v) else none

/-- One assignment `inMatrix[dst] = tMatrix[src]` or `inMatrix[dst] = -tMatrix[src]`. -/
structure Assign where
  dst : ℕ
  src : ℕ
  neg : Bool
deriving DecidableEq, Repr

/-- The sixteen assignments of lines 116-131, in order. -/
def assignments : List Assign :=
  [⟨0, 0, false⟩, ⟨1, 4, true⟩, ⟨2, 8, false⟩, ⟨3, 12, false⟩,
   ⟨4, 1, true⟩, ⟨5, 5, false⟩, ⟨6, 9, true⟩, ⟨7, 13, true⟩,
   ⟨8, 2, false⟩, ⟨9, 6, true⟩, ⟨10, 10, false⟩, ⟨11, 14, false⟩,
   ⟨12, 3, false⟩, ⟨13, 7, false⟩, ⟨14, 11, false⟩, ⟨15, 15, false⟩]

/-- The indices of the statements `inMatrix[i] /= 100` of lines 133-135. -/
def scaled : List ℕ := [3, 7, 11]

/-- Executing one assignment. -/
def assign (tMatrix : List ℚ) (inMatrix : List ℚ) (a : Assign) : Option (List ℚ) :=
  match load tMatrix a.src with
  | none => none
  | some t => store inMatrix a.dst (if a.neg then -t else t)

/-- Executing `inMatrix[i] /= 100`. -/
def scale (inMatrix : List ℚ) (i : ℕ) : Option (List ℚ) :=
  match load inMatrix i with
  | none => none
  | some v => store inMatrix i (v / 100)

/-- Executing a list of statements in order, stopping at the first failing access. -/
def run_all {α : Type} (f : List ℚ → α → Option (List ℚ)) : List α → List ℚ → Option (List ℚ)
  | [], m => some m
  | x :: xs, m =>
    match f m x with
    | none => none
    | some m1 => run_all f xs m1

/-- Lines 116-135: the frame-to-pose conversion on the arrays `inMatrix` and `tMatrix`. -/
def convert (inMatrix tMatrix : List ℚ) : Option (List ℚ) :=
  match run_all (assign tMatrix) assignments inMatrix with
  | none => none
  | some m => run_all scale scaled m

/-- Lines 143-146: the twelve values written to the pose file. -/
def pose_line (inMatrix : List ℚ) : Option (List ℚ) :=
  (List.range 12).mapM (load inMatrix)

/-- Every index of `inMatrix` that the conversion and the output loop access. -/
def inMatrix_indices : List ℕ :=
  assignments.map Assign.dst ++ scaled ++ List.range 12

/-- Every index of `tMatrix` that the conversion reads. -/
def tMatrix_indices : List ℕ := assignments.map Assign.src

/-- The frame of an identity pose: sixteen matrix entries and the trailing flag. -/
def identity_frame : List ℚ := [1, 0, 0, 0, 0, 1, 0, 0, 0, 0, 1, 0, 0, 0, 0, 1, 1]

end Frames2Kitti

namespace PeopleRemover

/-! ## Floor arithmetic: proofs -/

theorem fmod_eq_mul (a b : ℚ) (hb : b ≠ 0) : fmod a b = b * (a / b - (trunc (a / b) : ℚ)) := by
  unfold fmod
  field_simp

/-- The correction branch of `py_div`/`py_mod` is taken exactly when the quotient is
negative and not an integer. -/
theorem adjust_iff (a b : ℚ) (hb : b ≠ 0) :
    (fmod a b ≠ 0 ∧ (decide (fmod a b < 0) ≠ decide (b < 0))) ↔
      (a / b < 0 ∧ ((⌈a / b⌉ : Int) : ℚ) ≠ a / b) := by
  rw [fmod_eq_mul a b hb]
  set q := a / b with hq
  unfold trunc
  by_cases h0 : 0 ≤ q
  · rw [if_pos h0]
    have hlt : ¬ q < 0 := not_lt.mpr h0
    have hd : 0 ≤ q - (⌊q⌋ : ℚ) := sub_nonneg.mpr (Int.floor_le q)
    constructor
    · rintro ⟨hne, hsign⟩
      exfalso
      have hdpos : 0 < q - (⌊q⌋ : ℚ) := by
        rcases hd.lt_or_eq with h | h
        · exact h
        · exact absurd (by rw [← h, mul_zero]) hne
      rcases lt_or_gt_of_ne hb with hbn | hbp
      · have : b * (q - (⌊q⌋ : ℚ)) < 0 := mul_neg_of_neg_of_pos hbn hdpos
        exact hsign (by rw [decide_eq_true this, decide_eq_true hbn])
      · have : ¬ b * (q - (⌊q⌋ : ℚ)) < 0 := not_lt.mpr (mul_pos hbp hdpos).le
        have hb2 : ¬ b < 0 := not_lt.mpr hbp.le
        exact hsign (by rw [decide_eq_false this, decide_eq_false hb2])
    · rintro ⟨h, _⟩
      exact absurd h hlt
  · rw [if_neg h0]
    have hlt : q < 0 := not_le.mp h0
    have hd : q - (⌈q⌉ : ℚ) ≤ 0 := sub_nonpos.mpr (Int.le_ceil q)
    constructor
    · rintro ⟨hne, _⟩
      refine ⟨hlt, fun h => hne ?_⟩
      rw [h, sub_self, mul_zero]
    · rintro ⟨_, hne⟩
      have hdneg : q - (⌈q⌉ : ℚ) < 0 := by
        rcases hd.lt_or_eq with h | h
        · exact h
        · exact absurd (sub_eq_zero.mp h).symm hne
      rcases lt_or_gt_of_ne hb with hbn | hbp
      · have h1 : 0 < b * (q - (⌈q⌉ : ℚ)) := mul_pos_of_neg_of_neg hbn hdneg
        refine ⟨h1.ne', ?_⟩
        have : ¬ b * (q - (⌈q⌉ : ℚ)) < 0 := not_lt.mpr h1.le
        rw [decide_eq_false this, decide_eq_true hbn]; simp
      · have h1 : b * (q - (⌈q⌉ : ℚ)) < 0 := mul_neg_of_pos_of_neg hbp hdneg
        have hb2 : ¬ b < 0 := not_lt.mpr hbp.le
        refine ⟨h1.ne, ?_⟩
        rw [decide_eq_true h1, decide_eq_false hb2]; simp

/-- Shared lemma: `py_div` is the floor of the exact quotient. -/
theorem py_div_eq_floor (a b : ℚ) (hb : b ≠ 0) : py_div a b = ⌊a / b⌋ := by
  unfold py_div
  simp only []
  by_cases hadj : fmod a b ≠ 0 ∧ (decide (fmod a b < 0) ≠ decide (b < 0))
  · rw [if_pos hadj]
    obtain ⟨hlt, hne⟩ := (adjust_iff a b hb).mp hadj
    unfold trunc
    rw [if_neg (not_le.mpr hlt)]
    symm
    rw [Int.floor_eq_iff]
    constructor
    · have := Int.ceil_lt_add_one (a / b)
      push_cast
      linarith
    · have h1 := Int.le_ceil (a / b)
      have h2 : a / b < (⌈a / b⌉ : ℚ) := lt_of_le_of_ne h1 (Ne.symm hne)
      push_cast
      linarith
  · rw [if_neg hadj]
    unfold trunc
    by_cases h0 : 0 ≤ a / b
    · rw [if_pos h0]
    · rw [if_neg h0]
      have hlt : a / b < 0 := not_le.mp h0
      have hint : ((⌈a / b⌉ : Int) : ℚ) = a / b := by
        by_contra hne
        exact hadj ((adjust_iff a b hb).mpr ⟨hlt, hne⟩)
      symm
      rw [Int.floor_eq_iff]
      constructor
      · exact hint.le
      · rw [hint]; linarith

/-- Shared lemma: quotient and remainder recompose the dividend. -/
theorem py_div_add_py_mod (a b : ℚ) : b * (py_div a b : ℚ) + py_mod a b = a := by
  unfold py_div py_mod
  simp only []
  by_cases hadj : fmod a b ≠ 0 ∧ (decide (fmod a b < 0) ≠ decide (b < 0))
  · rw [if_pos hadj, if_pos hadj]
    unfold fmod
    push_cast
    ring
  · rw [if_neg hadj, if_neg hadj]
    unfold fmod
    ring

/-- Shared lemma: `py_mod` is the divisor times the fractional part of the quotient. -/
theorem py_mod_eq_fract (a b : ℚ) (hb : b ≠ 0) : py_mod a b = b * Int.fract (a / b) := by
  have h := py_div_add_py_mod a b
  rw [py_div_eq_floor a b hb] at h
  have : py_mod a b = a - b * (⌊a / b⌋ : ℚ) := by linarith
  rw [this, Int.fract]
  field_simp

theorem py_mod_one_range (a : ℚ) : 0 ≤ py_mod a 1 ∧ py_mod a 1 < 1 := by
  rw [py_mod_eq_fract a 1 one_ne_zero, one_mul]
  exact ⟨Int.fract_nonneg _, Int.fract_lt_one _⟩

/-- Shared lemma: for a positive divisor the quotient brackets the dividend. -/
theorem py_div_bounds (a b : ℚ) (hb : 0 < b) :
    (py_div a b : ℚ) * b ≤ a ∧ a < ((py_div a b : ℚ) + 1) * b := by
  rw [py_div_eq_floor a b hb.ne']
  constructor
  · have h := Int.floor_le (a / b)
    rwa [le_div_iff₀ hb] at h
  · have h := Int.lt_floor_add_one (a / b)
    rwa [div_lt_iff₀ hb] at h

/-- C5: in exact arithmetic, for every `a` and every nonzero `b` (in particular every
`b > 0`), `py_div a b` is the mathematical floor of `a / b`: it is at most `a / b`, every
integer that is at most `a / b` is at most `py_div a b`, and for a negative quotient that
is not an integer it is one below the quotient rounded toward zero. -/
theorem py_div_is_floor (a b : ℚ) (hb : b ≠ 0) :
    py_div a b = ⌊a / b⌋ ∧ ((py_div a b : ℚ) ≤ a / b) ∧
      (∀ z : Int, (z : ℚ) ≤ a / b → z ≤ py_div a b) ∧
      (a / b < 0 → ((⌈a / b⌉ : Int) : ℚ) ≠ a / b → py_div a b = trunc (a / b) - 1) := by
  have h := py_div_eq_floor a b hb
  refine ⟨h, ?_, ?_, ?_⟩
  · rw [h]; exact Int.floor_le _
  · intro z hz
    rw [h]; exact Int.le_floor.mpr hz
  · intro hlt hne
    unfold py_div
    simp only []
    rw [if_pos ((adjust_iff a b hb).mpr ⟨hlt, hne⟩)]

theorem py_div_is_floor_witness :
    (2 : ℚ) ≠ 0 ∧
      (py_div (-7) 2 = ⌊(-7 : ℚ) / 2⌋ ∧ ((py_div (-7) 2 : ℚ) ≤ (-7 : ℚ) / 2) ∧
        (∀ z : Int, (z : ℚ) ≤ (-7 : ℚ) / 2 → z ≤ py_div (-7) 2) ∧
        ((-7 : ℚ) / 2 < 0 → ((⌈(-7 : ℚ) / 2⌉ : Int) : ℚ) ≠ (-7 : ℚ) / 2 →
          py_div (-7) 2 = trunc ((-7 : ℚ) / 2) - 1)) :=
  ⟨by decide!, py_div_is_floor (-7) 2 (by decide!)⟩

/-- C6: for every point `p` and every `voxel_size > 0`, each coordinate of `p` lies in the
half-open cell of its key: `key * voxel_size ≤ p_axis < (key + 1) * voxel_size`. -/
theorem voxel_of_point_cell (p : Point) (voxel_size : ℚ) (hv : 0 < voxel_size) :
    (((voxel_of_point p voxel_size).x : ℚ) * voxel_size ≤ p.p0 ∧
        p.p0 < (((voxel_of_point p voxel_size).x : ℚ) + 1) * voxel_size) ∧
      (((voxel_of_point p voxel_size).y : ℚ) * voxel_size ≤ p.p1 ∧
        p.p1 < (((voxel_of_point p voxel_size).y : ℚ) + 1) * voxel_size) ∧
      (((voxel_of_point p voxel_size).z : ℚ) * voxel_size ≤ p.p2 ∧
        p.p2 < (((voxel_of_point p voxel_size).z : ℚ) + 1) * voxel_size) :=
  ⟨py_div_bounds p.p0 voxel_size hv, py_div_bounds p.p1 voxel_size hv,
    py_div_bounds p.p2 voxel_size hv⟩

theorem voxel_of_point_cell_witness :
    (0 : ℚ) < 5 ∧
      ((((voxel_of_point ⟨-7, 12, 0⟩ 5).x : ℚ) * 5 ≤ (⟨-7, 12, 0⟩ : Point).p0 ∧
          (⟨-7, 12, 0⟩ : Point).p0 < (((voxel_of_point ⟨-7, 12, 0⟩ 5).x : ℚ) + 1) * 5) ∧
        (((voxel_of_point ⟨-7, 12, 0⟩ 5).y : ℚ) * 5 ≤ (⟨-7, 12, 0⟩ : Point).p1 ∧
          (⟨-7, 12, 0⟩ : Point).p1 < (((voxel_of_point ⟨-7, 12, 0⟩ 5).y : ℚ) + 1) * 5) ∧
        (((voxel_of_point ⟨-7, 12, 0⟩ 5).z : ℚ) * 5 ≤ (⟨-7, 12, 0⟩ : Point).p2 ∧
          (⟨-7, 12, 0⟩ : Point).p2 < (((voxel_of_point ⟨-7, 12, 0⟩ 5).z : ℚ) + 1) * 5)) :=
  ⟨by decide!, voxel_of_point_cell ⟨-7, 12, 0⟩ 5 (by decide!)⟩

/-- C7: in exact arithmetic, for every `a` and every nonzero `b`,
`a = b * py_div a b + py_mod a b`. -/
theorem floor_division_identity (a b : ℚ) (hb : b ≠ 0) :
    a = b * (py_div a b : ℚ) + py_mod a b := by
  have _ := hb
  exact (py_div_add_py_mod a b).symm

theorem floor_division_identity_witness :
    (-2 : ℚ) ≠ 0 ∧ (7 : ℚ) = (-2) * (py_div 7 (-2) : ℚ) + py_mod 7 (-2) :=
  ⟨by decide!, floor_division_identity 7 (-2) (by decide!)⟩

/-- C8: in exact arithmetic, for every `a` and every nonzero `b`, `py_mod a b` is zero or
has the sign of `b`, and its magnitude is strictly below `|b|`; for `b > 0` it lies in
`[0, b)`, and for the modulus `1` of the traversal it lies in `[0, 1)`. -/
theorem py_mod_range (a b : ℚ) (hb : b ≠ 0) :
    (py_mod a b = 0 ∨ (0 < py_mod a b ∧ 0 < b) ∨ (py_mod a b < 0 ∧ b < 0)) ∧
      |py_mod a b| < |b| ∧
      (0 < b → 0 ≤ py_mod a b ∧ py_mod a b < b) ∧
      (∀ x : ℚ, 0 ≤ py_mod x 1 ∧ py_mod x 1 < 1) := by
  have hm := py_mod_eq_fract a b hb
  have hf0 := Int.fract_nonneg (a / b)
  have hf1 := Int.fract_lt_one (a / b)
  refine ⟨?_, ?_, ?_, py_mod_one_range⟩
  · rcases hf0.lt_or_eq with hpos | hzero
    · rcases lt_or_gt_of_ne hb with hbn | hbp
      · right; right
        exact ⟨by rw [hm]; exact mul_neg_of_neg_of_pos hbn hpos, hbn⟩
      · right; left
        exact ⟨by rw [hm]; exact mul_pos hbp hpos, hbp⟩
    · left
      rw [hm, ← hzero, mul_zero]
  · rw [hm, abs_mul, abs_of_nonneg hf0]
    have hbpos : 0 < |b| := abs_pos.mpr hb
    calc |b| * Int.fract (a / b) < |b| * 1 := by
          exact mul_lt_mul_of_pos_left hf1 hbpos
      _ = |b| := mul_one _
  · intro hbp
    rw [hm]
    constructor
    · exact mul_nonneg hbp.le hf0
    · calc b * Int.fract (a / b) < b * 1 := mul_lt_mul_of_pos_left hf1 hbp
        _ = b := mul_one _

theorem py_mod_range_witness :
    (-2 : ℚ) ≠ 0 ∧
      ((py_mod 7 (-2) = 0 ∨ (0 < py_mod 7 (-2) ∧ (0 : ℚ) < -2) ∨
          (py_mod 7 (-2) < 0 ∧ (-2 : ℚ) < 0)) ∧
        |py_mod 7 (-2)| < |(-2 : ℚ)| ∧
        ((0 : ℚ) < -2 → 0 ≤ py_mod 7 (-2) ∧ py_mod 7 (-2) < -2) ∧
        (∀ x : ℚ, 0 ≤ py_mod x 1 ∧ py_mod x 1 < 1)) :=
  ⟨by decide!, py_mod_range 7 (-2) (by decide!)⟩


/-! ## Voxel traversal: the loop body and the loop -/

theorem body_of_overrun (c : WalkConst) (idx : OccupancyIndex) (cur diff : ℕ) (s : WalkState)
    (h : overrun s) : body c idx cur diff s = Step.brk s := by
  unfold body
  rw [if_pos h]

theorem body_of_limit (c : WalkConst) (idx : OccupancyIndex) (cur diff : ℕ) (s : WalkState)
    (h : limit_reached c s) : body c idx cur diff s = Step.brk s := by
  unfold body
  by_cases ho : overrun s
  · rw [if_pos ho]
  · rw [if_neg ho, if_pos h]

theorem body_untouched (c : WalkConst) (idx : OccupancyIndex) (cur diff : ℕ) (s : WalkState)
    (ho : ¬ overrun s) (hl : ¬ limit_reached c s) (hidx : idx (advance c s).voxel = none) :
    body c idx cur diff s = Step.cont (advance c s) := by
  unfold body
  rw [if_neg ho, if_neg hl]
  simp only []
  unfold WalkState.voxel at hidx
  rw [hidx]

theorem body_blocked (c : WalkConst) (idx : OccupancyIndex) (cur diff : ℕ) (s : WalkState)
    (l : SliceSet) (ho : ¬ overrun s) (hl : ¬ limit_reached c s)
    (hidx : idx (advance c s).voxel = some l) (hb : blocked l cur diff) :
    body c idx cur diff s = Step.brk (advance c s) := by
  unfold body
  rw [if_neg ho, if_neg hl]
  simp only []
  unfold WalkState.voxel at hidx
  rw [hidx]
  simp only []
  unfold blocked at hb
  by_cases hd : diff = 0
  · rw [if_pos hd] at hb
    rw [if_pos hd, if_neg (not_not.mpr hb)]
  · rw [if_neg hd] at hb
    have hany : l.any (fun it => window_test it cur diff) = true := List.any_eq_true.mpr hb
    rw [if_neg hd, if_neg (by rw [hany]; simp)]

theorem body_not_blocked (c : WalkConst) (idx : OccupancyIndex) (cur diff : ℕ) (s : WalkState)
    (l : SliceSet) (ho : ¬ overrun s) (hl : ¬ limit_reached c s)
    (hidx : idx (advance c s).voxel = some l) (hb : ¬ blocked l cur diff) :
    body c idx cur diff s =
      Step.cont { advance c s with
        empty_voxels := insert (advance c s).voxel (advance c s).empty_voxels } := by
  unfold body
  rw [if_neg ho, if_neg hl]
  simp only []
  unfold WalkState.voxel at hidx
  rw [hidx]
  simp only []
  unfold blocked at hb
  by_cases hd : diff = 0
  · rw [if_pos hd] at hb
    rw [if_pos hd, if_pos hb]
    rfl
  · rw [if_neg hd] at hb
    have hany : l.any (fun it => window_test it cur diff) = false := by
      rw [← Bool.not_eq_true]
      exact fun h => hb (List.any_eq_true.mp h)
    rw [if_neg hd, if_pos hany]
    rfl

/-- The accumulated set is not touched by `advance`. -/
theorem advance_empty_voxels (c : WalkConst) (s : WalkState) :
    (advance c s).empty_voxels = s.empty_voxels := by
  unfold advance
  split_ifs <;> rfl

/-- Every way the body can end, with the state it leaves and the reason. -/
theorem body_result (c : WalkConst) (idx : OccupancyIndex) (cur diff : ℕ) (s : WalkState) :
    ((overrun s ∨ limit_reached c s) ∧ body c idx cur diff s = Step.brk s) ∨
      ((¬ overrun s ∧ ¬ limit_reached c s ∧
          ∃ l, idx (advance c s).voxel = some l ∧ blocked l cur diff) ∧
        body c idx cur diff s = Step.brk (advance c s)) ∨
      ((¬ overrun s ∧ ¬ limit_reached c s ∧ idx (advance c s).voxel = none) ∧
        body c idx cur diff s = Step.cont (advance c s)) ∨
      ((¬ overrun s ∧ ¬ limit_reached c s ∧
          ∃ l, idx (advance c s).voxel = some l ∧ ¬ blocked l cur diff) ∧
        body c idx cur diff s = Step.cont { advance c s with
          empty_voxels := insert (advance c s).voxel (advance c s).empty_voxels }) := by
  by_cases ho : overrun s
  · exact Or.inl ⟨Or.inl ho, body_of_overrun c idx cur diff s ho⟩
  by_cases hl : limit_reached c s
  · exact Or.inl ⟨Or.inr hl, body_of_limit c idx cur diff s hl⟩
  cases hidx : idx (advance c s).voxel with
  | none =>
    exact Or.inr (Or.inr (Or.inl ⟨⟨ho, hl, rfl⟩, body_untouched c idx cur diff s ho hl hidx⟩))
  | some l =>
    by_cases hb : blocked l cur diff
    · exact Or.inr (Or.inl ⟨⟨ho, hl, l, rfl, hb⟩, body_blocked c idx cur diff s l ho hl hidx hb⟩)
    · exact Or.inr (Or.inr (Or.inr
        ⟨⟨ho, hl, l, rfl, hb⟩, body_not_blocked c idx cur diff s l ho hl hidx hb⟩))

/-- Running the loop from the head of iteration `n` is running it from the start with `n`
more iterations of budget. -/
theorem walk_loop_state_at (c : WalkConst) (idx : OccupancyIndex) (cur diff : ℕ)
    (s0 : WalkState) :
    ∀ (n : ℕ) (s : WalkState), state_at c idx cur diff s0 n = some s →
      ∀ k, walk_loop c idx cur diff (n + k) s0 = walk_loop c idx cur diff k s := by
  intro n
  induction n with
  | zero =>
    intro s hs k
    simp only [state_at, Option.some.injEq] at hs
    rw [hs, Nat.zero_add]
  | succ n ih =>
    intro s hs k
    simp only [state_at] at hs
    cases hprev : state_at c idx cur diff s0 n with
    | none => rw [hprev] at hs; simp at hs
    | some sp =>
      rw [hprev] at hs
      simp only [] at hs
      by_cases hc : loop_cond c sp
      · rw [if_pos hc] at hs
        cases hb : body c idx cur diff sp with
        | brk s1 => rw [hb] at hs; simp at hs
        | cont s1 =>
          rw [hb] at hs
          simp only [Option.some.injEq] at hs
          have h1 := ih sp hprev (k + 1)
          have h2 : n + 1 + k = n + (k + 1) := by omega
          rw [h2, h1]
          simp only [walk_loop]
          rw [if_pos hc, hb, hs]
      · rw [if_neg hc] at hs
        simp at hs

/-- A result reached within some budget is reached within every larger budget. -/
theorem walk_loop_more_fuel (c : WalkConst) (idx : OccupancyIndex) (cur diff : ℕ) :
    ∀ (k : ℕ) (s r : WalkState), walk_loop c idx cur diff k s = some r →
      ∀ j, walk_loop c idx cur diff (k + j) s = some r := by
  intro k
  induction k with
  | zero => intro s r h; simp [walk_loop] at h
  | succ k ih =>
    intro s r h j
    have h2 : k + 1 + j = (k + j) + 1 := by omega
    rw [h2]
    simp only [walk_loop] at h ⊢
    by_cases hc : loop_cond c s
    · rw [if_pos hc] at h ⊢
      cases hb : body c idx cur diff s with
      | brk s1 => rw [hb] at h; exact h
      | cont s1 =>
        rw [hb] at h
        exact ih s1 r h j
    · rw [if_neg hc] at h ⊢
      exact h

/-- The loop only ever adds to the accumulated set. -/
theorem walk_loop_subset (c : WalkConst) (idx : OccupancyIndex) (cur diff : ℕ) :
    ∀ (k : ℕ) (s r : WalkState), walk_loop c idx cur diff k s = some r →
      s.empty_voxels ⊆ r.empty_voxels := by
  intro k
  induction k with
  | zero => intro s r h; simp [walk_loop] at h
  | succ k ih =>
    intro s r h
    simp only [walk_loop] at h
    by_cases hc : loop_cond c s
    · rw [if_pos hc] at h
      rcases body_result c idx cur diff s with ⟨_, hb⟩ | ⟨_, hb⟩ | ⟨_, hb⟩ | ⟨_, hb⟩
      · rw [hb] at h
        simp only [Option.some.injEq] at h
        rw [← h]
      · rw [hb] at h
        simp only [Option.some.injEq] at h
        rw [← h, advance_empty_voxels]
      · rw [hb] at h
        have := ih _ r h
        rwa [advance_empty_voxels] at this
      · rw [hb] at h
        have := ih _ r h
        simp only [advance_empty_voxels] at this
        exact (Finset.subset_insert _ _).trans this
    · rw [if_neg hc] at h
      simp only [Option.some.injEq] at h
      rw [← h]

/-- Every voxel the loop accumulates has an entry in the occupancy index. -/
theorem walk_loop_keys (c : WalkConst) (idx : OccupancyIndex) (cur diff : ℕ) :
    ∀ (k : ℕ) (s r : WalkState), walk_loop c idx cur diff k s = some r →
      (∀ v ∈ s.empty_voxels, idx v ≠ none) → ∀ v ∈ r.empty_voxels, idx v ≠ none := by
  intro k
  induction k with
  | zero => intro s r h; simp [walk_loop] at h
  | succ k ih =>
    intro s r h hs
    simp only [walk_loop] at h
    by_cases hc : loop_cond c s
    · rw [if_pos hc] at h
      rcases body_result c idx cur diff s with ⟨_, hb⟩ | ⟨_, hb⟩ | ⟨_, hb⟩ | ⟨⟨_, _, l, hkey, _⟩, hb⟩
      · rw [hb] at h
        simp only [Option.some.injEq] at h
        rw [← h]; exact hs
      · rw [hb] at h
        simp only [Option.some.injEq] at h
        rw [← h, advance_empty_voxels]; exact hs
      · rw [hb] at h
        refine ih _ r h ?_
        rw [advance_empty_voxels]; exact hs
      · rw [hb] at h
        refine ih _ r h ?_
        simp only [advance_empty_voxels]
        intro v hv
        rcases Finset.mem_insert.mp hv with hv | hv
        · rw [hv, hkey]; simp
        · exact hs v hv
    · rw [if_neg hc] at h
      simp only [Option.some.injEq] at h
      rw [← h]; exact hs

/-- When the ray is not skipped, `walk_voxels` is the loop run from the initial locals. -/
theorem walk_voxels_eq_loop (sqrt : ℚ → ℚ) (start end_ : Point) (voxel_size : ℚ)
    (idx : OccupancyIndex) (cur : ℕ) (msd : ℚ) (diff : ℕ) (mtd mtp : ℚ) (fuel : ℕ)
    (h : ¬ (mtd ≠ -1 ∧ ray_dist sqrt start end_ > mtd)) :
    walk_voxels sqrt start end_ voxel_size idx cur msd diff mtd mtp fuel =
      (walk_loop (walk_const sqrt start end_ voxel_size msd mtp) idx cur diff fuel
        (walk_init start end_ voxel_size)).map (fun s => s.empty_voxels) := by
  unfold walk_voxels
  rw [if_neg h]

/-- Every voxel `walk_voxels` returns has an entry in the occupancy index. -/
theorem walk_voxels_keys (sqrt : ℚ → ℚ) (start end_ : Point) (voxel_size : ℚ)
    (idx : OccupancyIndex) (cur : ℕ) (msd : ℚ) (diff : ℕ) (mtd mtp : ℚ) (fuel : ℕ)
    (res : Finset voxel)
    (h : walk_voxels sqrt start end_ voxel_size idx cur msd diff mtd mtp fuel = some res) :
    ∀ v ∈ res, idx v ≠ none := by
  unfold walk_voxels at h
  by_cases he : mtd ≠ -1 ∧ ray_dist sqrt start end_ > mtd
  · rw [if_pos he] at h
    simp only [Option.some.injEq] at h
    rw [← h]; simp
  · rw [if_neg he] at h
    rw [Option.map_eq_some'] at h
    obtain ⟨r, hr, hres⟩ := h
    rw [← hres]
    exact walk_loop_keys _ idx cur diff fuel _ r hr (by simp [walk_init])

/-- The head of iteration `n + 1` from `s` is the head of iteration `n` from the state the
first iteration leaves. -/
theorem state_at_succ_front (c : WalkConst) (idx : OccupancyIndex) (cur diff : ℕ)
    (s s1 : WalkState) (hc : loop_cond c s) (hb : body c idx cur diff s = Step.cont s1) :
    ∀ n, state_at c idx cur diff s (n + 1) = state_at c idx cur diff s1 n := by
  intro n
  induction n with
  | zero =>
    simp only [state_at]
    rw [if_pos hc, hb]
  | succ n ih =>
    rw [state_at, ih]
    rfl

/-- Provenance of the accumulated voxels: a voxel of the loop's result was accumulated
before the loop started, or was stepped into at the head `sm` of some iteration that
passed both guards, where it had an entry in the index that was not blocking. -/
theorem walk_loop_origin (c : WalkConst) (idx : OccupancyIndex) (cur diff : ℕ) :
    ∀ (k : ℕ) (s r : WalkState), walk_loop c idx cur diff k s = some r →
      ∀ v ∈ r.empty_voxels, v ∈ s.empty_voxels ∨
        ∃ m sm, state_at c idx cur diff s m = some sm ∧ loop_cond c sm ∧ ¬ overrun sm ∧
          ¬ limit_reached c sm ∧ (advance c sm).voxel = v ∧
          ∃ l, idx v = some l ∧ ¬ blocked l cur diff := by
  intro k
  induction k with
  | zero => intro s r h; simp [walk_loop] at h
  | succ k ih =>
    intro s r h v hv
    simp only [walk_loop] at h
    by_cases hc : loop_cond c s
    · rw [if_pos hc] at h
      rcases body_result c idx cur diff s with ⟨_, hb⟩ | ⟨_, hb⟩ | ⟨_, hb⟩ |
        ⟨⟨ho, hl, l, hkey, hnb⟩, hb⟩
      · rw [hb] at h
        simp only [Option.some.injEq] at h
        rw [← h] at hv; exact Or.inl hv
      · rw [hb] at h
        simp only [Option.some.injEq] at h
        rw [← h, advance_empty_voxels] at hv; exact Or.inl hv
      · rw [hb] at h
        rcases ih _ r h v hv with h1 | ⟨m, sm, hm, hrest⟩
        · rw [advance_empty_voxels] at h1; exact Or.inl h1
        · refine Or.inr ⟨m + 1, sm, ?_, hrest⟩
          rw [state_at_succ_front c idx cur diff s _ hc hb m]; exact hm
      · rw [hb] at h
        rcases ih _ r h v hv with h1 | ⟨m, sm, hm, hrest⟩
        · simp only [advance_empty_voxels] at h1
          rcases Finset.mem_insert.mp h1 with h2 | h2
          · refine Or.inr ⟨0, s, rfl, hc, ho, hl, h2.symm, l, ?_, hnb⟩
            rw [h2]; exact hkey
          · exact Or.inl h2
        · refine Or.inr ⟨m + 1, sm, ?_, hrest⟩
          rw [state_at_succ_front c idx cur diff s _ hc hb m]; exact hm
    · rw [if_neg hc] at h
      simp only [Option.some.injEq] at h
      rw [← h] at hv; exact Or.inl hv


/-! ## Voxel traversal: axis selection and termination -/

theorem epsilon_pos : 0 < epsilon := by
  unfold epsilon; positivity

/-- The advanced axis has the smallest threshold. -/
theorem entry_t_le (s : WalkState) :
    entry_t s ≤ s.tMaxX ∧ entry_t s ≤ s.tMaxY ∧ entry_t s ≤ s.tMaxZ := by
  unfold entry_t
  by_cases h1 : s.tMaxX < s.tMaxY
  · by_cases h2 : s.tMaxX < s.tMaxZ
    · rw [if_pos h1, if_pos h2]
      exact ⟨le_refl _, h1.le, h2.le⟩
    · rw [if_pos h1, if_neg h2]
      have h3 : s.tMaxZ ≤ s.tMaxX := not_lt.mp h2
      exact ⟨h3, h3.trans h1.le, le_refl _⟩
  · have h1' : s.tMaxY ≤ s.tMaxX := not_lt.mp h1
    by_cases h2 : s.tMaxY < s.tMaxZ
    · rw [if_neg h1, if_pos h2]
      exact ⟨h1', le_refl _, h2.le⟩
    · rw [if_neg h1, if_neg h2]
      have h3 : s.tMaxZ ≤ s.tMaxY := not_lt.mp h2
      exact ⟨h3.trans h1', h3, le_refl _⟩

theorem entry_t_eq_min (s : WalkState) :
    entry_t s = min s.tMaxX (min s.tMaxY s.tMaxZ) := by
  apply le_antisymm
  · obtain ⟨h1, h2, h3⟩ := entry_t_le s
    exact le_min h1 (le_min h2 h3)
  · unfold entry_t
    split_ifs
    · exact min_le_left _ _
    · exact (min_le_right _ _).trans (min_le_right _ _)
    · exact (min_le_right _ _).trans (min_le_left _ _)
    · exact (min_le_right _ _).trans (min_le_right _ _)

/-- When some threshold is at most a bound, so is the threshold of the advanced axis. -/
theorem entry_t_le_of_not_all_gt (s : WalkState) (b : WithTop ℚ)
    (h : ¬ (s.tMaxX > b ∧ s.tMaxY > b ∧ s.tMaxZ > b)) : entry_t s ≤ b := by
  obtain ⟨h1, h2, h3⟩ := entry_t_le s
  by_contra hc
  have hlt : b < entry_t s := not_le.mp hc
  exact h ⟨lt_of_lt_of_le hlt h1, lt_of_lt_of_le hlt h2, lt_of_lt_of_le hlt h3⟩

theorem axis_steps_left_step (q tDelta : ℚ) (hd : 0 < tDelta) (hq : q ≤ 1 + epsilon) :
    axis_steps_left ((q : WithTop ℚ) + (tDelta : WithTop ℚ)) tDelta <
      axis_steps_left (q : WithTop ℚ) tDelta := by
  rw [← WithTop.coe_add]
  show (if q + tDelta ≤ 1 + epsilon then ⌊(1 + epsilon - (q + tDelta)) / tDelta⌋₊ + 1 else 0) <
    (if q ≤ 1 + epsilon then ⌊(1 + epsilon - q) / tDelta⌋₊ + 1 else 0)
  rw [if_pos hq]
  by_cases h : q + tDelta ≤ 1 + epsilon
  · rw [if_pos h]
    have hx : (1 + epsilon - (q + tDelta)) / tDelta = (1 + epsilon - q) / tDelta - 1 := by
      field_simp
      ring
    rw [hx, Nat.floor_sub_one]
    have h1 : (1 : ℚ) ≤ (1 + epsilon - q) / tDelta := by
      rw [le_div_iff₀ hd]; linarith
    have h2 : 1 ≤ ⌊(1 + epsilon - q) / tDelta⌋₊ := Nat.le_floor (by exact_mod_cast h1)
    omega
  · rw [if_neg h]
    omega

/-- A step keeps the axes well-formed and lowers the bound on the steps left. -/
theorem advance_steps_left (c : WalkConst) (s : WalkState) (hok : axes_ok c s)
    (ho : ¬ overrun s) :
    axes_ok c (advance c s) ∧ steps_left c (advance c s) < steps_left c s := by
  have hle : entry_t s ≤ ((1 + epsilon : ℚ) : WithTop ℚ) := entry_t_le_of_not_all_gt s _ ho
  obtain ⟨hx, hy, hz⟩ := hok
  unfold entry_t at hle
  unfold advance axes_ok steps_left
  by_cases h1 : s.tMaxX < s.tMaxY
  · by_cases h2 : s.tMaxX < s.tMaxZ
    · rw [if_pos h1, if_pos h2] at hle ⊢
      simp only []
      obtain ⟨q, hq⟩ := WithTop.ne_top_iff_exists.mp (ne_top_of_lt h1)
      rw [← hq] at hle hx ⊢
      have hd : 0 < c.tDeltaX := hx.resolve_left WithTop.coe_ne_top
      have hq1 : q ≤ 1 + epsilon := WithTop.coe_le_coe.mp hle
      refine ⟨⟨Or.inr hd, hy, hz⟩, ?_⟩
      have := axis_steps_left_step q c.tDeltaX hd hq1
      omega
    · rw [if_pos h1, if_neg h2] at hle ⊢
      simp only []
      have hzlt : s.tMaxZ < s.tMaxY := lt_of_le_of_lt (not_lt.mp h2) h1
      obtain ⟨q, hq⟩ := WithTop.ne_top_iff_exists.mp (ne_top_of_lt hzlt)
      rw [← hq] at hle hz ⊢
      have hd : 0 < c.tDeltaZ := hz.resolve_left WithTop.coe_ne_top
      have hq1 : q ≤ 1 + epsilon := WithTop.coe_le_coe.mp hle
      refine ⟨⟨hx, hy, Or.inr hd⟩, ?_⟩
      have := axis_steps_left_step q c.tDeltaZ hd hq1
      omega
  · by_cases h2 : s.tMaxY < s.tMaxZ
    · rw [if_neg h1, if_pos h2] at hle ⊢
      simp only []
      obtain ⟨q, hq⟩ := WithTop.ne_top_iff_exists.mp (ne_top_of_lt h2)
      rw [← hq] at hle hy ⊢
      have hd : 0 < c.tDeltaY := hy.resolve_left WithTop.coe_ne_top
      have hq1 : q ≤ 1 + epsilon := WithTop.coe_le_coe.mp hle
      refine ⟨⟨hx, Or.inr hd, hz⟩, ?_⟩
      have := axis_steps_left_step q c.tDeltaY hd hq1
      omega
    · rw [if_neg h1, if_neg h2] at hle ⊢
      simp only []
      have hne : s.tMaxZ ≠ ⊤ := ne_top_of_le_ne_top WithTop.coe_ne_top hle
      obtain ⟨q, hq⟩ := WithTop.ne_top_iff_exists.mp hne
      rw [← hq] at hle hz ⊢
      have hd : 0 < c.tDeltaZ := hz.resolve_left WithTop.coe_ne_top
      have hq1 : q ≤ 1 + epsilon := WithTop.coe_le_coe.mp hle
      refine ⟨⟨hx, hy, Or.inr hd⟩, ?_⟩
      have := axis_steps_left_step q c.tDeltaZ hd hq1
      omega

/-- The loop ends within `steps_left + 1` iterations. -/
theorem walk_loop_terminates (c : WalkConst) (idx : OccupancyIndex) (cur diff : ℕ) :
    ∀ (m : ℕ) (s : WalkState), axes_ok c s → steps_left c s < m →
      ∃ r, walk_loop c idx cur diff m s = some r := by
  intro m
  induction m with
  | zero => intro s _ h; omega
  | succ m ih =>
    intro s hok hm
    simp only [walk_loop]
    by_cases hc : loop_cond c s
    · rw [if_pos hc]
      by_cases ho : overrun s
      · rw [body_of_overrun c idx cur diff s ho]
        exact ⟨s, rfl⟩
      · obtain ⟨hok1, hlt⟩ := advance_steps_left c s hok ho
        rcases body_result c idx cur diff s with ⟨_, hb⟩ | ⟨_, hb⟩ | ⟨_, hb⟩ | ⟨_, hb⟩
        · rw [hb]; exact ⟨s, rfl⟩
        · rw [hb]; exact ⟨_, rfl⟩
        · rw [hb]
          exact ih _ hok1 (by omega)
        · rw [hb]
          exact ih _ hok1 (by
            have : steps_left c { advance c s with
                empty_voxels := insert (advance c s).voxel (advance c s).empty_voxels } =
              steps_left c (advance c s) := rfl
            omega)
    · rw [if_neg hc]
      exact ⟨s, rfl⟩


/-! ## Voxel traversal: the initial locals -/

theorem axis_setup_zero (s voxel_size : ℚ) : axis_setup 0 s voxel_size = (0, 0, ⊤) := by
  unfold axis_setup
  rw [if_pos rfl]

theorem axis_setup_tDelta_pos (d s voxel_size : ℚ) (hd : d ≠ 0) (hv : 0 < voxel_size) :
    0 < (axis_setup d s voxel_size).2.1 := by
  unfold axis_setup
  rw [if_neg hd]
  simp only []
  rcases lt_or_gt_of_ne hd with hneg | hpos
  · rw [if_neg (not_lt.mpr hneg.le)]
    push_cast
    rw [neg_one_mul]
    exact div_pos_of_neg_of_neg (neg_lt_zero.mpr hv) hneg
  · rw [if_pos hpos]
    push_cast
    rw [one_mul]
    exact div_pos hv hpos

theorem axis_setup_tMax_pos (d s voxel_size : ℚ) (hd : d ≠ 0) (hv : 0 < voxel_size) :
    (0 : WithTop ℚ) < (axis_setup d s voxel_size).2.2 := by
  have hpos := axis_setup_tDelta_pos d s voxel_size hd hv
  unfold axis_setup at hpos ⊢
  rw [if_neg hd] at hpos ⊢
  simp only [] at hpos ⊢
  have hm := py_mod_one_range (((if d > 0 then (1 : Int) else -1 : Int) : ℚ) * (s / voxel_size))
  have : (0 : ℚ) < ((if d > 0 then (1 : Int) else -1 : Int) : ℚ) * voxel_size / d *
      (1 - py_mod (((if d > 0 then (1 : Int) else -1 : Int) : ℚ) * (s / voxel_size)) 1) :=
    mul_pos hpos (by linarith [hm.2])
  exact_mod_cast this

/-- With a positive voxel size every initial threshold is non-negative. -/
theorem axis_fix_nonneg (d s voxel_size : ℚ) (hv : 0 < voxel_size) :
    (0 : WithTop ℚ) ≤ axis_fix (axis_setup d s voxel_size) := by
  unfold axis_fix
  split_ifs with h
  · exact le_refl _
  · by_cases hd : d = 0
    · rw [hd, axis_setup_zero]
      exact le_top
    · exact (axis_setup_tMax_pos d s voxel_size hd hv).le

theorem axis_init_ok (d s voxel_size : ℚ) (hv : 0 < voxel_size) :
    axis_fix (axis_setup d s voxel_size) = ⊤ ∨ 0 < (axis_setup d s voxel_size).2.1 := by
  by_cases hd : d = 0
  · left
    rw [hd, axis_setup_zero]
    unfold axis_fix
    rw [if_neg (by simp)]
  · exact Or.inr (axis_setup_tDelta_pos d s voxel_size hd hv)

theorem walk_init_axes_ok (sqrt : ℚ → ℚ) (start end_ : Point) (voxel_size msd mtp : ℚ)
    (hv : 0 < voxel_size) :
    axes_ok (walk_const sqrt start end_ voxel_size msd mtp) (walk_init start end_ voxel_size) :=
  ⟨axis_init_ok _ _ _ hv, axis_init_ok _ _ _ hv, axis_init_ok _ _ _ hv⟩

/-- With a positive voxel size `walk_voxels` returns: every budget above the bound on the
steps left at the initial locals is enough. -/
theorem walk_voxels_returns (sqrt : ℚ → ℚ) (start end_ : Point) (voxel_size : ℚ)
    (idx : OccupancyIndex) (cur : ℕ) (msd : ℚ) (diff : ℕ) (mtd mtp : ℚ)
    (hv : 0 < voxel_size) (fuel : ℕ)
    (hfuel : steps_left (walk_const sqrt start end_ voxel_size msd mtp)
      (walk_init start end_ voxel_size) < fuel) :
    ∃ res, walk_voxels sqrt start end_ voxel_size idx cur msd diff mtd mtp fuel = some res := by
  unfold walk_voxels
  by_cases he : mtd ≠ -1 ∧ ray_dist sqrt start end_ > mtd
  · rw [if_pos he]
    exact ⟨∅, rfl⟩
  · rw [if_neg he]
    obtain ⟨r, hr⟩ := walk_loop_terminates _ idx cur diff fuel _
      (walk_init_axes_ok sqrt start end_ voxel_size msd mtp hv) hfuel
    rw [hr]
    exact ⟨_, rfl⟩

/-- The loop has not ended within `n` iterations when it reaches the head of iteration `n`. -/
theorem walk_loop_none_of_state_at (c : WalkConst) (idx : OccupancyIndex) (cur diff : ℕ)
    (s0 s : WalkState) (n : ℕ) (hs : state_at c idx cur diff s0 n = some s) :
    walk_loop c idx cur diff n s0 = none := by
  have h := walk_loop_state_at c idx cur diff s0 n s hs 0
  rw [Nat.add_zero] at h
  rw [h]
  rfl

/-- A result of the loop is a result of the loop run from the head of any iteration
it reaches. -/
theorem walk_loop_from_state_at (c : WalkConst) (idx : OccupancyIndex) (cur diff : ℕ)
    (s0 s r : WalkState) (n fuel : ℕ) (hs : state_at c idx cur diff s0 n = some s)
    (hr : walk_loop c idx cur diff fuel s0 = some r) :
    ∃ k, fuel = n + k ∧ walk_loop c idx cur diff k s = some r := by
  by_cases hle : fuel ≤ n
  · exfalso
    have h1 := walk_loop_more_fuel c idx cur diff fuel s0 r hr (n - fuel)
    rw [Nat.add_sub_cancel' hle, walk_loop_none_of_state_at c idx cur diff s0 s n hs] at h1
    simp at h1
  · refine ⟨fuel - n, by omega, ?_⟩
    rw [← walk_loop_state_at c idx cur diff s0 n s hs (fuel - n)]
    rw [Nat.add_sub_cancel' (by omega)]
    exact hr


/-! ## Voxel traversal: the claims -/

theorem head_eq_state_at (a : WalkArgs) (n : ℕ) (s : WalkState) (h : a.head n = some s) :
    ¬ a.skipped ∧
      state_at a.const a.voxel_occupied_by_slice a.current_slice a.diff a.init n = some s := by
  unfold WalkArgs.head at h
  by_cases hs : a.skipped
  · rw [if_pos hs] at h; simp at h
  · rw [if_neg hs] at h; exact ⟨hs, h⟩

theorem run_eq_loop (a : WalkArgs) (h : ¬ a.skipped) (fuel : ℕ) :
    a.run fuel = (walk_loop a.const a.voxel_occupied_by_slice a.current_slice a.diff fuel
      a.init).map (fun s => s.empty_voxels) :=
  walk_voxels_eq_loop _ _ _ _ _ _ _ _ _ _ fuel h

/-- The head of the next iteration after a `continue`. -/
theorem head_succ_of_cont (a : WalkArgs) (n : ℕ) (s s1 : WalkState) (h : a.head n = some s)
    (hc : loop_cond a.const s) (hb : a.body s = Step.cont s1) : a.head (n + 1) = some s1 := by
  obtain ⟨hs, hst⟩ := head_eq_state_at a n s h
  unfold WalkArgs.head
  rw [if_neg hs]
  simp only [state_at]
  rw [hst]
  simp only []
  unfold WalkArgs.body at hb
  rw [if_pos hc, hb]

/-- After a `break` no further iteration is reached and the call returns the set left by
the body. -/
theorem run_of_brk (a : WalkArgs) (n : ℕ) (s s1 : WalkState) (h : a.head n = some s)
    (hc : loop_cond a.const s) (hb : a.body s = Step.brk s1) :
    a.head (n + 1) = none ∧ ∀ fuel, a.run (n + 1 + fuel) = some s1.empty_voxels := by
  obtain ⟨hs, hst⟩ := head_eq_state_at a n s h
  unfold WalkArgs.body at hb
  constructor
  · unfold WalkArgs.head
    rw [if_neg hs]
    simp only [state_at]
    rw [hst]
    simp only []
    rw [if_pos hc, hb]
  · intro fuel
    rw [run_eq_loop a hs]
    have h2 : n + 1 + fuel = n + (fuel + 1) := by omega
    rw [h2, walk_loop_state_at _ _ _ _ _ n s hst (fuel + 1)]
    simp only [walk_loop]
    rw [if_pos hc, hb]
    rfl

/-- Every result of the call contains what is accumulated at the head of an iteration. -/
theorem run_contains_head (a : WalkArgs) (n : ℕ) (s : WalkState) (h : a.head n = some s)
    (fuel : ℕ) (res : Finset voxel) (hr : a.run fuel = some res) : s.empty_voxels ⊆ res := by
  obtain ⟨hs, hst⟩ := head_eq_state_at a n s h
  rw [run_eq_loop a hs, Option.map_eq_some'] at hr
  obtain ⟨r, hr, hres⟩ := hr
  obtain ⟨k, _, hk⟩ := walk_loop_from_state_at _ _ _ _ _ s r n fuel hst hr
  rw [← hres]
  exact walk_loop_subset _ _ _ _ k s r hk

/-- With a positive voxel size the call returns. -/
theorem run_returns (a : WalkArgs) (hv : 0 < a.voxel_size) :
    ∃ fuel res, a.run fuel = some res := by
  obtain ⟨res, hres⟩ := walk_voxels_returns a.sqrt a.start a.end_ a.voxel_size
    a.voxel_occupied_by_slice a.current_slice a.max_search_distance a.diff a.max_target_dist
    a.max_target_proximity hv _ (Nat.lt_succ_self _)
  exact ⟨_, res, hres⟩

/-- The blocking condition in plain arithmetic, when the two `size_t` sums do not wrap. -/
theorem blocked_iff_window (l : SliceSet) (cur diff : ℕ) (hc : cur + diff < 2 ^ 64)
    (hl : ∀ it ∈ l, it + diff < 2 ^ 64) :
    blocked l cur diff ↔ ∃ it ∈ l, it + diff ≥ cur ∧ it ≤ cur + diff := by
  unfold blocked
  by_cases hd : diff = 0
  · rw [if_pos hd, hd]
    constructor
    · intro h
      exact ⟨cur, h, by omega, by omega⟩
    · rintro ⟨it, hit, h1, h2⟩
      have : it = cur := by omega
      rw [← this]; exact hit
  · rw [if_neg hd]
    constructor
    · rintro ⟨it, hit, h⟩
      refine ⟨it, hit, ?_⟩
      unfold window_test at h
      rw [decide_eq_true_eq, Nat.mod_eq_of_lt (hl it hit), Nat.mod_eq_of_lt hc] at h
      exact h
    · rintro ⟨it, hit, h⟩
      refine ⟨it, hit, ?_⟩
      unfold window_test
      rw [decide_eq_true_eq, Nat.mod_eq_of_lt (hl it hit), Nat.mod_eq_of_lt hc]
      exact h


theorem run_more_fuel (a : WalkArgs) (k : ℕ) (res : Finset voxel) (h : a.run k = some res)
    (j : ℕ) : a.run (k + j) = some res := by
  by_cases hs : a.skipped
  · unfold WalkArgs.run walk_voxels at h ⊢
    unfold WalkArgs.skipped at hs
    rw [if_pos hs] at h ⊢
    exact h
  · rw [run_eq_loop a hs, Option.map_eq_some'] at h
    obtain ⟨r, hr, hres⟩ := h
    rw [run_eq_loop a hs, walk_loop_more_fuel _ _ _ _ k _ r hr j]
    simp [hres]

/-- C1: when the walk steps into a voxel that has an entry in the occupancy index, then,
if no occupant is blocking, the voxel is added to the accumulated set, the walk goes on to
the next iteration, every set the call returns contains the voxel, and (for a positive
voxel size) the call does return; if an occupant is blocking, the walk stops there and
the call returns exactly the set accumulated before the step, so neither this voxel nor
any later one is added. An occupant `it` is blocking when
`it + diff >= current_slice` and `it <= current_slice + diff` (as `size_t` sums; in plain
arithmetic when they do not wrap), which for `diff = 0` says `current_slice` is an
occupant. -/
theorem occupied_voxel_rule (a : WalkArgs) (n : ℕ) (s : WalkState) (scanslices : SliceSet)
    (hstep : a.steps n s)
    (hentry : a.voxel_occupied_by_slice (advance a.const s).voxel = some scanslices) :
    (¬ blocked scanslices a.current_slice a.diff →
        a.head (n + 1) = some { advance a.const s with
          empty_voxels := insert (advance a.const s).voxel (advance a.const s).empty_voxels } ∧
        (∀ fuel res, a.run fuel = some res → (advance a.const s).voxel ∈ res) ∧
        (0 < a.voxel_size →
          ∃ fuel res, a.run fuel = some res ∧ (advance a.const s).voxel ∈ res)) ∧
      (blocked scanslices a.current_slice a.diff →
        a.head (n + 1) = none ∧ ∀ fuel, a.run (n + 1 + fuel) = some s.empty_voxels) ∧
      (a.current_slice + a.diff < 2 ^ 64 → (∀ it ∈ scanslices, it + a.diff < 2 ^ 64) →
        (blocked scanslices a.current_slice a.diff ↔
          ∃ it ∈ scanslices, it + a.diff ≥ a.current_slice ∧ it ≤ a.current_slice + a.diff)) ∧
      (a.diff = 0 →
        (blocked scanslices a.current_slice a.diff ↔ a.current_slice ∈ scanslices)) := by
  obtain ⟨hhead, hcond, ho, hl⟩ := hstep
  refine ⟨?_, ?_, blocked_iff_window scanslices a.current_slice a.diff, ?_⟩
  · intro hnb
    have hb := body_not_blocked a.const a.voxel_occupied_by_slice a.current_slice a.diff s
      scanslices ho hl hentry hnb
    have hnext := head_succ_of_cont a n s _ hhead hcond hb
    have hall : ∀ fuel res, a.run fuel = some res → (advance a.const s).voxel ∈ res := by
      intro fuel res hr
      exact run_contains_head a (n + 1) _ hnext fuel res hr (Finset.mem_insert_self _ _)
    refine ⟨hnext, hall, ?_⟩
    intro hv
    obtain ⟨fuel, res, hr⟩ := run_returns a hv
    exact ⟨fuel, res, hr, hall fuel res hr⟩
  · intro hbl
    have hb := body_blocked a.const a.voxel_occupied_by_slice a.current_slice a.diff s
      scanslices ho hl hentry hbl
    have := run_of_brk a n s _ hhead hcond hb
    rw [advance_empty_voxels] at this
    exact this
  · intro hd
    unfold blocked
    rw [if_pos hd]

theorem occupied_voxel_rule_witness :
    ((unit_ray index_slice10 12 1).steps 1 unit_ray_head1 ∧
      (unit_ray index_slice10 12 1).voxel_occupied_by_slice
        (advance (unit_ray index_slice10 12 1).const unit_ray_head1).voxel = some [10] ∧
      ¬ blocked [10] 12 1) ∧
    (advance (unit_ray index_slice10 12 1).const unit_ray_head1).voxel = ⟨2, 0, 0⟩ ∧
    ((unit_ray index_slice10 12 1).head (1 + 1) =
        some { advance (unit_ray index_slice10 12 1).const unit_ray_head1 with
          empty_voxels := insert (advance (unit_ray index_slice10 12 1).const unit_ray_head1).voxel
            (advance (unit_ray index_slice10 12 1).const unit_ray_head1).empty_voxels } ∧
      (∀ fuel res, (unit_ray index_slice10 12 1).run fuel = some res →
        (advance (unit_ray index_slice10 12 1).const unit_ray_head1).voxel ∈ res) ∧
      ((0 : ℚ) < (unit_ray index_slice10 12 1).voxel_size →
        ∃ fuel res, (unit_ray index_slice10 12 1).run fuel = some res ∧
          (advance (unit_ray index_slice10 12 1).const unit_ray_head1).voxel ∈ res)) ∧
    (unit_ray index_slice10 12 1).run 4 = some {⟨2, 0, 0⟩} :=
  ⟨⟨by decide!, by decide!, by decide!⟩, by decide!,
    (occupied_voxel_rule (unit_ray index_slice10 12 1) 1 unit_ray_head1 [10]
      (by decide!) (by decide!)).1 (by decide!),
    by decide!⟩


/-- C2 as stated fails: on the unit-grid ray with an empty index the walk steps into voxel
(1,0,0), which has no entry in the index, and the call returns the empty set, not
{(1,0,0), (2,0,0)}; with voxel (2,0,0) occupied by slice 0 and `current_slice = 0` the call
returns the empty set, not {(1,0,0)}. -/
theorem untouched_voxel_counterexample :
    ¬ (∀ (a : WalkArgs) (n : ℕ) (s : WalkState), a.steps n s →
        a.voxel_occupied_by_slice (advance a.const s).voxel = none →
        ∀ fuel res, a.run fuel = some res → (advance a.const s).voxel ∈ res) ∧
      (unit_ray index_none 0 0).steps 0 (unit_ray index_none 0 0).init ∧
      (advance (unit_ray index_none 0 0).const (unit_ray index_none 0 0).init).voxel
        = ⟨1, 0, 0⟩ ∧
      index_none ⟨1, 0, 0⟩ = none ∧
      (unit_ray index_none 0 0).run 4 = some ∅ ∧
      (unit_ray index_none 0 0).run 4 ≠ some {⟨1, 0, 0⟩, ⟨2, 0, 0⟩} ∧
      (unit_ray index_slice0 0 0).run 4 = some ∅ ∧
      (unit_ray index_slice0 0 0).run 4 ≠ some {⟨1, 0, 0⟩} := by
  refine ⟨?_, by decide!, by decide!, by decide!, by decide!, by decide!, by decide!,
    by decide!⟩
  intro h
  have h1 := h (unit_ray index_none 0 0) 0 (unit_ray index_none 0 0).init (by decide!)
    (by decide!) 4 ∅ (by decide!)
  exact absurd h1 (Finset.not_mem_empty _)

/-- C2, amended: when the walk steps into a voxel that has no entry in the occupancy
index, the voxel is skipped: the walk goes on to the next iteration with the accumulated set
unchanged, and no set the call returns contains the voxel. On the unit-grid ray the call
returns the empty set, both with an empty index and with voxel (2,0,0) occupied by slice 0
and `current_slice = 0`. -/
theorem untouched_voxel_skipped (a : WalkArgs) (n : ℕ) (s : WalkState)
    (hstep : a.steps n s)
    (hentry : a.voxel_occupied_by_slice (advance a.const s).voxel = none) :
    a.head (n + 1) = some (advance a.const s) ∧
      (advance a.const s).empty_voxels = s.empty_voxels ∧
      (∀ fuel res, a.run fuel = some res → (advance a.const s).voxel ∉ res) ∧
      (∀ fuel, (unit_ray index_none 0 0).run (4 + fuel) = some ∅) ∧
      (∀ fuel, (unit_ray index_slice0 0 0).run (4 + fuel) = some ∅) := by
  obtain ⟨hhead, hcond, ho, hl⟩ := hstep
  have hb := body_untouched a.const a.voxel_occupied_by_slice a.current_slice a.diff s ho hl
    hentry
  refine ⟨head_succ_of_cont a n s _ hhead hcond hb, advance_empty_voxels _ _, ?_, ?_, ?_⟩
  · intro fuel res hr hmem
    exact walk_voxels_keys _ _ _ _ _ _ _ _ _ _ fuel res hr _ hmem hentry
  · exact run_more_fuel _ 4 ∅ (by decide!)
  · exact run_more_fuel _ 4 ∅ (by decide!)

theorem untouched_voxel_skipped_witness :
    ((unit_ray index_slice0 0 0).steps 0 (unit_ray index_slice0 0 0).init ∧
      (unit_ray index_slice0 0 0).voxel_occupied_by_slice
        (advance (unit_ray index_slice0 0 0).const (unit_ray index_slice0 0 0).init).voxel
          = none) ∧
    (advance (unit_ray index_slice0 0 0).const (unit_ray index_slice0 0 0).init).voxel
      = ⟨1, 0, 0⟩ ∧
    ((unit_ray index_slice0 0 0).head (0 + 1) =
        some (advance (unit_ray index_slice0 0 0).const (unit_ray index_slice0 0 0).init) ∧
      (advance (unit_ray index_slice0 0 0).const (unit_ray index_slice0 0 0).init).empty_voxels
        = (unit_ray index_slice0 0 0).init.empty_voxels ∧
      (∀ fuel res, (unit_ray index_slice0 0 0).run fuel = some res →
        (advance (unit_ray index_slice0 0 0).const (unit_ray index_slice0 0 0).init).voxel
          ∉ res) ∧
      (∀ fuel, (unit_ray index_none 0 0).run (4 + fuel) = some ∅) ∧
      (∀ fuel, (unit_ray index_slice0 0 0).run (4 + fuel) = some ∅)) :=
  ⟨⟨by decide!, by decide!⟩, by decide!,
    untouched_voxel_skipped (unit_ray index_slice0 0 0) 0 (unit_ray index_slice0 0 0).init
      (by decide!) (by decide!)⟩

/-- C9: when `max_target_dist` is set (is not -1) and the ray length computed by the call
is strictly greater than it, `walk_voxels` returns the empty set whatever the index and
the budget, and no iteration of the loop is reached. -/
theorem distance_cap (a : WalkArgs) (hset : a.max_target_dist ≠ -1)
    (hfar : a.max_target_dist < a.dist) :
    (∀ fuel, a.run fuel = some ∅) ∧ (∀ n, a.head n = none) := by
  have hs : a.skipped := ⟨hset, hfar⟩
  constructor
  · intro fuel
    unfold WalkArgs.run walk_voxels
    unfold WalkArgs.skipped at hs
    rw [if_pos hs]
  · intro n
    unfold WalkArgs.head
    rw [if_pos hs]

theorem distance_cap_witness :
    (capped_ray.max_target_dist ≠ -1 ∧ capped_ray.max_target_dist < capped_ray.dist) ∧
      (capped_ray.max_target_dist = 5 ∧ capped_ray.dist = 10) ∧
      ((∀ fuel, capped_ray.run fuel = some ∅) ∧ (∀ n, capped_ray.head n = none)) :=
  ⟨⟨by decide!, by decide!⟩, ⟨by decide!, by decide!⟩,
    distance_cap capped_ray (by decide!) (by decide!)⟩


theorem const_tMax (a : WalkArgs) :
    a.const.tMax = tMax_of a.dist a.max_search_distance a.max_target_proximity := rfl

/-- The traversal fraction is at most 0 when the proximity cap is at least the ray length. -/
theorem tMax_of_nonpos (dist msd mtp : ℚ) (hd : 0 < dist) (hset : mtp ≠ -1)
    (hge : dist ≤ mtp) : tMax_of dist msd mtp ≤ 0 := by
  unfold tMax_of
  simp only []
  rw [if_pos hset]
  have h1 : 1 ≤ mtp / dist := by
    rw [le_div_iff₀ hd]; linarith
  have h2 : (if msd = -1 then (1 : ℚ) else if msd / dist > 1 then 1 else msd / dist) ≤ 1 := by
    split_ifs with h3 h4
    · exact le_refl _
    · exact le_refl _
    · exact not_lt.mp h4
  linarith

/-- With a positive voxel size and `tMax <= 0` the second guard holds on entry to the loop. -/
theorem limit_reached_init (a : WalkArgs) (hv : 0 < a.voxel_size) (ht : a.const.tMax ≤ 0) :
    limit_reached a.const a.init := by
  have hlt : (((a.const.tMax - epsilon : ℚ)) : WithTop ℚ) < 0 := by
    have : a.const.tMax - epsilon < 0 := by linarith [epsilon_pos]
    exact_mod_cast this
  exact ⟨lt_of_lt_of_le hlt (axis_fix_nonneg _ _ _ hv),
    lt_of_lt_of_le hlt (axis_fix_nonneg _ _ _ hv),
    lt_of_lt_of_le hlt (axis_fix_nonneg _ _ _ hv)⟩

theorem line_of_point (pts : List (List Point)) (refl : List (List ℚ)) (i j : ℕ) :
    (line_of pts refl i j).point = (pts.getD i []).getD j ⟨0, 0, 0⟩ := rfl

/-- The inner emission loop appends, to each output, the lines of its slice that belong
there, in point order. -/
theorem emit_inner (pts : List (List Point)) (refl : List (List ℚ)) (vs : ℚ)
    (free : Finset voxel) (i : ℕ) :
    ∀ (js : List ℕ) (o : Outputs),
      js.foldl
        (fun o j =>
          if voxel_of_point ((pts.getD i []).getD j ⟨0, 0, 0⟩) vs ∉ free then
            { o with out_static := o.out_static ++ [line_of pts refl i j] }
          else
            { o with out_dynamic := o.out_dynamic ++ [line_of pts refl i j] })
        o =
      ⟨o.out_static ++ (js.map (line_of pts refl i)).filter
          (fun l => decide (voxel_of_point l.point vs ∉ free)),
        o.out_dynamic ++ (js.map (line_of pts refl i)).filter
          (fun l => decide (voxel_of_point l.point vs ∈ free))⟩ := by
  intro js
  induction js with
  | nil => intro o; simp
  | cons j js ih =>
    intro o
    rw [List.foldl_cons, ih]
    by_cases h : voxel_of_point ((pts.getD i []).getD j ⟨0, 0, 0⟩) vs ∉ free
    · have h' : voxel_of_point (line_of pts refl i j).point vs ∉ free := h
      rw [if_pos h]
      simp [List.filter_cons, h']
    · have h' : ¬ voxel_of_point (line_of pts refl i j).point vs ∉ free := h
      rw [if_neg h]
      simp only [not_not] at h'
      simp [List.filter_cons, h']

/-- The outer emission loop appends the slices' contributions in slice order. -/
theorem emit_outer (pts : List (List Point)) (refl : List (List ℚ)) (vs : ℚ)
    (free : Finset voxel) :
    ∀ (is : List ℕ) (o : Outputs),
      is.foldl
        (fun o i =>
          (List.range (pts.getD i []).length).foldl
            (fun o j =>
              if voxel_of_point ((pts.getD i []).getD j ⟨0, 0, 0⟩) vs ∉ free then
                { o with out_static := o.out_static ++ [line_of pts refl i j] }
              else
                { o with out_dynamic := o.out_dynamic ++ [line_of pts refl i j] })
            o)
        o =
      ⟨o.out_static ++ ((is.map (fun i => (List.range (pts.getD i []).length).map
            (fun j => line_of pts refl i j))).flatten).filter
          (fun l => decide (voxel_of_point l.point vs ∉ free)),
        o.out_dynamic ++ ((is.map (fun i => (List.range (pts.getD i []).length).map
            (fun j => line_of pts refl i j))).flatten).filter
          (fun l => decide (voxel_of_point l.point vs ∈ free))⟩ := by
  intro is
  induction is with
  | nil => intro o; simp
  | cons i is ih =>
    intro o
    rw [List.foldl_cons, emit_inner pts refl vs free i, ih]
    simp [List.append_assoc]

theorem map_range_getD {α : Type} (l : List α) (d : α) :
    (List.range l.length).map (fun j => l.getD j d) = l := by
  apply List.ext_getElem
  · simp
  · intro n h1 h2
    simp [List.getElem?_eq_getElem h2]

/-- C3: the emission pass sends each point to exactly one output, to the dynamic output
exactly when its voxel is in the empty-voxel set and to the static output otherwise; each
output is the filter of the concatenated line sequence (slice order, then point order
within the slice), whose points are the concatenation of the slices' point lists. -/
theorem classification_partition (points_by_slice : List (List Point))
    (reflectances_by_slice : List (List ℚ)) (voxel_size : ℚ) (free_voxels : Finset voxel) :
    (emit points_by_slice reflectances_by_slice voxel_size free_voxels).out_static =
        (all_lines points_by_slice reflectances_by_slice).filter
          (fun l => decide (voxel_of_point l.point voxel_size ∉ free_voxels)) ∧
      (emit points_by_slice reflectances_by_slice voxel_size free_voxels).out_dynamic =
        (all_lines points_by_slice reflectances_by_slice).filter
          (fun l => decide (voxel_of_point l.point voxel_size ∈ free_voxels)) ∧
      (all_lines points_by_slice reflectances_by_slice).map Line.point =
        points_by_slice.flatten ∧
      List.Perm
        ((emit points_by_slice reflectances_by_slice voxel_size free_voxels).out_dynamic ++
          (emit points_by_slice reflectances_by_slice voxel_size free_voxels).out_static)
        (all_lines points_by_slice reflectances_by_slice) := by
  have hemit := emit_outer points_by_slice reflectances_by_slice voxel_size free_voxels
    (List.range points_by_slice.length) ⟨[], []⟩
  have hs : (emit points_by_slice reflectances_by_slice voxel_size free_voxels).out_static =
      (all_lines points_by_slice reflectances_by_slice).filter
        (fun l => decide (voxel_of_point l.point voxel_size ∉ free_voxels)) := by
    unfold emit all_lines
    rw [hemit]
    simp
  have hd : (emit points_by_slice reflectances_by_slice voxel_size free_voxels).out_dynamic =
      (all_lines points_by_slice reflectances_by_slice).filter
        (fun l => decide (voxel_of_point l.point voxel_size ∈ free_voxels)) := by
    unfold emit all_lines
    rw [hemit]
    simp
  refine ⟨hs, hd, ?_, ?_⟩
  · unfold all_lines
    rw [List.map_flatten, List.map_map]
    have key : ∀ i, List.map Line.point ((List.range (points_by_slice.getD i []).length).map
        (fun j => line_of points_by_slice reflectances_by_slice i j)) =
        points_by_slice.getD i [] := by
      intro i
      rw [List.map_map]
      exact map_range_getD (points_by_slice.getD i []) ⟨0, 0, 0⟩
    have h1 : (List.map Line.point ∘ fun i =>
          List.map (fun j => line_of points_by_slice reflectances_by_slice i j)
            (List.range (points_by_slice.getD i []).length)) =
        fun i => points_by_slice.getD i [] := funext key
    rw [h1, map_range_getD]
  · rw [hs, hd]
    have h2 : (fun l : Line => decide (voxel_of_point l.point voxel_size ∉ free_voxels)) =
        fun l => !(decide (voxel_of_point l.point voxel_size ∈ free_voxels)) := by
      funext l; simp
    rw [h2]
    exact List.filter_append_perm _ _


/-! ## Occupancy index: proofs -/

theorem mem_sliceset_insert (s : SliceSet) (i j : ℕ) :
    j ∈ SliceSet.insert s i ↔ j ∈ s ∨ j = i := by
  unfold SliceSet.insert
  by_cases h : i ∈ s
  · rw [if_pos h]
    constructor
    · exact Or.inl
    · rintro (h1 | h1)
      · exact h1
      · rw [h1]; exact h
  · rw [if_neg h, List.mem_orderedInsert]
    exact or_comm

theorem occupies_iff_getD (idx : OccupancyIndex) (v : voxel) (i : ℕ) :
    occupies idx v i ↔ i ∈ (idx v).getD [] := by
  unfold occupies
  cases h : idx v with
  | none => simp
  | some l => simp

theorem index_insert_occupies (idx : OccupancyIndex) (v0 v : voxel) (i0 i : ℕ) :
    occupies (index_insert idx v0 i0) v i ↔ occupies idx v i ∨ (v = v0 ∧ i = i0) := by
  rw [occupies_iff_getD, occupies_iff_getD]
  unfold index_insert
  by_cases hv : v = v0
  · rw [hv, Function.update_same]
    simp only [Option.getD_some, true_and]
    exact mem_sliceset_insert _ _ _
  · rw [Function.update_noteq hv]
    simp [hv]

theorem index_insert_none (idx : OccupancyIndex) (v0 v : voxel) (i0 : ℕ) :
    index_insert idx v0 i0 v = none ↔ idx v = none ∧ v ≠ v0 := by
  unfold index_insert
  by_cases hv : v = v0
  · rw [hv, Function.update_same]
    simp
  · rw [Function.update_noteq hv]
    simp [hv]

/-- The inner index loop records slice `i` for exactly the voxels of the points it visits. -/
theorem index_inner (g : ℕ → voxel) (i : ℕ) (v : voxel) (i' : ℕ) :
    ∀ (js : List ℕ) (idx : OccupancyIndex),
      (occupies (js.foldl (fun idx j => index_insert idx (g j) i) idx) v i' ↔
          occupies idx v i' ∨ (i' = i ∧ ∃ j ∈ js, g j = v)) ∧
        ((js.foldl (fun idx j => index_insert idx (g j) i) idx) v = none ↔
          idx v = none ∧ ∀ j ∈ js, g j ≠ v) := by
  intro js
  induction js with
  | nil => intro idx; simp
  | cons j js ih =>
    intro idx
    rw [List.foldl_cons]
    obtain ⟨h1, h2⟩ := ih (index_insert idx (g j) i)
    rw [h1, h2, index_insert_occupies, index_insert_none]
    constructor
    · constructor
      · rintro ((h | ⟨hv, hi⟩) | ⟨hi, k, hk, hg⟩)
        · exact Or.inl h
        · exact Or.inr ⟨hi, j, List.mem_cons_self _ _, hv.symm⟩
        · exact Or.inr ⟨hi, k, List.mem_cons_of_mem _ hk, hg⟩
      · rintro (h | ⟨hi, k, hk, hg⟩)
        · exact Or.inl (Or.inl h)
        · rcases List.mem_cons.mp hk with hk | hk
          · rw [hk] at hg
            exact Or.inl (Or.inr ⟨hg.symm, hi⟩)
          · exact Or.inr ⟨hi, k, hk, hg⟩
    · constructor
      · rintro ⟨⟨h, hv⟩, hall⟩
        refine ⟨h, ?_⟩
        intro k hk
        rcases List.mem_cons.mp hk with hk | hk
        · rw [hk]; exact fun hg => hv hg.symm
        · exact hall k hk
      · rintro ⟨h, hall⟩
        exact ⟨⟨h, fun hv => hall j (List.mem_cons_self _ _) hv.symm⟩,
          fun k hk => hall k (List.mem_cons_of_mem _ hk)⟩

/-- The outer index loop, over any list of slice indices. -/
theorem index_outer (g : ℕ → ℕ → voxel) (len : ℕ → ℕ) (v : voxel) (i' : ℕ) :
    ∀ (is : List ℕ) (idx : OccupancyIndex),
      (occupies (is.foldl (fun idx i =>
            (List.range (len i)).foldl (fun idx j => index_insert idx (g i j) i) idx) idx) v i' ↔
          occupies idx v i' ∨ (i' ∈ is ∧ ∃ j, j < len i' ∧ g i' j = v)) ∧
        ((is.foldl (fun idx i =>
            (List.range (len i)).foldl (fun idx j => index_insert idx (g i j) i) idx) idx) v
              = none ↔
          idx v = none ∧ ∀ i ∈ is, ∀ j, j < len i → g i j ≠ v) := by
  intro is
  induction is with
  | nil => intro idx; simp
  | cons i is ih =>
    intro idx
    rw [List.foldl_cons]
    obtain ⟨h1, h2⟩ := ih ((List.range (len i)).foldl (fun idx j => index_insert idx (g i j) i) idx)
    obtain ⟨h3, h4⟩ := index_inner (g i) i v i' (List.range (len i)) idx
    rw [h1, h2, h3, h4]
    constructor
    · constructor
      · rintro ((h | ⟨hi, j, hj, hg⟩) | ⟨hi, j, hj, hg⟩)
        · exact Or.inl h
        · refine Or.inr ⟨by rw [hi]; exact List.mem_cons_self _ _, j, ?_, ?_⟩
          · rw [hi]; exact List.mem_range.mp hj
          · rw [hi]; exact hg
        · exact Or.inr ⟨List.mem_cons_of_mem _ hi, j, hj, hg⟩
      · rintro (h | ⟨hi, j, hj, hg⟩)
        · exact Or.inl (Or.inl h)
        · rcases List.mem_cons.mp hi with hi | hi
          · rw [hi] at hj hg
            exact Or.inl (Or.inr ⟨hi, j, List.mem_range.mpr hj, hg⟩)
          · exact Or.inr ⟨hi, j, hj, hg⟩
    · constructor
      · rintro ⟨⟨h, hin⟩, hall⟩
        refine ⟨h, ?_⟩
        intro k hk j hj
        rcases List.mem_cons.mp hk with hk | hk
        · rw [hk]; rw [hk] at hj
          exact hin j (List.mem_range.mpr hj)
        · exact hall k hk j hj
      · rintro ⟨h, hall⟩
        exact ⟨⟨h, fun j hj => hall i (List.mem_cons_self _ _) j (List.mem_range.mp hj)⟩,
          fun k hk => hall k (List.mem_cons_of_mem _ hk)⟩

theorem exists_index_iff {α : Type} (l : List α) (d : α) (P : α → Prop) :
    (∃ j, j < l.length ∧ P (l.getD j d)) ↔ ∃ p ∈ l, P p := by
  constructor
  · rintro ⟨j, hj, hp⟩
    rw [List.getD_eq_getElem l d hj] at hp
    exact ⟨l[j], List.getElem_mem hj, hp⟩
  · rintro ⟨p, hp, hP⟩
    obtain ⟨j, hj, hjp⟩ := List.getElem_of_mem hp
    refine ⟨j, hj, ?_⟩
    rw [List.getD_eq_getElem l d hj, hjp]
    exact hP

/-- C4: after the index-building loops, slice `i` is recorded for voxel `v` exactly when
some point of slice `i` has voxel `v`; `v` has no entry exactly when no point of any slice
maps to it; so every point's voxel is a key whose set holds the point's slice index. -/
theorem occupancy_index_exact (points_by_slice : List (List Point)) (voxel_size : ℚ) :
    (∀ v i, occupies (build_index points_by_slice voxel_size) v i ↔
        ∃ p ∈ points_by_slice.getD i [], voxel_of_point p voxel_size = v) ∧
      (∀ v, build_index points_by_slice voxel_size v = none ↔
        ∀ l ∈ points_by_slice, ∀ p ∈ l, voxel_of_point p voxel_size ≠ v) ∧
      (∀ i, i < points_by_slice.length → ∀ p ∈ points_by_slice.getD i [],
        ∃ l, build_index points_by_slice voxel_size (voxel_of_point p voxel_size) = some l ∧
          i ∈ l) := by
  have hocc : ∀ v i, occupies (build_index points_by_slice voxel_size) v i ↔
      ∃ p ∈ points_by_slice.getD i [], voxel_of_point p voxel_size = v := by
    intro v i
    unfold build_index
    rw [(index_outer
      (fun i j => voxel_of_point ((points_by_slice.getD i []).getD j ⟨0, 0, 0⟩) voxel_size)
      (fun i => (points_by_slice.getD i []).length) v i (List.range points_by_slice.length)
      (fun _ => none)).1]
    rw [exists_index_iff (points_by_slice.getD i []) ⟨0, 0, 0⟩
      (fun p => voxel_of_point p voxel_size = v)]
    constructor
    · rintro (h | ⟨_, h⟩)
      · obtain ⟨l, hl, _⟩ := h
        simp at hl
      · exact h
    · rintro ⟨p, hp, hv⟩
      refine Or.inr ⟨?_, p, hp, hv⟩
      rw [List.mem_range]
      by_contra hge
      rw [List.getD_eq_default _ _ (not_lt.mp hge)] at hp
      simp at hp
  refine ⟨hocc, ?_, ?_⟩
  · intro v
    unfold build_index
    rw [(index_outer
      (fun i j => voxel_of_point ((points_by_slice.getD i []).getD j ⟨0, 0, 0⟩) voxel_size)
      (fun i => (points_by_slice.getD i []).length) v 0 (List.range points_by_slice.length)
      (fun _ => none)).2]
    constructor
    · rintro ⟨_, hall⟩ l hl p hp hv
      obtain ⟨i, hi, hil⟩ := List.getElem_of_mem hl
      have hget : points_by_slice.getD i [] = l := by
        rw [List.getD_eq_getElem _ _ hi, hil]
      obtain ⟨j, hj, hjp⟩ := List.getElem_of_mem hp
      apply hall i (List.mem_range.mpr hi) j (by rw [hget]; exact hj)
      rw [hget, List.getD_eq_getElem l _ hj, hjp]
      exact hv
    · intro hall
      refine ⟨rfl, ?_⟩
      intro i hi j hj hv
      rw [List.mem_range] at hi
      have hmem : points_by_slice.getD i [] ∈ points_by_slice := by
        rw [List.getD_eq_getElem _ _ hi]; exact List.getElem_mem hi
      have hp : (points_by_slice.getD i []).getD j ⟨0, 0, 0⟩ ∈ points_by_slice.getD i [] := by
        rw [List.getD_eq_getElem _ _ hj]; exact List.getElem_mem hj
      exact hall _ hmem _ hp hv
  · intro i _ p hp
    exact (hocc (voxel_of_point p voxel_size) i).mpr ⟨p, hp, rfl⟩

theorem occupancy_index_exact_witness :
    ((1 : ℕ) < ([[⟨1 / 2, 1 / 2, 1 / 2⟩], [⟨-1 / 2, 7, 0⟩, ⟨3, 3, 3⟩]] : List (List Point)).length ∧
      (⟨-1 / 2, 7, 0⟩ : Point) ∈
        ([[⟨1 / 2, 1 / 2, 1 / 2⟩], [⟨-1 / 2, 7, 0⟩, ⟨3, 3, 3⟩]] : List (List Point)).getD 1 []) ∧
    voxel_of_point ⟨-1 / 2, 7, 0⟩ 5 = ⟨-1, 1, 0⟩ ∧
    (∃ l, build_index [[⟨1 / 2, 1 / 2, 1 / 2⟩], [⟨-1 / 2, 7, 0⟩, ⟨3, 3, 3⟩]] 5
        (voxel_of_point ⟨-1 / 2, 7, 0⟩ 5) = some l ∧ 1 ∈ l) ∧
    build_index [[⟨1 / 2, 1 / 2, 1 / 2⟩], [⟨-1 / 2, 7, 0⟩, ⟨3, 3, 3⟩]] 5 ⟨0, 0, 0⟩ = some [0, 1] :=
  ⟨⟨by decide!, by decide!⟩, by decide!,
    (occupancy_index_exact [[⟨1 / 2, 1 / 2, 1 / 2⟩], [⟨-1 / 2, 7, 0⟩, ⟨3, 3, 3⟩]] 5).2.2 1
      (by decide!) ⟨-1 / 2, 7, 0⟩ (by decide!),
    by decide!⟩

/-! ## Window test, returned voxels and the calls of `main` -/

/-- C16: for unsigned 64-bit `s`, `current_slice` and `diff` whose sums `s + diff` and
`current_slice + diff` do not overflow `2^64`, the additive window test holds exactly when
the integer distance `|s - current_slice|` is at most `diff`, and it is symmetric in `s`
and `current_slice`. -/
theorem window_test_symmetric (s current_slice diff : ℕ) (hs : s + diff < 2 ^ 64)
    (hc : current_slice + diff < 2 ^ 64) :
    (window_test s current_slice diff = true ↔
        |(s : Int) - (current_slice : Int)| ≤ (diff : Int)) ∧
      window_test s current_slice diff = window_test current_slice s diff := by
  unfold window_test
  rw [Nat.mod_eq_of_lt hs, Nat.mod_eq_of_lt hc]
  constructor
  · rw [decide_eq_true_eq, abs_le]
    constructor
    · rintro ⟨h1, h2⟩
      constructor <;> omega
    · rintro ⟨h1, h2⟩
      constructor <;> omega
  · apply decide_eq_decide.mpr
    constructor
    · rintro ⟨h1, h2⟩
      exact ⟨h2, h1⟩
    · rintro ⟨h1, h2⟩
      exact ⟨h2, h1⟩

theorem window_test_symmetric_witness :
    ((10 : ℕ) + 1 < 2 ^ 64 ∧ (12 : ℕ) + 1 < 2 ^ 64) ∧
      ((window_test 10 12 1 = true ↔ |((10 : ℕ) : Int) - ((12 : ℕ) : Int)| ≤ ((1 : ℕ) : Int)) ∧
        window_test 10 12 1 = window_test 12 10 1) :=
  ⟨⟨by decide, by decide⟩, window_test_symmetric 10 12 1 (by decide) (by decide)⟩

/-- Every voxel a call returns has an index entry that is not blocking. -/
theorem run_origin (a : WalkArgs) (fuel : ℕ) (res : Finset voxel) (h : a.run fuel = some res) :
    ∀ v ∈ res, ∃ m sm, a.steps m sm ∧ (advance a.const sm).voxel = v ∧
      ∃ l, a.voxel_occupied_by_slice v = some l ∧ ¬ blocked l a.current_slice a.diff := by
  intro v hv
  by_cases hs : a.skipped
  · exfalso
    unfold WalkArgs.run walk_voxels at h
    unfold WalkArgs.skipped at hs
    rw [if_pos hs] at h
    simp only [Option.some.injEq] at h
    rw [← h] at hv
    exact Finset.not_mem_empty _ hv
  · rw [run_eq_loop a hs, Option.map_eq_some'] at h
    obtain ⟨r, hr, hres⟩ := h
    rw [← hres] at hv
    rcases walk_loop_origin _ _ _ _ fuel _ r hr v hv with h0 | ⟨m, sm, hm, hc, ho, hl, hvox, hl2⟩
    · exact absurd h0 (Finset.not_mem_empty _)
    · refine ⟨m, sm, ⟨?_, hc, ho, hl⟩, hvox, hl2⟩
      unfold WalkArgs.head
      rw [if_neg hs]
      exact hm

/-- C18: every voxel in a result of `walk_voxels` is a key of the occupancy index, and no
slice index recorded for it passes the window test against `current_slice` (for
`diff = 0`: `current_slice` is not recorded for it); so the result is empty when the
index is empty, and for a positive voxel size the call does return. -/
theorem returned_voxels_are_keys (a : WalkArgs) :
    (∀ fuel res, a.run fuel = some res → ∀ v ∈ res,
        ∃ l, a.voxel_occupied_by_slice v = some l ∧
          (a.diff = 0 → a.current_slice ∉ l) ∧
          (a.diff ≠ 0 → ∀ it ∈ l, window_test it a.current_slice a.diff = false)) ∧
      ((∀ v, a.voxel_occupied_by_slice v = none) →
        ∀ fuel res, a.run fuel = some res → res = ∅) ∧
      (0 < a.voxel_size → ∃ fuel res, a.run fuel = some res) := by
  refine ⟨?_, ?_, run_returns a⟩
  · intro fuel res h v hv
    obtain ⟨_, _, _, _, l, hl, hnb⟩ := run_origin a fuel res h v hv
    refine ⟨l, hl, ?_, ?_⟩
    · intro hd hmem
      apply hnb
      unfold blocked
      rw [if_pos hd]; exact hmem
    · intro hd it hit
      rw [← Bool.not_eq_true]
      intro hw
      apply hnb
      unfold blocked
      rw [if_neg hd]; exact ⟨it, hit, hw⟩
  · intro hempty fuel res h
    apply Finset.eq_empty_of_forall_not_mem
    intro v hv
    obtain ⟨_, _, _, _, l, hl, _⟩ := run_origin a fuel res h v hv
    rw [hempty v] at hl
    simp at hl

theorem returned_voxels_are_keys_witness :
    ((unit_ray index_slice10 12 1).run 4 = some {⟨2, 0, 0⟩} ∧
      (⟨2, 0, 0⟩ : voxel) ∈ ({⟨2, 0, 0⟩} : Finset voxel) ∧
      (0 : ℚ) < (unit_ray index_slice10 12 1).voxel_size) ∧
    (∃ l, (unit_ray index_slice10 12 1).voxel_occupied_by_slice ⟨2, 0, 0⟩ = some l ∧
      ((unit_ray index_slice10 12 1).diff = 0 → (unit_ray index_slice10 12 1).current_slice ∉ l) ∧
      ((unit_ray index_slice10 12 1).diff ≠ 0 → ∀ it ∈ l,
        window_test it (unit_ray index_slice10 12 1).current_slice
          (unit_ray index_slice10 12 1).diff = false)) ∧
    (∃ fuel res, (unit_ray index_slice10 12 1).run fuel = some res) :=
  ⟨⟨by decide!, by decide!, by decide!⟩,
    (returned_voxels_are_keys (unit_ray index_slice10 12 1)).1 4 {⟨2, 0, 0⟩} (by decide!)
      ⟨2, 0, 0⟩ (by decide!),
    (returned_voxels_are_keys (unit_ray index_slice10 12 1)).2.2 (by decide!)⟩

/-- The index built by `main` records slice `i` for the voxel of each of its points. -/
theorem build_index_occupies (points_by_slice : List (List Point)) (voxel_size : ℚ)
    (v : voxel) (i : ℕ) :
    occupies (build_index points_by_slice voxel_size) v i ↔
      ∃ p ∈ points_by_slice.getD i [], voxel_of_point p voxel_size = v := by
  unfold build_index
  rw [(index_outer
    (fun i j => voxel_of_point ((points_by_slice.getD i []).getD j ⟨0, 0, 0⟩) voxel_size)
    (fun i => (points_by_slice.getD i []).length) v i (List.range points_by_slice.length)
    (fun _ => none)).1]
  rw [exists_index_iff (points_by_slice.getD i []) ⟨0, 0, 0⟩
    (fun p => voxel_of_point p voxel_size = v)]
  constructor
  · rintro (h | ⟨_, h⟩)
    · obtain ⟨l, hl, _⟩ := h
      simp at hl
    · exact h
  · rintro ⟨p, hp, hv⟩
    refine Or.inr ⟨?_, p, hp, hv⟩
    rw [List.mem_range]
    by_contra hge
    rw [List.getD_eq_default _ _ (not_lt.mp hge)] at hp
    simp at hp

/-- An occupant equal to the current slice is blocking when `current_slice + diff` does not
wrap. -/
theorem blocked_of_mem_self (l : SliceSet) (i diff : ℕ) (hi : i ∈ l) (ho : i + diff < 2 ^ 64) :
    blocked l i diff := by
  unfold blocked
  by_cases hd : diff = 0
  · rw [if_pos hd]; exact hi
  · rw [if_neg hd]
    refine ⟨i, hi, ?_⟩
    unfold window_test
    rw [decide_eq_true_eq, Nat.mod_eq_of_lt ho]
    constructor <;> omega

/-- C19: with the index built from the slices, the set returned by the call that `main`
makes for point `j` of slice `i` (with `i + diff` not overflowing) contains no voxel that
holds a point of slice `i`, in particular not the voxel of its own target point; for a
positive voxel size the call does return. -/
theorem slice_keeps_own_matter (sqrt : ℚ → ℚ) (trajectory : List Point)
    (points_by_slice : List (List Point)) (voxel_size max_search_distance : ℚ) (diff : ℕ)
    (max_target_distance max_target_proximity : ℚ) (i j : ℕ) (ho : i + diff < 2 ^ 64) :
    (∀ fuel res,
        (main_call sqrt trajectory points_by_slice voxel_size max_search_distance diff
          max_target_distance max_target_proximity i j).run fuel = some res →
        (∀ p ∈ points_by_slice.getD i [], voxel_of_point p voxel_size ∉ res) ∧
          (i < points_by_slice.length → j < (points_by_slice.getD i []).length →
            voxel_of_point ((points_by_slice.getD i []).getD j ⟨0, 0, 0⟩) voxel_size ∉ res)) ∧
      (0 < voxel_size → ∃ fuel res,
        (main_call sqrt trajectory points_by_slice voxel_size max_search_distance diff
          max_target_distance max_target_proximity i j).run fuel = some res) := by
  constructor
  · intro fuel res h
    have key : ∀ p ∈ points_by_slice.getD i [], voxel_of_point p voxel_size ∉ res := by
      intro p hp hmem
      obtain ⟨_, _, _, _, l, hl, hnb⟩ := run_origin _ fuel res h _ hmem
      have hocc := (build_index_occupies points_by_slice voxel_size
        (voxel_of_point p voxel_size) i).mpr ⟨p, hp, rfl⟩
      obtain ⟨l2, hl2, hi2⟩ := hocc
      have hl3 : build_index points_by_slice voxel_size (voxel_of_point p voxel_size)
          = some l := hl
      rw [hl2] at hl3
      simp only [Option.some.injEq] at hl3
      rw [hl3] at hi2
      exact hnb (blocked_of_mem_self l i diff hi2 ho)
    refine ⟨key, ?_⟩
    intro _ hj
    apply key
    rw [List.getD_eq_getElem _ _ hj]
    exact List.getElem_mem hj
  · intro hv
    exact run_returns _ hv

theorem slice_keeps_own_matter_witness :
    ((0 : ℕ) + 1 < 2 ^ 64 ∧ (0 : ℚ) < 1) ∧
      ((∀ fuel res,
          (main_call sqrt_q [⟨1 / 2, 1 / 2, 1 / 2⟩, ⟨1 / 2, 1 / 2, 1 / 2⟩]
            [[⟨7 / 2, 1 / 2, 1 / 2⟩], [⟨5 / 2, 1 / 2, 1 / 2⟩]] 1 (-1) 1 (-1) (-1) 0 0).run fuel
            = some res →
          (∀ p ∈ ([[⟨7 / 2, 1 / 2, 1 / 2⟩], [⟨5 / 2, 1 / 2, 1 / 2⟩]] : List (List Point)).getD 0 [],
              voxel_of_point p 1 ∉ res) ∧
            (0 < ([[⟨7 / 2, 1 / 2, 1 / 2⟩], [⟨5 / 2, 1 / 2, 1 / 2⟩]] : List (List Point)).length →
              0 < (([[⟨7 / 2, 1 / 2, 1 / 2⟩], [⟨5 / 2, 1 / 2, 1 / 2⟩]] :
                List (List Point)).getD 0 []).length →
              voxel_of_point ((([[⟨7 / 2, 1 / 2, 1 / 2⟩], [⟨5 / 2, 1 / 2, 1 / 2⟩]] :
                List (List Point)).getD 0 []).getD 0 ⟨0, 0, 0⟩) 1 ∉ res)) ∧
        ((0 : ℚ) < 1 → ∃ fuel res,
          (main_call sqrt_q [⟨1 / 2, 1 / 2, 1 / 2⟩, ⟨1 / 2, 1 / 2, 1 / 2⟩]
            [[⟨7 / 2, 1 / 2, 1 / 2⟩], [⟨5 / 2, 1 / 2, 1 / 2⟩]] 1 (-1) 1 (-1) (-1) 0 0).run fuel
            = some res)) ∧
      (main_call sqrt_q [⟨1 / 2, 1 / 2, 1 / 2⟩, ⟨1 / 2, 1 / 2, 1 / 2⟩]
        [[⟨7 / 2, 1 / 2, 1 / 2⟩], [⟨5 / 2, 1 / 2, 1 / 2⟩]] 1 (-1) 1 (-1) (-1) 0 0).run 4
        = some ∅ :=
  ⟨⟨by decide, by decide!⟩,
    slice_keeps_own_matter sqrt_q [⟨1 / 2, 1 / 2, 1 / 2⟩, ⟨1 / 2, 1 / 2, 1 / 2⟩]
      [[⟨7 / 2, 1 / 2, 1 / 2⟩], [⟨5 / 2, 1 / 2, 1 / 2⟩]] 1 (-1) 1 (-1) (-1) 0 0 (by decide),
    by decide!⟩


/-! ## Axis selection, zero directions and the traversal fraction -/

theorem chosen_axis_eq_rule (s : WalkState) : chosen_axis s = rule_axis s := by
  unfold chosen_axis rule_axis
  by_cases h1 : s.tMaxX < s.tMaxY
  · by_cases h2 : s.tMaxX < s.tMaxZ
    · rw [if_pos h1, if_pos h2, if_pos ⟨h1, h2⟩]
    · rw [if_pos h1, if_neg h2, if_neg (not_and_of_not_right _ h2)]
      have h3 : ¬ s.tMaxY < s.tMaxZ := fun h => h2 (lt_trans h1 h)
      rw [if_neg h3]
  · rw [if_neg h1, if_neg (not_and_of_not_left _ h1)]

theorem entry_t_eq_threshold (s : WalkState) : entry_t s = (chosen_axis s).threshold s := by
  unfold entry_t chosen_axis
  split_ifs <;> rfl

theorem chosen_axis_limited_ray : chosen_axis limited_ray.init = Axis.X := by
  unfold chosen_axis
  rw [if_pos (by decide!), if_pos (by decide!)]

/-- A property of the locals that the initial locals have and that every continuing
iteration preserves holds at the head of every iteration. -/
theorem state_at_invariant (c : WalkConst) (idx : OccupancyIndex) (cur diff : ℕ)
    (s0 : WalkState) (P : WalkState → Prop) (h0 : P s0)
    (hstep : ∀ s s1, P s → loop_cond c s → body c idx cur diff s = Step.cont s1 → P s1) :
    ∀ n s, state_at c idx cur diff s0 n = some s → P s := by
  intro n
  induction n with
  | zero =>
    intro s hs
    simp only [state_at, Option.some.injEq] at hs
    rw [← hs]; exact h0
  | succ n ih =>
    intro s hs
    simp only [state_at] at hs
    cases hprev : state_at c idx cur diff s0 n with
    | none => rw [hprev] at hs; simp at hs
    | some sp =>
      rw [hprev] at hs
      simp only [] at hs
      by_cases hc : loop_cond c sp
      · rw [if_pos hc] at hs
        cases hb : body c idx cur diff sp with
        | brk s1 => rw [hb] at hs; simp at hs
        | cont s1 =>
          rw [hb] at hs
          simp only [Option.some.injEq] at hs
          rw [← hs]
          exact hstep sp s1 (ih sp hprev) hc hb
      · rw [if_neg hc] at hs
        simp at hs

/-- A continuing iteration leaves the locals of `advance`, up to the accumulated set. -/
theorem body_cont_fields (c : WalkConst) (idx : OccupancyIndex) (cur diff : ℕ)
    (s s1 : WalkState) (hb : body c idx cur diff s = Step.cont s1) :
    ¬ overrun s ∧ ¬ limit_reached c s ∧
      s1.X = (advance c s).X ∧ s1.Y = (advance c s).Y ∧ s1.Z = (advance c s).Z ∧
      s1.tMaxX = (advance c s).tMaxX ∧ s1.tMaxY = (advance c s).tMaxY ∧
      s1.tMaxZ = (advance c s).tMaxZ ∧ s1.multX = (advance c s).multX ∧
      s1.multY = (advance c s).multY ∧ s1.multZ = (advance c s).multZ := by
  rcases body_result c idx cur diff s with ⟨_, h⟩ | ⟨_, h⟩ | ⟨⟨ho, hl, _⟩, h⟩ | ⟨⟨ho, hl, _⟩, h⟩
  · rw [h] at hb; simp at hb
  · rw [h] at hb; simp at hb
  · rw [h] at hb
    simp only [Step.cont.injEq] at hb
    rw [← hb]
    exact ⟨ho, hl, rfl, rfl, rfl, rfl, rfl, rfl, rfl, rfl, rfl⟩
  · rw [h] at hb
    simp only [Step.cont.injEq] at hb
    rw [← hb]
    exact ⟨ho, hl, rfl, rfl, rfl, rfl, rfl, rfl, rfl, rfl, rfl⟩

/-- The indices are always start + counter * step. -/
theorem coords_at_head (a : WalkArgs) (n : ℕ) (s : WalkState) (h : a.head n = some s) :
    s.X = a.const.startX + (s.multX : Int) * a.const.stepX ∧
      s.Y = a.const.startY + (s.multY : Int) * a.const.stepY ∧
      s.Z = a.const.startZ + (s.multZ : Int) * a.const.stepZ := by
  obtain ⟨_, hst⟩ := head_eq_state_at a n s h
  refine state_at_invariant a.const a.voxel_occupied_by_slice a.current_slice a.diff a.init
    (fun s => s.X = a.const.startX + (s.multX : Int) * a.const.stepX ∧
      s.Y = a.const.startY + (s.multY : Int) * a.const.stepY ∧
      s.Z = a.const.startZ + (s.multZ : Int) * a.const.stepZ) ?_ ?_ n s hst
  · refine ⟨?_, ?_, ?_⟩ <;> simp [WalkArgs.init, WalkArgs.const, walk_init, walk_const]
  · intro s s1 hP _ hb
    obtain ⟨_, _, hX, hY, hZ, _, _, _, hmX, hmY, hmZ⟩ := body_cont_fields _ _ _ _ s s1 hb
    rw [hX, hY, hZ, hmX, hmY, hmZ]
    obtain ⟨h1, h2, h3⟩ := hP
    unfold advance
    split_ifs
    · exact ⟨rfl, h2, h3⟩
    · exact ⟨h1, h2, rfl⟩
    · exact ⟨h1, rfl, h3⟩
    · exact ⟨h1, h2, rfl⟩

/-- The indices of the voxel stepped into are start + counter * step as well. -/
theorem coords_advance (c : WalkConst) (s : WalkState)
    (h : s.X = c.startX + (s.multX : Int) * c.stepX ∧
      s.Y = c.startY + (s.multY : Int) * c.stepY ∧
      s.Z = c.startZ + (s.multZ : Int) * c.stepZ) :
    (advance c s).X = c.startX + ((advance c s).multX : Int) * c.stepX ∧
      (advance c s).Y = c.startY + ((advance c s).multY : Int) * c.stepY ∧
      (advance c s).Z = c.startZ + ((advance c s).multZ : Int) * c.stepZ := by
  obtain ⟨h1, h2, h3⟩ := h
  unfold advance
  split_ifs
  · exact ⟨rfl, h2, h3⟩
  · exact ⟨h1, h2, rfl⟩
  · exact ⟨h1, rfl, h3⟩
  · exact ⟨h1, h2, rfl⟩

theorem const_stepX_zero (a : WalkArgs) (h : a.end_.p0 - a.start.p0 = 0) :
    a.const.stepX = 0 := by
  show (axis_setup (a.end_.p0 - a.start.p0) a.start.p0 a.voxel_size).1 = 0
  rw [h, axis_setup_zero]

theorem const_stepY_zero (a : WalkArgs) (h : a.end_.p1 - a.start.p1 = 0) :
    a.const.stepY = 0 := by
  show (axis_setup (a.end_.p1 - a.start.p1) a.start.p1 a.voxel_size).1 = 0
  rw [h, axis_setup_zero]

theorem const_stepZ_zero (a : WalkArgs) (h : a.end_.p2 - a.start.p2 = 0) :
    a.const.stepZ = 0 := by
  show (axis_setup (a.end_.p2 - a.start.p2) a.start.p2 a.voxel_size).1 = 0
  rw [h, axis_setup_zero]

/-- C15: when the direction component of the ray on an axis is exactly zero, every voxel
the walk steps into, and so every voxel of a result, has on that axis the index of the
start voxel. -/
theorem zero_direction_never_steps (a : WalkArgs) :
    (a.end_.p0 - a.start.p0 = 0 →
        (∀ n s, a.steps n s →
          (advance a.const s).voxel.x = (voxel_of_point a.start a.voxel_size).x) ∧
        (∀ fuel res, a.run fuel = some res → ∀ v ∈ res,
          v.x = (voxel_of_point a.start a.voxel_size).x)) ∧
      (a.end_.p1 - a.start.p1 = 0 →
        (∀ n s, a.steps n s →
          (advance a.const s).voxel.y = (voxel_of_point a.start a.voxel_size).y) ∧
        (∀ fuel res, a.run fuel = some res → ∀ v ∈ res,
          v.y = (voxel_of_point a.start a.voxel_size).y)) ∧
      (a.end_.p2 - a.start.p2 = 0 →
        (∀ n s, a.steps n s →
          (advance a.const s).voxel.z = (voxel_of_point a.start a.voxel_size).z) ∧
        (∀ fuel res, a.run fuel = some res → ∀ v ∈ res,
          v.z = (voxel_of_point a.start a.voxel_size).z)) := by
  have hstep : ∀ n s, a.steps n s →
      (advance a.const s).X = a.const.startX + ((advance a.const s).multX : Int) * a.const.stepX ∧
      (advance a.const s).Y = a.const.startY + ((advance a.const s).multY : Int) * a.const.stepY ∧
      (advance a.const s).Z = a.const.startZ + ((advance a.const s).multZ : Int) * a.const.stepZ :=
    fun n s hs => coords_advance a.const s (coords_at_head a n s hs.1)
  refine ⟨?_, ?_, ?_⟩
  · intro hd
    have h0 := const_stepX_zero a hd
    have key : ∀ n s, a.steps n s →
        (advance a.const s).voxel.x = (voxel_of_point a.start a.voxel_size).x := by
      intro n s hs
      have := (hstep n s hs).1
      rw [h0, mul_zero, add_zero] at this
      exact this
    refine ⟨key, ?_⟩
    intro fuel res hr v hv
    obtain ⟨m, sm, hsm, hvox, _⟩ := run_origin a fuel res hr v hv
    rw [← hvox]
    exact key m sm hsm
  · intro hd
    have h0 := const_stepY_zero a hd
    have key : ∀ n s, a.steps n s →
        (advance a.const s).voxel.y = (voxel_of_point a.start a.voxel_size).y := by
      intro n s hs
      have := (hstep n s hs).2.1
      rw [h0, mul_zero, add_zero] at this
      exact this
    refine ⟨key, ?_⟩
    intro fuel res hr v hv
    obtain ⟨m, sm, hsm, hvox, _⟩ := run_origin a fuel res hr v hv
    rw [← hvox]
    exact key m sm hsm
  · intro hd
    have h0 := const_stepZ_zero a hd
    have key : ∀ n s, a.steps n s →
        (advance a.const s).voxel.z = (voxel_of_point a.start a.voxel_size).z := by
      intro n s hs
      have := (hstep n s hs).2.2
      rw [h0, mul_zero, add_zero] at this
      exact this
    refine ⟨key, ?_⟩
    intro fuel res hr v hv
    obtain ⟨m, sm, hsm, hvox, _⟩ := run_origin a fuel res hr v hv
    rw [← hvox]
    exact key m sm hsm

theorem zero_direction_never_steps_witness :
    ((unit_ray index_slice10 12 1).end_.p1 - (unit_ray index_slice10 12 1).start.p1 = 0 ∧
      (unit_ray index_slice10 12 1).steps 1 unit_ray_head1 ∧
      (unit_ray index_slice10 12 1).run 4 = some {⟨2, 0, 0⟩} ∧
      (⟨2, 0, 0⟩ : voxel) ∈ ({⟨2, 0, 0⟩} : Finset voxel)) ∧
    (advance (unit_ray index_slice10 12 1).const unit_ray_head1).voxel.y =
      (voxel_of_point (unit_ray index_slice10 12 1).start
        (unit_ray index_slice10 12 1).voxel_size).y ∧
    (⟨2, 0, 0⟩ : voxel).y =
      (voxel_of_point (unit_ray index_slice10 12 1).start
        (unit_ray index_slice10 12 1).voxel_size).y :=
  ⟨⟨by decide!, by decide!, by decide!, by decide!⟩,
    ((zero_direction_never_steps (unit_ray index_slice10 12 1)).2.1 (by decide!)).1 1
      unit_ray_head1 (by decide!),
    ((zero_direction_never_steps (unit_ray index_slice10 12 1)).2.1 (by decide!)).2 4
      {⟨2, 0, 0⟩} (by decide!) ⟨2, 0, 0⟩ (by decide!)⟩


theorem voxel_swap_swap (v : voxel) : v.swap_xy.swap_xy = v := rfl

theorem state_swap_voxel (s : WalkState) : s.swap_xy.voxel = s.voxel.swap_xy := rfl

theorem overrun_swap (s : WalkState) : overrun s.swap_xy ↔ overrun s := by
  unfold overrun WalkState.swap_xy
  constructor
  · rintro ⟨h1, h2, h3⟩; exact ⟨h2, h1, h3⟩
  · rintro ⟨h1, h2, h3⟩; exact ⟨h2, h1, h3⟩

theorem limit_swap (c : WalkConst) (s : WalkState) :
    limit_reached c.swap_xy s.swap_xy ↔ limit_reached c s := by
  unfold limit_reached WalkState.swap_xy WalkConst.swap_xy
  constructor
  · rintro ⟨h1, h2, h3⟩; exact ⟨h2, h1, h3⟩
  · rintro ⟨h1, h2, h3⟩; exact ⟨h2, h1, h3⟩

theorem loop_cond_swap (c : WalkConst) (s : WalkState) :
    loop_cond c.swap_xy s.swap_xy ↔ loop_cond c s := by
  unfold loop_cond WalkState.swap_xy WalkConst.swap_xy
  constructor
  · rintro (h | h | h)
    · exact Or.inr (Or.inl h)
    · exact Or.inl h
    · exact Or.inr (Or.inr h)
  · rintro (h | h | h)
    · exact Or.inr (Or.inl h)
    · exact Or.inl h
    · exact Or.inr (Or.inr h)

/-- Without a tie between X and Y the step commutes with the exchange of the axes. -/
theorem advance_swap (c : WalkConst) (s : WalkState) (h : ¬ xy_tie s) :
    advance c.swap_xy s.swap_xy = (advance c s).swap_xy := by
  unfold xy_tie at h
  rcases lt_trichotomy s.tMaxX s.tMaxY with hlt | heq | hgt
  · have h1 : ¬ s.tMaxY < s.tMaxX := not_lt.mpr hlt.le
    by_cases h2 : s.tMaxX < s.tMaxZ
    · simp only [advance, WalkState.swap_xy, WalkConst.swap_xy, if_pos hlt, if_neg h1, if_pos h2]
    · simp only [advance, WalkState.swap_xy, WalkConst.swap_xy, if_pos hlt, if_neg h1, if_neg h2]
  · have h1 : ¬ s.tMaxY < s.tMaxX := by rw [heq]; exact lt_irrefl _
    have h1' : ¬ s.tMaxX < s.tMaxY := by rw [heq]; exact lt_irrefl _
    have h2 : ¬ s.tMaxY < s.tMaxZ := fun h3 => h ⟨heq, h3⟩
    have h2' : ¬ s.tMaxX < s.tMaxZ := by rw [heq]; exact h2
    simp only [advance, WalkState.swap_xy, WalkConst.swap_xy, if_neg h1, if_neg h1', if_neg h2,
      if_neg h2']
  · have h1 : ¬ s.tMaxX < s.tMaxY := not_lt.mpr hgt.le
    by_cases h2 : s.tMaxY < s.tMaxZ
    · simp only [advance, WalkState.swap_xy, WalkConst.swap_xy, if_pos hgt, if_neg h1, if_pos h2]
    · simp only [advance, WalkState.swap_xy, WalkConst.swap_xy, if_pos hgt, if_neg h1, if_neg h2]

/-- Without a tie at a step the loop body commutes with the exchange of the axes. -/
theorem body_swap (c : WalkConst) (idx : OccupancyIndex) (cur diff : ℕ) (s : WalkState)
    (h : ¬ overrun s → ¬ limit_reached c s → ¬ xy_tie s) :
    body c.swap_xy (fun v => idx v.swap_xy) cur diff s.swap_xy =
      (body c idx cur diff s).swap_xy := by
  rcases body_result c idx cur diff s with ⟨hg, hb⟩ | ⟨⟨ho, hl, l, hidx, hbl⟩, hb⟩ |
    ⟨⟨ho, hl, hidx⟩, hb⟩ | ⟨⟨ho, hl, l, hidx, hbl⟩, hb⟩
  · rw [hb]
    rcases hg with hg | hg
    · exact body_of_overrun _ _ _ _ _ ((overrun_swap s).mpr hg)
    · exact body_of_limit _ _ _ _ _ ((limit_swap c s).mpr hg)
  · rw [hb]
    have hadv := advance_swap c s (h ho hl)
    have := body_blocked c.swap_xy (fun v => idx v.swap_xy) cur diff s.swap_xy l
      (fun h1 => ho ((overrun_swap s).mp h1)) (fun h1 => hl ((limit_swap c s).mp h1))
      (by rw [hadv]; exact hidx) hbl
    rw [this, hadv]
    rfl
  · rw [hb]
    have hadv := advance_swap c s (h ho hl)
    have := body_untouched c.swap_xy (fun v => idx v.swap_xy) cur diff s.swap_xy
      (fun h1 => ho ((overrun_swap s).mp h1)) (fun h1 => hl ((limit_swap c s).mp h1))
      (by rw [hadv]; exact hidx)
    rw [this, hadv]
    rfl
  · rw [hb]
    have hadv := advance_swap c s (h ho hl)
    have := body_not_blocked c.swap_xy (fun v => idx v.swap_xy) cur diff s.swap_xy l
      (fun h1 => ho ((overrun_swap s).mp h1)) (fun h1 => hl ((limit_swap c s).mp h1))
      (by rw [hadv]; exact hidx) hbl
    rw [this, hadv]
    simp only [Step.swap_xy, WalkState.swap_xy, Finset.image_insert, WalkState.voxel,
      voxel.swap_xy]

/-- Without a tie at any step from the head of iteration `n` on, the loop commutes with the
exchange of the axes. -/
theorem walk_loop_swap (c : WalkConst) (idx : OccupancyIndex) (cur diff : ℕ) (s0 : WalkState)
    (h : ∀ n s, state_at c idx cur diff s0 n = some s → loop_cond c s → ¬ overrun s →
      ¬ limit_reached c s → ¬ xy_tie s) :
    ∀ (fuel n : ℕ) (s : WalkState), state_at c idx cur diff s0 n = some s →
      walk_loop c.swap_xy (fun v => idx v.swap_xy) cur diff fuel s.swap_xy =
        (walk_loop c idx cur diff fuel s).map WalkState.swap_xy := by
  intro fuel
  induction fuel with
  | zero => intro n s _; rfl
  | succ fuel ih =>
    intro n s hs
    simp only [walk_loop]
    by_cases hc : loop_cond c s
    · rw [if_pos hc, if_pos ((loop_cond_swap c s).mpr hc), body_swap c idx cur diff s (h n s hs hc)]
      cases hb : body c idx cur diff s with
      | brk s1 => rfl
      | cont s1 =>
        simp only [Step.swap_xy]
        apply ih (n + 1) s1
        simp only [state_at]
        rw [hs]
        simp only []
        rw [if_pos hc, hb]
    · rw [if_neg hc, if_neg (fun h1 => hc ((loop_cond_swap c s).mp h1))]
      rfl

theorem ray_dist_swap (sqrt : ℚ → ℚ) (start end_ : Point) :
    ray_dist sqrt start.swap_xy end_.swap_xy = ray_dist sqrt start end_ := by
  unfold ray_dist Point.swap_xy
  congr 1
  ring

theorem const_swap (a : WalkArgs) : a.swap_xy.const = a.const.swap_xy := by
  have h := ray_dist_swap a.sqrt a.start a.end_
  unfold WalkArgs.const walk_const WalkConst.swap_xy WalkArgs.swap_xy
  simp only [h]
  rfl

theorem init_swap (a : WalkArgs) : a.swap_xy.init = a.init.swap_xy := by
  unfold WalkArgs.init walk_init WalkState.swap_xy WalkArgs.swap_xy
  simp only [Finset.image_empty]
  rfl

theorem skipped_swap (a : WalkArgs) : a.swap_xy.skipped ↔ a.skipped := by
  unfold WalkArgs.skipped
  have h := ray_dist_swap a.sqrt a.start a.end_
  show (a.max_target_dist ≠ -1 ∧ ray_dist a.sqrt a.start.swap_xy a.end_.swap_xy >
    a.max_target_dist) ↔ _
  rw [h]

theorem state_at_none_later (c : WalkConst) (idx : OccupancyIndex) (cur diff : ℕ)
    (s0 : WalkState) (n : ℕ) (h : state_at c idx cur diff s0 n = none) :
    ∀ k, state_at c idx cur diff s0 (n + k) = none := by
  intro k
  induction k with
  | zero => exact h
  | succ k ih =>
    show state_at c idx cur diff s0 ((n + k) + 1) = none
    simp only [state_at]
    rw [ih]

theorem head_none_later (a : WalkArgs) (n : ℕ) (h : a.head n = none) :
    ∀ m, n ≤ m → a.head m = none := by
  intro m hm
  unfold WalkArgs.head at h ⊢
  by_cases hs : a.skipped
  · rw [if_pos hs]
  · rw [if_neg hs] at h ⊢
    have := state_at_none_later _ _ _ _ _ n h (m - n)
    rwa [Nat.add_sub_cancel' hm] at this

/-- A call that has ended by iteration `n` and has no tie at an earlier head has no tie at
any step. -/
theorem tie_free_of_checked (a : WalkArgs) (n : ℕ) (hend : a.head n = none)
    (hchk : ∀ m, m < n → a.tie_free_at m) : ∀ m s, a.steps m s → ¬ xy_tie s := by
  intro m s hs
  by_cases hm : m < n
  · have := hchk m hm
    unfold WalkArgs.tie_free_at at this
    rw [hs.1] at this
    exact this
  · have := head_none_later a n hend m (not_lt.mp hm)
    rw [hs.1] at this
    simp at this

theorem py_mod_one_eq_fract (x : ℚ) : py_mod x 1 = Int.fract x := by
  rw [py_mod_eq_fract x 1 one_ne_zero, one_mul, div_one]

theorem axis_setup_pos (d s vs : ℚ) (hd : 0 < d) :
    axis_setup d s vs =
      (1, vs / d, ((vs / d * (1 - Int.fract (s / vs)) : ℚ) : WithTop ℚ)) := by
  unfold axis_setup
  rw [if_neg hd.ne']
  simp only []
  rw [if_pos hd, py_mod_one_eq_fract]
  simp only [Int.cast_one, one_mul]

theorem axis_setup_neg (d s vs : ℚ) (hd : d < 0) :
    axis_setup d s vs =
      (-1, vs / (-d), ((vs / (-d) * (1 - Int.fract (-(s / vs))) : ℚ) : WithTop ℚ)) := by
  unfold axis_setup
  rw [if_neg hd.ne]
  simp only []
  rw [if_neg (not_lt.mpr hd.le), py_mod_one_eq_fract]
  simp only [Int.cast_neg, Int.cast_one, neg_one_mul, neg_div, div_neg, neg_neg]

/-- The initial locals of an axis stand in the relation to the ray. -/
theorem axis_geom_init (s e vs : ℚ) (hv : 0 < vs) :
    axis_geom s e vs ⌊s / vs⌋ 0 (axis_fix (axis_setup (e - s) s vs)) := by
  rcases lt_trichotomy (e - s) 0 with hneg | hzero | hpos
  · right; right
    refine ⟨hneg, by simp, ?_, Or.inl rfl⟩
    have hse : 0 < s - e := by linarith
    rw [axis_setup_neg _ _ _ hneg]
    have hd2 : -(e - s) = s - e := by ring
    rw [hd2]
    unfold axis_fix
    simp only []
    by_cases hf : Int.fract (s / vs) = 0
    · have hfn : Int.fract (-(s / vs)) = 0 := Int.fract_neg_eq_zero.mpr hf
      rw [hfn, sub_zero, mul_one, if_pos ⟨trivial, rfl⟩]
      have hk : (⌊s / vs⌋ : ℚ) = s / vs := by
        have := Int.fract_add_floor (s / vs)
        rw [hf, zero_add] at this
        exact this
      have : (s - (⌊s / vs⌋ : ℚ) * vs) / (s - e) = 0 := by
        rw [hk, div_mul_cancel₀ _ hv.ne', sub_self, zero_div]
      rw [this]
      rfl
    · have hfn : Int.fract (-(s / vs)) = 1 - Int.fract (s / vs) := Int.fract_neg hf
      rw [hfn]
      have hval : vs / (s - e) * (1 - (1 - Int.fract (s / vs))) =
          (s - (⌊s / vs⌋ : ℚ) * vs) / (s - e) := by
        rw [Int.fract]
        field_simp
        ring
      rw [hval]
      have hne : ¬ (True ∧
          ((((s - (⌊s / vs⌋ : ℚ) * vs) / (s - e) : ℚ)) : WithTop ℚ) =
            ((vs / (s - e) : ℚ) : WithTop ℚ)) := by
        rintro ⟨_, h⟩
        have h2 := WithTop.coe_injective h
        rw [div_left_inj' hse.ne'] at h2
        have h5 := Int.lt_floor_add_one (s / vs)
        rw [div_lt_iff₀ hv] at h5
        linarith
      rw [if_neg hne]
  · left
    have : e - s = 0 := hzero
    refine ⟨this, rfl, rfl, ?_⟩
    rw [this, axis_setup_zero]
    unfold axis_fix
    rw [if_neg (by simp)]
  · right; left
    refine ⟨hpos, by simp, ?_, Or.inl rfl⟩
    rw [axis_setup_pos _ _ _ hpos]
    unfold axis_fix
    simp only []
    rw [if_neg (by simp)]
    have hval : vs / (e - s) * (1 - Int.fract (s / vs)) =
        (((⌊s / vs⌋ : ℚ) + 1) * vs - s) / (e - s) := by
      rw [Int.fract]
      field_simp
      ring
    rw [hval]


/-- A step of an axis taken at a threshold below 1 keeps the relation to the ray. -/
theorem axis_geom_step (s e vs : ℚ) (k : Int) (mult : ℕ) (t : WithTop ℚ)
    (h : axis_geom s e vs k mult t) (ht : t < ((1 : ℚ) : WithTop ℚ)) :
    axis_geom s e vs
      (⌊s / vs⌋ + ((mult + 1 : ℕ) : Int) * (axis_setup (e - s) s vs).1) (mult + 1)
      (t + (((axis_setup (e - s) s vs).2.1 : ℚ) : WithTop ℚ)) := by
  rcases h with ⟨_, _, _, htop⟩ | ⟨hpos, hk, hteq, _⟩ | ⟨hneg, hk, hteq, _⟩
  · rw [htop] at ht
    exact absurd ht (not_lt.mpr le_top)
  · right; left
    rw [axis_setup_pos _ _ _ hpos]
    simp only []
    rw [hteq] at ht
    have ht1 : (((k : ℚ) + 1) * vs - s) / (e - s) < 1 := WithTop.coe_lt_coe.mp ht
    have hk' : ⌊s / vs⌋ + ((mult + 1 : ℕ) : Int) * 1 = k + 1 := by
      rw [hk]; push_cast; ring
    rw [hk']
    refine ⟨hpos, by rw [hk]; push_cast; ring, ?_, Or.inr ?_⟩
    · rw [hteq, ← WithTop.coe_add]
      congr 1
      push_cast
      field_simp
      ring
    · push_cast
      exact ht1
  · right; right
    rw [axis_setup_neg _ _ _ hneg]
    simp only []
    have hse : 0 < s - e := by linarith
    have hd2 : -(e - s) = s - e := by ring
    rw [hd2]
    rw [hteq] at ht
    have ht1 : (s - (k : ℚ) * vs) / (s - e) < 1 := WithTop.coe_lt_coe.mp ht
    have hk' : ⌊s / vs⌋ + ((mult + 1 : ℕ) : Int) * (-1) = k - 1 := by
      rw [hk]; push_cast; ring
    rw [hk']
    refine ⟨hneg, by rw [hk]; push_cast; ring, ?_, Or.inr ?_⟩
    · rw [hteq, ← WithTop.coe_add]
      congr 1
      push_cast
      field_simp
      ring
    · push_cast
      rw [sub_add_cancel]
      exact ht1

/-- What the relation to the ray says about the end voxel, for a positive cell size: the
index is between the start and the end index, so the step counter is at most their
distance, and the index is the end index once the counter is that distance or the
threshold is above 1. -/
theorem axis_geom_end (s e vs : ℚ) (k : Int) (mult : ℕ) (t : WithTop ℚ) (hv : 0 < vs)
    (h : axis_geom s e vs k mult t) :
    mult ≤ (⌊e / vs⌋ - ⌊s / vs⌋).natAbs ∧
      (mult = (⌊e / vs⌋ - ⌊s / vs⌋).natAbs → k = ⌊e / vs⌋) ∧
      (((1 : ℚ) : WithTop ℚ) < t → k = ⌊e / vs⌋) := by
  rcases h with ⟨hzero, hk, hm, _⟩ | ⟨hpos, hk, hteq, hprev⟩ | ⟨hneg, hk, hteq, hprev⟩
  · have hes : e = s := by linarith
    rw [hes, hk, hm]
    simp
  · have hlow : (k : ℚ) ≤ e / vs := by
      rw [le_div_iff₀ hv]
      rcases hprev with hm | hp
      · have : k = ⌊s / vs⌋ := by rw [hk, hm]; simp
        have h1 := Int.floor_le (s / vs)
        rw [le_div_iff₀ hv, ← this] at h1
        linarith
      · rw [div_lt_one hpos] at hp
        linarith
    have hle : k ≤ ⌊e / vs⌋ := Int.le_floor.mpr hlow
    refine ⟨by omega, by omega, ?_⟩
    intro ht
    rw [hteq] at ht
    have ht1 : 1 < (((k : ℚ) + 1) * vs - s) / (e - s) := WithTop.coe_lt_coe.mp ht
    rw [one_lt_div hpos] at ht1
    symm
    rw [Int.floor_eq_iff]
    refine ⟨hlow, ?_⟩
    rw [div_lt_iff₀ hv]
    linarith
  · have hse : 0 < s - e := by linarith
    have hup : e / vs < (k : ℚ) + 1 := by
      rw [div_lt_iff₀ hv]
      rcases hprev with hm | hp
      · have : k = ⌊s / vs⌋ := by rw [hk, hm]; simp
        have h1 := Int.lt_floor_add_one (s / vs)
        rw [div_lt_iff₀ hv, ← this] at h1
        linarith
      · rw [div_lt_one hse] at hp
        linarith
    have hge : ⌊e / vs⌋ ≤ k := by
      have : ⌊e / vs⌋ < k + 1 := Int.floor_lt.mpr (by push_cast; exact hup)
      omega
    refine ⟨by omega, by omega, ?_⟩
    intro ht
    rw [hteq] at ht
    have ht1 : 1 < (s - (k : ℚ) * vs) / (s - e) := WithTop.coe_lt_coe.mp ht
    rw [one_lt_div hse] at ht1
    symm
    rw [Int.floor_eq_iff]
    refine ⟨?_, hup⟩
    rw [le_div_iff₀ hv]
    linarith


theorem state_at_invariant_n (c : WalkConst) (idx : OccupancyIndex) (cur diff : ℕ)
    (s0 : WalkState) (P : ℕ → WalkState → Prop) (h0 : P 0 s0)
    (hstep : ∀ n s s1, P n s → loop_cond c s → body c idx cur diff s = Step.cont s1 →
      P (n + 1) s1) :
    ∀ n s, state_at c idx cur diff s0 n = some s → P n s := by
  intro n
  induction n with
  | zero =>
    intro s hs
    simp only [state_at, Option.some.injEq] at hs
    rw [← hs]; exact h0
  | succ n ih =>
    intro s hs
    simp only [state_at] at hs
    cases hprev : state_at c idx cur diff s0 n with
    | none => rw [hprev] at hs; simp at hs
    | some sp =>
      rw [hprev] at hs
      simp only [] at hs
      by_cases hc : loop_cond c sp
      · rw [if_pos hc] at hs
        cases hb : body c idx cur diff sp with
        | brk s1 => rw [hb] at hs; simp at hs
        | cont s1 =>
          rw [hb] at hs
          simp only [Option.some.injEq] at hs
          rw [← hs]
          exact hstep n sp s1 (ih sp hprev) hc hb
      · rw [if_neg hc] at hs
        simp at hs

/-- The effect of a step on the advanced axis. -/
theorem advance_chosen (c : WalkConst) (s : WalkState) :
    (chosen_axis s).mult (advance c s) = (chosen_axis s).mult s + 1 ∧
      (chosen_axis s).coord (advance c s) =
        (chosen_axis s).start c +
          (((chosen_axis s).mult s + 1 : ℕ) : Int) * (chosen_axis s).step c ∧
      (chosen_axis s).threshold (advance c s) =
        (chosen_axis s).threshold s + (((chosen_axis s).tDelta c : ℚ) : WithTop ℚ) := by
  refine ⟨?_, ?_, ?_⟩
  · unfold chosen_axis advance
    split_ifs <;> rfl
  · unfold chosen_axis advance
    split_ifs <;> rfl
  · unfold chosen_axis advance
    split_ifs <;> rfl

/-- A step leaves the other two axes alone. -/
theorem advance_other (c : WalkConst) (s : WalkState) (ax : Axis) (hax : ax ≠ chosen_axis s) :
    ax.mult (advance c s) = ax.mult s ∧ ax.coord (advance c s) = ax.coord s ∧
      ax.threshold (advance c s) = ax.threshold s := by
  unfold chosen_axis at hax
  unfold advance
  split_ifs at hax ⊢ <;> cases ax <;> first | exact absurd rfl hax | exact ⟨rfl, rfl, rfl⟩

theorem const_axis (a : WalkArgs) (ax : Axis) :
    ax.start a.const = py_div (ax.p a.start) a.voxel_size ∧
      ax.stop a.const = py_div (ax.p a.end_) a.voxel_size ∧
      ax.step a.const =
        (axis_setup (ax.p a.end_ - ax.p a.start) (ax.p a.start) a.voxel_size).1 ∧
      ax.tDelta a.const =
        (axis_setup (ax.p a.end_ - ax.p a.start) (ax.p a.start) a.voxel_size).2.1 ∧
      ax.threshold a.init =
        axis_fix (axis_setup (ax.p a.end_ - ax.p a.start) (ax.p a.start) a.voxel_size) ∧
      ax.coord a.init = py_div (ax.p a.start) a.voxel_size ∧ ax.mult a.init = 0 := by
  cases ax <;> exact ⟨rfl, rfl, rfl, rfl, rfl, rfl, rfl⟩

theorem geom_ok_init (a : WalkArgs) (hv : 0 < a.voxel_size) : geom_ok a a.init := by
  intro ax
  obtain ⟨_, _, _, _, h5, h6, h7⟩ := const_axis a ax
  rw [h5, h6, h7, py_div_eq_floor _ _ hv.ne']
  exact axis_geom_init _ _ _ hv

/-- A step taken at an entry threshold below 1 keeps the relation to the ray. -/
theorem geom_ok_advance (a : WalkArgs) (s : WalkState) (hv : 0 < a.voxel_size)
    (h : geom_ok a s) (ht : entry_t s < ((1 : ℚ) : WithTop ℚ)) :
    geom_ok a (advance a.const s) := by
  intro ax
  by_cases hax : ax = chosen_axis s
  · obtain ⟨h1, h2, h3⟩ := advance_chosen a.const s
    obtain ⟨c1, _, c3, c4, _, _, _⟩ := const_axis a (chosen_axis s)
    rw [hax, h1, h2, h3, c1, c3, c4, py_div_eq_floor _ _ hv.ne']
    have hg := h (chosen_axis s)
    rw [entry_t_eq_threshold] at ht
    exact axis_geom_step _ _ _ _ _ _ hg ht
  · obtain ⟨h1, h2, h3⟩ := advance_other a.const s ax hax
    rw [h1, h2, h3]
    exact h ax

theorem geom_ok_with_voxels (a : WalkArgs) (s : WalkState) (vox : Finset voxel)
    (h : geom_ok a s) : geom_ok a { s with empty_voxels := vox } := by
  intro ax
  have := h ax
  cases ax <;> exact this

theorem entry_t_lt_one (c : WalkConst) (s : WalkState) (htmax : c.tMax ≤ 1)
    (hl : ¬ limit_reached c s) : entry_t s < ((1 : ℚ) : WithTop ℚ) := by
  have h1 : entry_t s ≤ ((c.tMax - epsilon : ℚ) : WithTop ℚ) := entry_t_le_of_not_all_gt s _ hl
  have h2 : ((c.tMax - epsilon : ℚ) : WithTop ℚ) < ((1 : ℚ) : WithTop ℚ) := by
    have : c.tMax - epsilon < 1 := by linarith [epsilon_pos]
    exact_mod_cast this
  exact lt_of_le_of_lt h1 h2

/-- With a positive voxel size and a traversal fraction of at most 1, the locals at the
head of iteration `n` stand in the relation to the ray, and the step counters add up to
`n`. -/
theorem geom_at_head (a : WalkArgs) (hv : 0 < a.voxel_size) (htmax : a.const.tMax ≤ 1)
    (n : ℕ) (s : WalkState) (h : a.head n = some s) :
    geom_ok a s ∧ s.multX + s.multY + s.multZ = n := by
  obtain ⟨_, hst⟩ := head_eq_state_at a n s h
  refine state_at_invariant_n a.const a.voxel_occupied_by_slice a.current_slice a.diff a.init
    (fun n s => geom_ok a s ∧ s.multX + s.multY + s.multZ = n) ⟨geom_ok_init a hv, rfl⟩ ?_ n s hst
  intro n s s1 ⟨hg, hsum⟩ _ hb
  have hadv : ¬ limit_reached a.const s →
      geom_ok a (advance a.const s) ∧
        (advance a.const s).multX + (advance a.const s).multY + (advance a.const s).multZ
          = n + 1 := by
    intro hl
    refine ⟨geom_ok_advance a s hv hg (entry_t_lt_one a.const s htmax hl), ?_⟩
    unfold advance
    split_ifs <;> simp only [] <;> omega
  rcases body_result a.const a.voxel_occupied_by_slice a.current_slice a.diff s with
    ⟨_, hb2⟩ | ⟨_, hb2⟩ | ⟨⟨_, hl, _⟩, hb2⟩ | ⟨⟨_, hl, _⟩, hb2⟩
  · rw [hb2] at hb; simp at hb
  · rw [hb2] at hb; simp at hb
  · rw [hb2] at hb
    simp only [Step.cont.injEq] at hb
    rw [← hb]
    exact hadv hl
  · rw [hb2] at hb
    simp only [Step.cont.injEq] at hb
    rw [← hb]
    exact ⟨geom_ok_with_voxels a _ _ (hadv hl).1, (hadv hl).2⟩

/-- The traversal fraction is at most 1 when `max_target_proximity` is unset or
non-negative and the computed ray length is non-negative. -/
theorem const_tMax_le_one (a : WalkArgs) (hd : 0 ≤ a.dist)
    (hmtp : a.max_target_proximity = -1 ∨ 0 ≤ a.max_target_proximity) :
    a.const.tMax ≤ 1 := by
  rw [const_tMax]
  unfold tMax_of
  simp only []
  have hm1 : (if a.max_search_distance = -1 then (1 : ℚ)
      else if a.max_search_distance / a.dist > 1 then 1 else a.max_search_distance / a.dist)
      ≤ 1 := by
    split_ifs with h3 h4
    · exact le_refl _
    · exact le_refl _
    · exact not_lt.mp h4
  by_cases hset : a.max_target_proximity = -1
  · rw [if_neg (not_not.mpr hset)]
    exact hm1
  · rw [if_pos hset]
    have : 0 ≤ a.max_target_proximity / a.dist := div_nonneg (hmtp.resolve_left hset) hd
    linarith


/-- The loop is still running at the head of iteration `k` when `k` iterations of budget
do not end it. -/
theorem state_at_of_walk_loop_none (c : WalkConst) (idx : OccupancyIndex) (cur diff : ℕ) :
    ∀ (k : ℕ) (s0 : WalkState), walk_loop c idx cur diff k s0 = none →
      ∃ s, state_at c idx cur diff s0 k = some s := by
  intro k
  induction k with
  | zero => intro s0 _; exact ⟨s0, rfl⟩
  | succ k ih =>
    intro s0 h
    simp only [walk_loop] at h
    by_cases hc : loop_cond c s0
    · rw [if_pos hc] at h
      cases hb : body c idx cur diff s0 with
      | brk s1 => rw [hb] at h; simp at h
      | cont s1 =>
        rw [hb] at h
        obtain ⟨s, hs⟩ := ih s1 h
        exact ⟨s, by rw [state_at_succ_front c idx cur diff s0 s1 hc hb k]; exact hs⟩
    · rw [if_neg hc] at h
      simp at h

/-- In the relation to the ray, the counters are bounded by the Manhattan distance, and
the locals are at the end voxel when the counters add up to it. -/
theorem geom_ok_manhattan (a : WalkArgs) (hv : 0 < a.voxel_size) (s : WalkState)
    (h : geom_ok a s) :
    s.multX + s.multY + s.multZ ≤ manhattan a.const ∧
      (s.multX + s.multY + s.multZ = manhattan a.const → ¬ loop_cond a.const s) := by
  have hx := axis_geom_end _ _ _ _ _ _ hv (h Axis.X)
  have hy := axis_geom_end _ _ _ _ _ _ hv (h Axis.Y)
  have hz := axis_geom_end _ _ _ _ _ _ hv (h Axis.Z)
  have cx := const_axis a Axis.X
  have cy := const_axis a Axis.Y
  have cz := const_axis a Axis.Z
  rw [py_div_eq_floor _ _ hv.ne', py_div_eq_floor _ _ hv.ne'] at cx cy cz
  obtain ⟨cx1, cx2, _⟩ := cx
  obtain ⟨cy1, cy2, _⟩ := cy
  obtain ⟨cz1, cz2, _⟩ := cz
  rw [← cx1, ← cx2] at hx
  rw [← cy1, ← cy2] at hy
  rw [← cz1, ← cz2] at hz
  simp only [Axis.mult, Axis.coord, Axis.start, Axis.stop, Axis.threshold] at hx hy hz
  unfold manhattan
  constructor
  · omega
  · intro hsum
    have e1 := hx.2.1 (by omega)
    have e2 := hy.2.1 (by omega)
    have e3 := hz.2.1 (by omega)
    unfold loop_cond
    rw [e1, e2, e3]
    simp

/-- In the relation to the ray, the locals are at the end voxel when all three thresholds
are above 1. -/
theorem geom_ok_overrun (a : WalkArgs) (hv : 0 < a.voxel_size) (s : WalkState)
    (h : geom_ok a s) (ho : overrun s) : ¬ loop_cond a.const s := by
  have hx := axis_geom_end _ _ _ _ _ _ hv (h Axis.X)
  have hy := axis_geom_end _ _ _ _ _ _ hv (h Axis.Y)
  have hz := axis_geom_end _ _ _ _ _ _ hv (h Axis.Z)
  have cx := const_axis a Axis.X
  have cy := const_axis a Axis.Y
  have cz := const_axis a Axis.Z
  rw [py_div_eq_floor _ _ hv.ne', py_div_eq_floor _ _ hv.ne'] at cx cy cz
  obtain ⟨_, cx2, _⟩ := cx
  obtain ⟨_, cy2, _⟩ := cy
  obtain ⟨_, cz2, _⟩ := cz
  have hone : ((1 : ℚ) : WithTop ℚ) < ((1 + epsilon : ℚ) : WithTop ℚ) := by
    have : (1 : ℚ) < 1 + epsilon := by linarith [epsilon_pos]
    exact_mod_cast this
  obtain ⟨o1, o2, o3⟩ := ho
  have e1 := hx.2.2 (lt_trans hone o1)
  have e2 := hy.2.2 (lt_trans hone o2)
  have e3 := hz.2.2 (lt_trans hone o3)
  rw [← cx2] at e1
  rw [← cy2] at e2
  rw [← cz2] at e3
  simp only [Axis.coord, Axis.stop] at e1 e2 e3
  unfold loop_cond
  rw [e1, e2, e3]
  simp

/-- C13: in exact arithmetic, for a positive voxel size and a configuration in which
`max_target_proximity` is unset (-1) or non-negative (the computed ray length being
non-negative, as a square root is), there is no iteration at whose head the current voxel
differs from the end voxel while all three thresholds exceed `1 + epsilon`: the body never
takes the "error 1" branch. -/
theorem overrun_unreachable (a : WalkArgs) (hv : 0 < a.voxel_size) (hd : 0 ≤ a.dist)
    (hmtp : a.max_target_proximity = -1 ∨ 0 ≤ a.max_target_proximity) :
    ∀ n s, a.head n = some s → loop_cond a.const s → ¬ overrun s := by
  intro n s hs hc ho
  have hg := (geom_at_head a hv (const_tMax_le_one a hd hmtp) n s hs).1
  exact geom_ok_overrun a hv s hg ho hc

theorem overrun_unreachable_witness :
    ((0 : ℚ) < limited_ray.voxel_size ∧ 0 ≤ limited_ray.dist ∧
      (limited_ray.max_target_proximity = -1 ∨ 0 ≤ limited_ray.max_target_proximity) ∧
      limited_ray.head 1 = some limited_ray_head1 ∧
      loop_cond limited_ray.const limited_ray_head1) ∧
    ¬ overrun limited_ray_head1 :=
  ⟨⟨by decide!, by decide!, by decide!, by decide!, by decide!⟩,
    overrun_unreachable limited_ray (by decide!) (by decide!) (by decide!) 1 limited_ray_head1
      (by decide!) (by decide!)⟩

/-- In exact arithmetic: for a positive voxel size the loop of `walk_voxels` ends for every
start, end, occupancy index and configuration; and when `max_target_proximity` is unset (-1)
or non-negative (the computed ray length being non-negative) it runs at most
`|endX - startX| + |endY - startY| + |endZ - startZ|` iterations: the body is entered only
at the head of an iteration `n` below that distance, and a budget of one more than the
distance gives a result. The rounding of doubles is outside this statement (namespace
`Doubles`). -/
theorem exact_step_bound (a : WalkArgs) (hv : 0 < a.voxel_size) :
    (∃ fuel res, a.run fuel = some res) ∧
      (0 ≤ a.dist → (a.max_target_proximity = -1 ∨ 0 ≤ a.max_target_proximity) →
        (∀ n s, a.iterates n s → n < manhattan a.const) ∧
          (∀ n s, a.head n = some s → n ≤ manhattan a.const) ∧
          (∃ res, a.run (manhattan a.const + 1) = some res)) := by
  refine ⟨run_returns a hv, ?_⟩
  intro hd hmtp
  have htmax := const_tMax_le_one a hd hmtp
  have hhead : ∀ n s, a.head n = some s → n ≤ manhattan a.const := by
    intro n s hs
    obtain ⟨hg, hsum⟩ := geom_at_head a hv htmax n s hs
    rw [← hsum]
    exact (geom_ok_manhattan a hv s hg).1
  refine ⟨?_, hhead, ?_⟩
  · rintro n s ⟨hs, hc⟩
    obtain ⟨hg, hsum⟩ := geom_at_head a hv htmax n s hs
    have hm := geom_ok_manhattan a hv s hg
    rw [hsum] at hm
    rcases Nat.lt_or_ge n (manhattan a.const) with h | h
    · exact h
    · exact absurd hc (hm.2 (Nat.le_antisymm hm.1 h))
  · by_cases hs : a.skipped
    · refine ⟨∅, ?_⟩
      unfold WalkArgs.run walk_voxels
      unfold WalkArgs.skipped at hs
      rw [if_pos hs]
    · rw [run_eq_loop a hs]
      cases hl : walk_loop a.const a.voxel_occupied_by_slice a.current_slice a.diff
          (manhattan a.const + 1) a.init with
      | none =>
        exfalso
        obtain ⟨s, hst⟩ := state_at_of_walk_loop_none _ _ _ _ _ _ hl
        have : a.head (manhattan a.const + 1) = some s := by
          unfold WalkArgs.head
          rw [if_neg hs]; exact hst
        have := hhead _ s this
        omega
      | some r => exact ⟨_, rfl⟩


/-! ## The traversal on doubles: proofs -/

namespace Doubles

/-! ### The rounding on known values -/

/-- The double nearest to `0.1`. -/
theorem rnd_tenth : rnd (1 / 10) = F64.fin (3602879701896397 / 36028797018963968) := by
  decide!

/-- The ends of the range: the largest finite double is `2^1024 - 2^971` and the midpoint
above it already rounds to infinity; the smallest positive double is `2^-1074` and half of
it rounds to zero; ties go to the even neighbour. -/
theorem rnd_limits :
    rnd (2 ^ 1024) = F64.pinf ∧ rnd (-(2 ^ 1024)) = F64.ninf ∧
      rnd (2 ^ 1024 - 2 ^ 970) = F64.pinf ∧
      rnd (2 ^ 1024 - 2 ^ 971) = F64.fin (2 ^ 1024 - 2 ^ 971) ∧
      rnd (1 / 2 ^ 1074) = F64.fin (1 / 2 ^ 1074) ∧ rnd (1 / 2 ^ 1075) = F64.fin 0 ∧
      rnd (3 / 2 ^ 1075) = F64.fin (2 / 2 ^ 1074) ∧
      rnd (1 + 1 / 2 ^ 53) = F64.fin 1 ∧ rnd (1 + 3 / 2 ^ 53) = F64.fin (1 + 4 / 2 ^ 53) := by
  decide!

/-- On doubles `py_div(-1.0, 0.1)` is -11: the quotient rounds to -10.0 while the remainder
of `fmod` is not zero. -/
theorem py_div_rounded : py_div (F64.fin (-1)) (rnd (1 / 10)) = some (-11) := by
  decide!

/-! ### Calls without caps -/

theorem tMax_of_uncapped (dist : F64) :
    tMax_of dist (F64.fin (-1)) (F64.fin (-1)) = F64.fin 1 := by
  have h1 : F64.eq (F64.fin (-1)) (F64.fin (-1)) = true := by decide!
  have h2 : F64.ne (F64.fin (-1)) (F64.fin (-1)) = false := by decide!
  simp [tMax_of, h1, h2]

theorem walk_const_uncapped (sqrt : F64 → F64) (start end_ : Point) (voxel_size : F64)
    (s e : voxel) :
    walk_const sqrt start end_ voxel_size (F64.fin (-1)) (F64.fin (-1)) s e =
      walk_const (fun x => x) start end_ voxel_size (F64.fin (-1)) (F64.fin (-1)) s e := by
  unfold walk_const
  simp only [tMax_of_uncapped]

/-- With all three caps unset the result does not depend on the square root. -/
theorem walk_voxels_uncapped (sqrt : F64 → F64) (start end_ : Point) (voxel_size : F64)
    (idx : OccupancyIndex) (cur diff fuel : ℕ) :
    walk_voxels sqrt start end_ voxel_size idx cur (F64.fin (-1)) diff (F64.fin (-1))
        (F64.fin (-1)) fuel =
      walk_voxels (fun x => x) start end_ voxel_size idx cur (F64.fin (-1)) diff (F64.fin (-1))
        (F64.fin (-1)) fuel := by
  have h2 : F64.ne (F64.fin (-1)) (F64.fin (-1)) = false := by decide!
  unfold walk_voxels
  rw [h2]
  simp only [Bool.false_and, Bool.false_eq_true, if_false, walk_const_uncapped sqrt]

/-- The walk from `(-1.1, -0.7, 0.05)` to `(-1.2, -0.8, 0.05)` with voxel size 0.1, no caps
and an empty index: the voxel keys of the two points are one step apart, two iterations do
not end the loop and the third does. -/
theorem decimal_ray_iterations (sqrt : F64 → F64) :
    voxel_of_point decimal_start (rnd (1 / 10)) = some ⟨-12, -7, 0⟩ ∧
      voxel_of_point decimal_end (rnd (1 / 10)) = some ⟨-12, -8, 0⟩ ∧
      walk_voxels sqrt decimal_start decimal_end (rnd (1 / 10)) index_none 0 (F64.fin (-1)) 0
        (F64.fin (-1)) (F64.fin (-1)) 2 = Outcome.running ∧
      walk_voxels sqrt decimal_start decimal_end (rnd (1 / 10)) index_none 0 (F64.fin (-1)) 0
        (F64.fin (-1)) (F64.fin (-1)) 3 = Outcome.returned ∅ := by
  rw [walk_voxels_uncapped sqrt, walk_voxels_uncapped sqrt]
  decide!

/-! ### A walk that does not end -/

/-- The direction `2e-310` is not zero, the increment `5 / 2e-310` overflows to infinity,
and `py_mod(-2e-311, 1.0)` rounds to `1.0`. -/
theorem tiny_arith :
    F64.ne (F64.sub tiny_end.p0 tiny_start.p0) (F64.fin 0) = true ∧
      F64.div (F64.mul (F64.fin 1) (F64.fin 5)) (F64.sub tiny_end.p0 tiny_start.p0) = F64.pinf ∧
      py_mod (F64.mul (F64.fin 1) (F64.div tiny_start.p0 (F64.fin 5))) (F64.fin 1) = F64.fin 1 ∧
      F64.mul F64.pinf (F64.sub (F64.fin 1) (F64.fin 1)) = F64.nan := by
  decide!

theorem tiny_keys :
    voxel_of_point tiny_start (F64.fin 5) = some ⟨-1, 0, 0⟩ ∧
      voxel_of_point tiny_end (F64.fin 5) = some ⟨0, 0, 0⟩ := by
  decide!

theorem tiny_axes :
    axis_setup (F64.sub tiny_end.p0 tiny_start.p0) tiny_start.p0 (F64.fin 5)
        = (1, F64.pinf, F64.nan) ∧
      axis_setup (F64.sub tiny_end.p1 tiny_start.p1) tiny_start.p1 (F64.fin 5)
        = (0, F64.fin 0, F64.pinf) ∧
      axis_setup (F64.sub tiny_end.p2 tiny_start.p2) tiny_start.p2 (F64.fin 5)
        = (0, F64.fin 0, F64.pinf) := by
  decide!

theorem tiny_walk_const (sqrt : F64 → F64) :
    walk_const sqrt tiny_start tiny_end (F64.fin 5) (F64.fin (-1)) (F64.fin (-1))
      ⟨-1, 0, 0⟩ ⟨0, 0, 0⟩ = tiny_const := by
  unfold walk_const
  simp only [tMax_of_uncapped, tiny_axes.1, tiny_axes.2.1, tiny_axes.2.2]
  rfl

theorem tiny_walk_init :
    walk_init tiny_start tiny_end (F64.fin 5) ⟨-1, 0, 0⟩ = tiny_state 0 := by
  decide!

/-- A comparison `>` with not-a-number on the left is false. -/
theorem gt_nan (y : F64) : F64.gt F64.nan y = false := by
  cases y <;> rfl

/-- A comparison `<` with not-a-number on the left is false. -/
theorem lt_nan (y : F64) : F64.lt F64.nan y = false := by
  cases y <;> rfl

/-- One iteration from the locals `tiny_state n`: neither guard fires, the Z branch is
taken with a zero step, the lookup finds no entry. -/
theorem tiny_body (n : ℕ) :
    body tiny_const index_none 0 0 (tiny_state n) = Step.cont (tiny_state (n + 1)) := by
  have ho : overrun (tiny_state n) = false := by
    simp [overrun, tiny_state, gt_nan]
  have hl : limit_reached tiny_const (tiny_state n) = false := by
    simp [limit_reached, tiny_state, gt_nan]
  have ha : advance tiny_const (tiny_state n) = tiny_state (n + 1) := by
    have h1 : F64.lt F64.pinf F64.pinf = false := rfl
    have h2 : F64.add F64.pinf (F64.fin 0) = F64.pinf := rfl
    simp [advance, tiny_state, tiny_const, lt_nan, h1, h2]
  unfold body
  rw [ho, hl, ha]
  rfl

theorem tiny_loop (fuel : ℕ) :
    ∀ n, walk_loop tiny_const index_none 0 0 fuel (tiny_state n) = none := by
  induction fuel with
  | zero => intro n; rfl
  | succ k ih =>
    intro n
    have hc : loop_cond tiny_const (tiny_state n) :=
      Or.inl (show (-1 : Int) ≠ 0 from by decide)
    rw [walk_loop, if_pos hc, tiny_body]
    exact ih (n + 1)

/-- C11 fails on doubles: the walk from `(-1e-310, 0, 0)` to `(1e-310, 0, 0)` with voxel
size 5, an empty index and no caps has finite coordinates and end points whose voxel keys
`(-1, 0, 0)` and `(0, 0, 0)` are one step apart, it enters the loop with an X threshold
that is not a number, and no number of iterations ends the loop. -/
theorem tiny_ray_never_returns (sqrt : F64 → F64) (fuel : ℕ) :
    voxel_of_point tiny_start (F64.fin 5) = some ⟨-1, 0, 0⟩ ∧
      voxel_of_point tiny_end (F64.fin 5) = some ⟨0, 0, 0⟩ ∧
      (walk_init tiny_start tiny_end (F64.fin 5) ⟨-1, 0, 0⟩).tMaxX = F64.nan ∧
      walk_voxels sqrt tiny_start tiny_end (F64.fin 5) index_none 0 (F64.fin (-1)) 0
        (F64.fin (-1)) (F64.fin (-1)) fuel = Outcome.running := by
  refine ⟨tiny_keys.1, tiny_keys.2, by rw [tiny_walk_init]; rfl, ?_⟩
  have h2 : F64.ne (F64.fin (-1)) (F64.fin (-1)) = false := by decide!
  unfold walk_voxels
  rw [h2, tiny_keys.1, tiny_keys.2]
  simp only [Bool.false_and, Bool.false_eq_true, if_false]
  rw [tiny_walk_const, tiny_walk_init, tiny_loop]

end Doubles

end PeopleRemover

namespace Frames2Kitti

/-! ## frames2kitti: proofs -/

theorem store_length (arr arr1 : List ℚ) (i : ℕ) (v : ℚ) (h : store arr i v = some arr1) :
    arr1.length = arr.length := by
  unfold store at h
  split_ifs at h
  simp only [Option.some.injEq] at h
  rw [← h, List.length_set]

theorem assign_length (t m m1 : List ℚ) (a : Assign) (h : assign t m a = some m1) :
    m1.length = m.length := by
  unfold assign at h
  cases hl : load t a.src with
  | none => rw [hl] at h; simp at h
  | some v => rw [hl] at h; exact store_length _ _ _ _ h

theorem run_all_assign_length (t : List ℚ) :
    ∀ (l : List Assign) (m m1 : List ℚ), run_all (assign t) l m = some m1 →
      m1.length = m.length := by
  intro l
  induction l with
  | nil =>
    intro m m1 h
    simp only [run_all, Option.some.injEq] at h
    rw [h]
  | cons a l ih =>
    intro m m1 h
    simp only [run_all] at h
    cases ha : assign t m a with
    | none => rw [ha] at h; simp at h
    | some m2 =>
      rw [ha] at h
      rw [ih m2 m1 h, assign_length t m m2 a ha]

theorem run_all_append {α : Type} (f : List ℚ → α → Option (List ℚ)) :
    ∀ (l1 l2 : List α) (m : List ℚ),
      run_all f (l1 ++ l2) m =
        match run_all f l1 m with
        | none => none
        | some m1 => run_all f l2 m1 := by
  intro l1
  induction l1 with
  | nil => intro l2 m; rfl
  | cons a l1 ih =>
    intro l2 m
    simp only [List.cons_append, run_all]
    cases f m a with
    | none => rfl
    | some m2 => exact ih l2 m2

/-- With `inMatrix` of its declared length 12, the conversion fails for every frame: the
assignment `inMatrix[12] = tMatrix[3]` is an access past the end of the array. -/
theorem convert_fails (inMatrix tMatrix : List ℚ) (h : inMatrix.length = 12) :
    convert inMatrix tMatrix = none := by
  unfold convert
  have hsplit : assignments = assignments.take 12 ++ assignments.drop 12 := by
    rw [List.take_append_drop]
  rw [hsplit, run_all_append]
  cases h12 : run_all (assign tMatrix) (assignments.take 12) inMatrix with
  | none => rfl
  | some m =>
    have hlen : m.length = 12 := by
      rw [run_all_assign_length tMatrix _ inMatrix m h12, h]
    have hfail : run_all (assign tMatrix) (assignments.drop 12) m = none := by
      show run_all (assign tMatrix)
        (⟨12, 3, false⟩ :: [⟨13, 7, false⟩, ⟨14, 11, false⟩, ⟨15, 15, false⟩]) m = none
      simp only [run_all]
      have : assign tMatrix m ⟨12, 3, false⟩ = none := by
        unfold assign
        cases load tMatrix 3 with
        | none => rfl
        | some v =>
          simp only [store]
          rw [if_neg (by rw [hlen]; decide)]
      rw [this]
    simp only [hfail]

/-- C20 fails on the code: with `inMatrix` of its declared length 12 the conversion is an
access past the end of the array for every frame, because lines 128-131 assign
`inMatrix[12]`, `inMatrix[13]`, `inMatrix[14]` and `inMatrix[15]`; these four are the only
indices not below 12, and an array of length 16 would hold all accesses. Every index of
`tMatrix` that is read is below 17. -/
theorem pose_conversion_leaves_inMatrix :
    (∀ inMatrix tMatrix : List ℚ, inMatrix.length = 12 → convert inMatrix tMatrix = none) ∧
      inMatrix_indices.filter (fun i => decide (¬ i < 12)) = [12, 13, 14, 15] ∧
      (∀ i ∈ tMatrix_indices, i < 17) ∧
      convert (List.replicate 16 0) identity_frame =
        some [1, 0, 0, 0, 0, 1, 0, 0, 0, 0, 1, 0, 0, 0, 0, 1] := by
  refine ⟨convert_fails, by decide!, by decide!, by decide!⟩

theorem pose_conversion_leaves_inMatrix_witness :
    (List.replicate 12 (0 : ℚ)).length = 12 ∧
      convert (List.replicate 12 0) identity_frame = none :=
  ⟨by decide, pose_conversion_leaves_inMatrix.1 (List.replicate 12 0) identity_frame (by decide)⟩

end Frames2Kitti
